import Mathlib

/-!
# Verification of the Rubik's cube solver (`src/rubiks.rs`, `src/solver.rs`)

A shallow embedding of the data model and operations of the repository:

* the turn algebra (`Turn`, the axis-based/face-based conversions,
  `invert`, `commutes_with`, `change_cube_size_hold_center`),
* the move algebra (`Move`, `invert`, `append`, `is_next_turn_efficient`,
  the `PartialEq` implementation),
* the cube state (`RubiksCubeState`): facelet data, `turn`, `do_move`,
  `rotate_cube`, `all_turns`, `is_solved`, `from_state_string`,
  `from_corners_to_2x2x2`, `rotate_to_normal_2x2x2`, the hash
  canonicalization, and
* the solver (`solve_dpll`, `calc_corner_heuristics`).

The cube state's `Vec<Color>` is modelled as a total function `ℕ → Color`
together with the edge length `n`; every read and write of the vector is
translated at the same index, so the function agrees with the vector on all
indices below `6·n²` (the vector's length) and is never inspected beyond it
by any modelled operation on well-formed input.  In-place mutation is
modelled by `Function.update` in exactly the source's assignment order.
`assert!`/`assert_eq!` preconditions of the source are modelled as
hypotheses of the theorems; `panic!`-like control flow (`unimplemented!`,
out-of-bounds indexing) is modelled by `Option`/`Except` results where a
claim depends on it.
-/

namespace Rubiks

variable {α : Type}

/-- WGRBOY color (`enum Color` in `src/rubiks.rs`). -/
inductive Color
  | White
  | Green
  | Red
  | Blue
  | Orange
  | Yellow
  deriving DecidableEq, Repr, Fintype

/-- ULFRBD face (`enum Face`). -/
inductive Face
  | Up
  | Left
  | Front
  | Right
  | Back
  | Down
  deriving DecidableEq, Repr, Fintype

/-- XYZ axis (`enum Axis`). -/
inductive Axis
  | X
  | Y
  | Z
  deriving DecidableEq, Repr, Fintype

/-- The discriminant of a face, as used by `face as usize` in `rotate_face`. -/
def Face.idx : Face → ℕ
  | .Up => 0
  | .Left => 1
  | .Front => 2
  | .Right => 3
  | .Back => 4
  | .Down => 5

/-- Single slice quarter turn (`enum Turn`): either axis-based
(axis, rotation sense, signed layer index, cube size) or face-based
(face, inversion flag, layers-in, cube size). -/
inductive Turn
  | axisBased (axis : Axis) (posRot : Bool) (index : ℤ) (cubeSize : ℕ)
  | faceBased (face : Face) (inv : Bool) (numIn : ℕ) (cubeSize : ℕ)
  deriving DecidableEq, Repr

/-- `impl Default for Turn`. -/
instance : Inhabited Turn := ⟨Turn.faceBased Face.Up false 0 3⟩

/-- `Turn::into_face_based`.  The source computes `cube_size/2 - index as usize`
in `usize` arithmetic; for the valid turns quantified over by the claims the
subtraction does not underflow, and we use truncated `ℕ` subtraction. -/
def Turn.intoFaceBased : Turn → Turn
  | .axisBased .X posRot index cs =>
    if 0 < index then .faceBased .Left posRot (cs / 2 - index.toNat) cs
    else .faceBased .Right (!posRot) (cs / 2 - (-index).toNat) cs
  | .axisBased .Y posRot index cs =>
    if 0 < index then .faceBased .Front posRot (cs / 2 - index.toNat) cs
    else .faceBased .Back (!posRot) (cs / 2 - (-index).toNat) cs
  | .axisBased .Z posRot index cs =>
    if 0 < index then .faceBased .Up posRot (cs / 2 - index.toNat) cs
    else .faceBased .Down (!posRot) (cs / 2 - (-index).toNat) cs
  | t@(.faceBased ..) => t

/-- `Turn::into_axis_based`.  The source computes `cube_size as isize/2 -
num_in as isize` and `- (cube_size as isize)/2 + num_in as isize`; since
`cube_size ≥ 0`, the truncated `isize` division equals floor division of the
natural `cube_size/2`, which is how we write it. -/
def Turn.intoAxisBased : Turn → Turn
  | .faceBased .Up inv numIn cs => .axisBased .Z inv (((cs / 2 : ℕ) : ℤ) - (numIn : ℤ)) cs
  | .faceBased .Left inv numIn cs => .axisBased .X inv (((cs / 2 : ℕ) : ℤ) - (numIn : ℤ)) cs
  | .faceBased .Front inv numIn cs => .axisBased .Y inv (((cs / 2 : ℕ) : ℤ) - (numIn : ℤ)) cs
  | .faceBased .Right inv numIn cs => .axisBased .X (!inv) (-((cs / 2 : ℕ) : ℤ) + (numIn : ℤ)) cs
  | .faceBased .Back inv numIn cs => .axisBased .Y (!inv) (-((cs / 2 : ℕ) : ℤ) + (numIn : ℤ)) cs
  | .faceBased .Down inv numIn cs => .axisBased .Z (!inv) (-((cs / 2 : ℕ) : ℤ) + (numIn : ℤ)) cs
  | t@(.axisBased ..) => t

/-- `Turn::change_cube_size_hold_center`.  `index.abs() as usize` is
`Int.natAbs`.  The `unreachable!()` branch (a face-based result of
`into_axis_based`) cannot occur; we return the input there. -/
def Turn.changeCubeSizeHoldCenter (t : Turn) (newCubeSize : ℕ) : Except Unit Turn :=
  match t.intoAxisBased with
  | .axisBased axis posRot index _ =>
    if newCubeSize / 2 < index.natAbs then .error ()
    else .ok (.axisBased axis posRot index newCubeSize)
  | u@(.faceBased ..) => .ok u

/-- `Turn::invert`. -/
def Turn.invert : Turn → Turn
  | .axisBased axis posRot index cs => .axisBased axis (!posRot) index cs
  | .faceBased face inv numIn cs => .faceBased face (!inv) numIn cs

/-- The axis of `t.into_axis_based()`; the face-based default is unreachable. -/
def Turn.axisOf (t : Turn) : Axis :=
  match t.intoAxisBased with
  | .axisBased axis _ _ _ => axis
  | .faceBased .. => .X

/-- The signed index of `t.into_axis_based()`; default unreachable. -/
def Turn.indexOf (t : Turn) : ℤ :=
  match t.intoAxisBased with
  | .axisBased _ _ index _ => index
  | .faceBased .. => 0

/-- `Turn::commutes_with`: same axis after conversion. -/
def Turn.commutesWith (t other : Turn) : Bool :=
  decide (t.axisOf = other.axisOf)

/-- `impl PartialEq for Turn`: an axis-based turn compares the fields of
`other.into_axis_based()`, a face-based turn those of `other.into_face_based()`. -/
def Turn.eqB (t other : Turn) : Bool :=
  match t with
  | .axisBased axis1 posRot1 index1 cs1 =>
    match other.intoAxisBased with
    | .axisBased axis2 posRot2 index2 cs2 =>
      decide (axis1 = axis2 ∧ posRot1 = posRot2 ∧ index1 = index2 ∧ cs1 = cs2)
    | .faceBased .. => false
  | .faceBased face1 inv1 numIn1 cs1 =>
    match other.intoFaceBased with
    | .faceBased face2 inv2 numIn2 cs2 =>
      decide (face1 = face2 ∧ inv1 = inv2 ∧ numIn1 = numIn2 ∧ cs1 = cs2)
    | .axisBased .. => false

/-- A list of turns (`struct Move`). -/
structure Move where
  turns : List Turn
  deriving DecidableEq, Repr

/-- `Move::empty`. -/
def Move.empty : Move := ⟨[]⟩

/-- `Move::invert`: reverse the order and invert each turn. -/
def Move.invert (m : Move) : Move := ⟨m.turns.reverse.map Turn.invert⟩

/-- `Move::append` / the `*` operator: ordered concatenation. -/
def Move.mul (m other : Move) : Move := ⟨m.turns ++ other.turns⟩

/-- `Turn::as_move`. -/
def Turn.asMove (t : Turn) : Move := ⟨[t]⟩

/-- `impl PartialEq for Move`: compares only positions `0..self.turns.len()`.
Indexing `other.turns[i]` out of bounds panics in Rust; the panic is modelled
by `none`. -/
def Move.eqB : List Turn → List Turn → Option Bool
  | [], _ => some true
  | _ :: _, [] => none
  | t :: ts, u :: us => if t.eqB u then Move.eqB ts us else some false

/-- `Move::is_next_turn_efficient`. -/
def Move.isNextTurnEfficient (m : Move) (nextTurn : Turn) : Bool :=
  match m.turns.getLast? with
  | none => true
  | some lastTurn =>
    if lastTurn.invert.eqB nextTurn then false
    else if 1 < m.turns.length ∧
        (m.turns.getD (m.turns.length - 2) default).eqB lastTurn ∧ lastTurn.eqB nextTurn then
      false
    else if nextTurn.commutesWith lastTurn then
      match lastTurn.axisOf with
      | .Z => decide (nextTurn.axisOf ≠ .Z ∨ nextTurn.indexOf ≤ lastTurn.indexOf)
      | .Y => decide (nextTurn.axisOf ≠ .Y ∨ nextTurn.indexOf ≤ lastTurn.indexOf)
      | .X => decide (nextTurn.axisOf ≠ .X ∨ nextTurn.indexOf ≤ lastTurn.indexOf)
    else true

/-- Rubik's cube state (`struct RubiksCubeState`): edge length `n` and the
facelet vector, modelled as a total function; indices `≥ 6·n²` are outside
the vector and are never read or written by the modelled operations. -/
structure CubeState where
  n : ℕ
  data : ℕ → Color

/-- The color of face block `f` in `std_solved_nxnxn`: W,G,R,B,O,Y for ULFRBD. -/
def stdColor : ℕ → Color
  | 0 => .White
  | 1 => .Green
  | 2 => .Red
  | 3 => .Blue
  | 4 => .Orange
  | _ => .Yellow

/-- `RubiksCubeState::std_solved_nxnxn`: six uniform `n²` blocks. -/
def stdSolved (n : ℕ) : CubeState :=
  { n := n, data := fun p => if p < 6 * (n * n) then stdColor (p / (n * n)) else .White }

/-- `temp = d[a]; d[a] = d[b]; d[b] = d[c]; d[c] = d[e]; d[e] = temp` —
the in-place 4-cycle pattern used by every strip permutation in
`RubiksCubeState::turn` and `rotate_cube`, in the source's assignment order. -/
def cyc4 (a b c e : ℕ) (f : ℕ → α) : ℕ → α :=
  let temp := f a
  let f1 := Function.update f a (f b)
  let f2 := Function.update f1 b (f1 c)
  let f3 := Function.update f2 c (f2 e)
  Function.update f3 e temp

/-- `RubiksCubeState::rotate_face`: rotate the `n×n` block at `offset`
90° clockwise (`inv = false`) or counter-clockwise (`inv = true`).  The
source fills a temporary block from the old data and writes it back, so the
new value at `offset + i*n + j` reads the old data at the source's index. -/
def rotateFaceData (n offset : ℕ) (inv : Bool) (f : ℕ → α) : ℕ → α :=
  fun p =>
    if offset ≤ p ∧ p < offset + n * n then
      let q := p - offset
      let i := q / n
      let j := q % n
      if inv then f (offset + j * n + (n - i - 1))
      else f (offset + (n - j - 1) * n + i)
    else f p

/-- The `for i in 0..count` loop of 4-cycles in `turn`/`rotate_cube`. -/
def stripCycle (count : ℕ) (idx : ℕ → ℕ × ℕ × ℕ × ℕ) (f : ℕ → α) : ℕ → α :=
  (List.range count).foldl
    (fun g i => cyc4 (idx i).1 (idx i).2.1 (idx i).2.2.1 (idx i).2.2.2 g) f

/-- The four strip indices cycled by `RubiksCubeState::turn` for loop index
`i`, copied verbatim from the source (`fo` is `face_offset = n*n`).  The
tuple `(a,b,c,e)` stands for `temp = d[a]; d[a] = d[b]; d[b] = d[c];
d[c] = d[e]; d[e] = temp`. -/
def turnStripIdx (n : ℕ) (face : Face) (inv : Bool) (numIn : ℕ) (i : ℕ) :
    ℕ × ℕ × ℕ × ℕ :=
  let fo := n * n
  match face with
  | .Up =>
    let ro := n * numIn
    if inv then (fo + ro + i, fo * 4 + ro + i, fo * 3 + ro + i, fo * 2 + ro + i)
    else (fo + ro + i, fo * 2 + ro + i, fo * 3 + ro + i, fo * 4 + ro + i)
  | .Left =>
    let ro := numIn
    if inv then
      (i * n + ro, fo * 2 + i * n + ro, fo * 5 + i * n + ro,
        fo * 4 + (n - i - 1) * n + (n - ro - 1))
    else
      (i * n + ro, fo * 4 + (n - i - 1) * n + (n - ro - 1), fo * 5 + i * n + ro,
        fo * 2 + i * n + ro)
  | .Front =>
    if inv then
      ((n - numIn - 1) * n + i, fo * 3 + i * n + numIn, fo * 5 + numIn * n + (n - i - 1),
        fo * 1 + (n - i - 1) * n + (n - numIn - 1))
    else
      ((n - numIn - 1) * n + i, fo * 1 + (n - i - 1) * n + (n - numIn - 1),
        fo * 5 + numIn * n + (n - i - 1), fo * 3 + i * n + numIn)
  | .Right =>
    let ro := n - numIn - 1
    if inv then
      (i * n + ro, fo * 4 + (n - i - 1) * n + (n - ro - 1), fo * 5 + i * n + ro,
        fo * 2 + i * n + ro)
    else
      (i * n + ro, fo * 2 + i * n + ro, fo * 5 + i * n + ro,
        fo * 4 + (n - i - 1) * n + (n - ro - 1))
  | .Back =>
    if inv then
      (n * numIn + i, fo * 1 + (n - i - 1) * n + numIn,
        fo * 5 + (n - numIn - 1) * n + (n - i - 1), fo * 3 + i * n + (n - numIn - 1))
    else
      (n * numIn + i, fo * 3 + i * n + (n - numIn - 1),
        fo * 5 + (n - numIn - 1) * n + (n - i - 1), fo * 1 + (n - i - 1) * n + numIn)
  | .Down =>
    let ro := n * (n - numIn - 1)
    if inv then (fo + ro + i, fo * 2 + ro + i, fo * 3 + ro + i, fo * 4 + ro + i)
    else (fo + ro + i, fo * 4 + ro + i, fo * 3 + ro + i, fo * 2 + ro + i)

/-- The data transformation of `RubiksCubeState::turn` for a face-based turn:
rotate the face's own block when `num_in = 0`, then cycle the four strips. -/
def turnData (n : ℕ) (face : Face) (inv : Bool) (numIn : ℕ) (d0 : ℕ → α) : ℕ → α :=
  let d1 := if numIn = 0 then rotateFaceData n (n * n * face.idx) inv d0 else d0
  stripCycle n (turnStripIdx n face inv numIn) d1

/-- `RubiksCubeState::turn`.  The source asserts `cube_size = n` and
`num_in < n/2`; these are hypotheses of the theorems.  The axis-based
fallthrough of the inner `if let` is unreachable. -/
def CubeState.turn (s : CubeState) (t : Turn) : CubeState :=
  match t.intoFaceBased with
  | .faceBased face inv numIn _ => { n := s.n, data := turnData s.n face inv numIn s.data }
  | .axisBased .. => s

/-- `RubiksCubeState::do_move`: apply each turn in sequence. -/
def CubeState.doMove (s : CubeState) (m : Move) : CubeState :=
  m.turns.foldl CubeState.turn s

/-- `RubiksCubeState::all_turns`: for each face (in ULFRBD order) and each
`i < n/2`, the inverted then the non-inverted face-based turn. -/
def CubeState.allTurns (s : CubeState) : List Turn :=
  (List.range 6).flatMap fun faceId =>
    let face : Face := match faceId with
      | 0 => .Up
      | 1 => .Left
      | 2 => .Front
      | 3 => .Right
      | 4 => .Back
      | _ => .Down
    (List.range (s.n / 2)).flatMap fun i =>
      [Turn.faceBased face true i s.n, Turn.faceBased face false i s.n]

/-- `RubiksCubeState::is_solved`: every facelet of a face equals that face's
first facelet. -/
def CubeState.isSolved (s : CubeState) : Prop :=
  ∀ face < 6, ∀ i < s.n * s.n, s.data (s.n * s.n * face + i) = s.data (s.n * s.n * face)

instance (s : CubeState) : Decidable s.isSolved := by
  unfold CubeState.isSolved; infer_instance

/-- `impl PartialEq for RubiksCubeState`: equal sizes and equal facelet
vectors (all `6·n²` entries). -/
def CubeState.eqv (s other : CubeState) : Prop :=
  s.n = other.n ∧ ∀ i < 6 * (s.n * s.n), s.data i = other.data i

instance (s other : CubeState) : Decidable (s.eqv other) := by
  unfold CubeState.eqv; exact instDecidableAnd

/-- `RubiksCubeState::rotate_cube`: whole-cube rotation about an axis, as in
the source: face rotations, a 4-cycle of whole face blocks, more face
rotations.  The block 4-cycles are `for i in 0..nn` loops of the `cyc4`
pattern. -/
def CubeState.rotateCube (s : CubeState) (axis : Axis) : CubeState :=
  let n := s.n
  let nn := n * n
  match axis with
  | .X =>
    let d1 := rotateFaceData n (nn * Face.idx .Back) false s.data
    let d2 := rotateFaceData n (nn * Face.idx .Back) false d1
    let d3 := rotateFaceData n (nn * Face.idx .Right) false d2
    let d4 := rotateFaceData n (nn * Face.idx .Left) true d3
    let d5 := stripCycle nn (fun i => (i, 2 * nn + i, 5 * nn + i, 4 * nn + i)) d4
    let d6 := rotateFaceData n (nn * Face.idx .Back) false d5
    let d7 := rotateFaceData n (nn * Face.idx .Back) false d6
    { n := n, data := d7 }
  | .Y =>
    let d1 := rotateFaceData n (nn * Face.idx .Back) false s.data
    let d2 := rotateFaceData n (nn * Face.idx .Front) true d1
    let d3 := stripCycle nn (fun i => (i, 3 * nn + i, 5 * nn + i, 1 * nn + i)) d2
    let d4 := rotateFaceData n (nn * Face.idx .Up) true d3
    let d5 := rotateFaceData n (nn * Face.idx .Left) true d4
    let d6 := rotateFaceData n (nn * Face.idx .Down) true d5
    let d7 := rotateFaceData n (nn * Face.idx .Right) true d6
    { n := n, data := d7 }
  | .Z =>
    let d1 := rotateFaceData n (nn * Face.idx .Down) false s.data
    let d2 := rotateFaceData n (nn * Face.idx .Up) true d1
    let d3 := stripCycle nn (fun i => (1 * nn + i, 4 * nn + i, 3 * nn + i, 2 * nn + i)) d2
    { n := n, data := d3 }

/-- The reference-corner check of `rotate_to_normal_2x2x2` and of the `Hash`
implementation: `data[15] = Blue ∧ data[18] = Orange ∧ data[23] = Yellow`. -/
def CubeState.isNormal2 (s : CubeState) : Prop :=
  s.data 15 = Color.Blue ∧ s.data 18 = Color.Orange ∧ s.data 23 = Color.Yellow

instance (s : CubeState) : Decidable s.isNormal2 := by
  unfold CubeState.isNormal2; exact instDecidableAnd

/-- Inner `for _ in 0..4 { check; rotate Z }` loop of
`rotate_to_normal_2x2x2`/`Hash`: returns the matching state if found, and
the state after the remaining rotations otherwise. -/
def tryZ : ℕ → CubeState → Option CubeState × CubeState
  | 0, s => (none, s)
  | k + 1, s =>
    if s.isNormal2 then (some s, s)
    else tryZ k (s.rotateCube .Z)

/-- Middle `for _ in 0..4 { tryZ; rotate Y }` loop. -/
def tryY : ℕ → CubeState → Option CubeState × CubeState
  | 0, s => (none, s)
  | k + 1, s =>
    match tryZ 4 s with
    | (some r, _) => (some r, s)
    | (none, s1) => tryY k (s1.rotateCube .Y)

/-- Outer `for _ in 0..4 { tryY; rotate X }` loop. -/
def tryX : ℕ → CubeState → Option CubeState × CubeState
  | 0, s => (none, s)
  | k + 1, s =>
    match tryY 4 s with
    | (some r, _) => (some r, s)
    | (none, s1) => tryX k (s1.rotateCube .X)

/-- `RubiksCubeState::rotate_to_normal_2x2x2`: returns unchanged unless
`n = 2`; otherwise rotates through the `4×4×4` enumeration until the
reference corner matches, keeping the final mutated state when no
orientation matches (in the source the function simply runs out of loop
iterations in that case). -/
def CubeState.rotateToNormal2 (s : CubeState) : CubeState :=
  if s.n ≠ 2 then s
  else
    match tryX 4 s with
    | (some r, _) => r
    | (none, s1) => s1

/-- The canonical facelet data hashed by `impl Hash for RubiksCubeState`:
the first orientation in the `4×4×4` rotation enumeration whose reference
corner matches.  `none` models the `unimplemented!()` panic (for `n ≠ 2` or
when no orientation matches).  Two states hash identically iff their
canonical data agree, since the hasher consumes exactly this data. -/
def CubeState.hashCanon (s : CubeState) : Option CubeState :=
  if s.n ≠ 2 then none
  else (tryX 4 s).1

/-- The character-to-color match in `from_state_string` (after
`to_ascii_lowercase`).  The `_ => unimplemented!()` arm panics; `none`
models it. -/
def colorOfChar (c : Char) : Option Color :=
  match c.toLower with
  | 'w' => some .White
  | 'g' => some .Green
  | 'r' => some .Red
  | 'b' => some .Blue
  | 'o' => some .Orange
  | 'y' => some .Yellow
  | _ => none

/-- `io::ErrorKind` values distinguished by the model. -/
inductive ParseErr
  | invalidData
  deriving DecidableEq, Repr

/-- `RubiksCubeState::from_state_string`.  The source checks
`len % 6 = 0` and `f64::sqrt(len/6).floor()^2 = len/6` and takes
`n = floor(sqrt(len/6))`; for every length below `2^52` the floating-point
computation agrees exactly with `Nat.sqrt`, which is how we model it.
`none` models the `unimplemented!()` panic on an unrecognized character
(never reached for the 6-letter inputs the claims quantify over). -/
def fromStateString (s : List Char) : Option (Except ParseErr CubeState) :=
  let len := s.length
  if len % 6 ≠ 0 ∨ Nat.sqrt (len / 6) ^ 2 ≠ len / 6 then
    some (.error .invalidData)
  else
    let n := Nat.sqrt (len / 6)
    if s.all fun c => (colorOfChar c).isSome then
      some (.ok
        { n := n
          data := fun i =>
            if h : i < len then ((colorOfChar (s.get ⟨i, h⟩)).getD .White) else .White })
    else none

/-- The facelet index of the full cube read for entry `q` of the corner
projection `from_corners_to_2x2x2` (for `n ≥ 2`): the fold over `n`-chunks
keeps, from each face, rows `0` and `n-1`, and from each kept row the first
and last entry, in order; entry `q = 4·f + 2·r + c` therefore reads the full
cube at face `f`, row `r·(n-1)`, column `c·(n-1)`. -/
def cornerPosMap (n q : ℕ) : ℕ :=
  (q / 4) * (n * n) + ((q % 4) / 2 * (n - 1)) * n + q % 2 * (n - 1)

/-- `RubiksCubeState::from_corners_to_2x2x2` (for a source cube of size
`n ≥ 2`): the synthetic 2x2x2 state whose 24 facelets are the corner
facelets of `ref_state`. -/
def CubeState.fromCornersTo2 (s : CubeState) : CubeState :=
  { n := 2, data := fun q => if q < 24 then s.data (cornerPosMap s.n q) else .White }

end Rubiks

namespace Rubiks

variable {α : Type}

/-! ## Solver (`src/solver.rs`) -/

/-- `enum RubikSolveError`. -/
inductive SolveErr
  | unsolveable
  | badInput
  | noHeuristicsTable
  deriving DecidableEq, Repr

/-- A corner heuristics table (`HeuristicsTables.corners` content), modelled
extensionally as the lookup function of the `HashMap` (`get` by state
equality). -/
def CornerTable := CubeState → Option ℕ

/-- `RubiksCubeSolver::calc_corner_heuristics` for a solver whose
`heuristic_table` is `table` (`none` models an absent table or absent
corner map): look up the rotation-normalized corner projection. -/
def calcCornerHeuristics (table : Option CornerTable) (s : CubeState) : Option ℕ :=
  match table with
  | none => none
  | some tbl => tbl (s.fromCornersTo2.rotateToNormal2)

/-- One popped work item of `solve_dpll`'s loop together with the mutable
search context: the `state_history` array and the `possible_turns` stack
(head = top of the Rust `Vec`). -/
structure DpllCtx where
  hist : ℕ → Option (Move × CubeState)
  stack : List (ℕ × Turn)

/-- The body of `solve_dpll`'s `while let` loop for one popped `(i, turn)`:
either a final result or the updated context.  Mirrors the source: extend
the history, test solvedness, test the depth bound, consult the corner
heuristic (pruning when `h_val > k-1`), and push the efficient successor
turns (pushed in `all_turns` order, so they sit reversed on the list-head
stack). -/
def dpllStep (table : Option CornerTable) (root : CubeState) (k : ℕ)
    (i : ℕ) (t : Turn) (ctx : DpllCtx) : Except SolveErr Move ⊕ DpllCtx :=
  match ctx.hist (i - 1) with
  | none => .inl (.error .badInput)
  | some (pm, ps) =>
    let mutMove : Move := ⟨pm.turns ++ [t]⟩
    let mutState := ps.turn t
    let hist1 := Function.update ctx.hist i (some (mutMove, mutState))
    if mutState.isSolved then .inl (.ok mutMove)
    else if k ≤ i then .inr { hist := hist1, stack := ctx.stack }
    else if 2 < root.n ∧ k - i < 14 ∧
        ∃ hv, calcCornerHeuristics table mutState = some hv ∧ k - 1 < hv then
      .inr { hist := hist1, stack := ctx.stack }
    else
      .inr
        { hist := hist1
          stack :=
            ((root.allTurns.filter fun tt => mutMove.isNextTurnEfficient tt).map
                fun tt => (i + 1, tt)).reverse ++ ctx.stack }

instance (table : Option CornerTable) (s : CubeState) (k i : ℕ) :
    Decidable (2 < s.n ∧ k - i < 14 ∧
      ∃ hv, calcCornerHeuristics table s = some hv ∧ k - 1 < hv) := by
  have : Decidable (∃ hv, calcCornerHeuristics table s = some hv ∧ k - 1 < hv) := by
    match h : calcCornerHeuristics table s with
    | none => exact .isFalse (by simp [h])
    | some v =>
      match Nat.decLt (k - 1) v with
      | .isTrue hlt => exact .isTrue ⟨v, rfl, hlt⟩
      | .isFalse hge => exact .isFalse (by rintro ⟨hv, hveq, hvlt⟩; cases hveq; exact hge hvlt)
  exact instDecidableAnd

/-- The `while let Some((i, rubiks_turn)) = possible_turns.pop()` loop of
`solve_dpll`, with a fuel parameter for structural termination.  Exhausting
the stack yields `Unsolveable`; the fuel is always chosen large enough that
the `fuel = 0` case (also `Unsolveable`) is unreachable, which the
completeness theorems prove. -/
def dpllLoop (table : Option CornerTable) (root : CubeState) (k : ℕ) :
    ℕ → DpllCtx → Except SolveErr Move
  | 0, _ => .error .unsolveable
  | _ + 1, ⟨_, []⟩ => .error .unsolveable
  | fuel + 1, ⟨hist, (i, t) :: rest⟩ =>
    match dpllStep table root k i t ⟨hist, rest⟩ with
    | .inl r => r
    | .inr ctx1 => dpllLoop table root k fuel ctx1

/-- Geometric fuel bound: with branching factor below `B`, the weighted
stack size `Σ B^(k-i)` strictly decreases at every loop iteration. -/
def stackWeight (B k : ℕ) (stack : List (ℕ × Turn)) : ℕ :=
  (stack.map fun it => B ^ (k - it.1)).sum

/-- `RubiksCubeSolver::solve_dpll` for a solver holding `table`: early
returns for a solved state and for `k = 0`, then the stack search seeded
with all turns at depth 1. -/
def solveDpll (table : Option CornerTable) (root : CubeState) (k : ℕ) :
    Except SolveErr Move :=
  if root.isSolved then .ok Move.empty
  else if k = 0 then .error .unsolveable
  else
    dpllLoop table root k
      (stackWeight (root.allTurns.length + 1) k ((root.allTurns.map fun t => (1, t)).reverse) + 1)
      { hist := Function.update (fun _ => none) 0 (some (Move.empty, root))
        stack := (root.allTurns.map fun t => (1, t)).reverse }

/-! ## Turn validity -/

/-- A turn that is valid for its own cube size: axis-based with
`1 ≤ |index| ≤ n/2`, face-based with `num_in < n/2`. -/
def Turn.valid : Turn → Prop
  | .axisBased _ _ index cs => 1 ≤ index.natAbs ∧ index.natAbs ≤ cs / 2
  | .faceBased _ _ numIn cs => numIn < cs / 2

instance : DecidablePred Turn.valid := fun t => by
  cases t with
  | axisBased a p i c => exact (inferInstance : Decidable (1 ≤ i.natAbs ∧ i.natAbs ≤ c / 2))
  | faceBased f v ni c => exact (inferInstance : Decidable (ni < c / 2))

lemma intoFaceBased_axis_pos (ax : Axis) (p : Bool) (i : ℤ) (cs : ℕ) (hi : 0 < i)
    (hle : i.natAbs ≤ cs / 2) :
    (Turn.axisBased ax p i cs).intoFaceBased.intoAxisBased = Turn.axisBased ax p i cs := by
  cases ax <;>
    simp only [Turn.intoFaceBased, if_pos hi, Turn.intoAxisBased,
      Turn.axisBased.injEq, true_and, and_true] <;>
    omega

lemma intoFaceBased_axis_nonpos (ax : Axis) (p : Bool) (i : ℤ) (cs : ℕ) (hi : ¬ 0 < i)
    (hle : i.natAbs ≤ cs / 2) :
    (Turn.axisBased ax p i cs).intoFaceBased.intoAxisBased = Turn.axisBased ax p i cs := by
  cases ax <;>
    simp only [Turn.intoFaceBased, if_neg hi, Turn.intoAxisBased, Bool.not_not,
      Turn.axisBased.injEq, true_and, and_true] <;>
    omega

lemma intoAxisBased_face (f : Face) (v : Bool) (ni cs : ℕ) (hni : ni < cs / 2) :
    (Turn.faceBased f v ni cs).intoAxisBased.intoFaceBased = Turn.faceBased f v ni cs := by
  cases f <;>
    simp only [Turn.intoAxisBased, Turn.intoFaceBased] <;>
    [rw [if_pos (by omega)]; rw [if_pos (by omega)]; rw [if_pos (by omega)];
      rw [if_neg (by omega)]; rw [if_neg (by omega)]; rw [if_neg (by omega)]] <;>
    simp only [Bool.not_not, Turn.faceBased.injEq, true_and, and_true] <;>
    omega

/-- C5: for every turn valid for its cube size, the coordinate conversions
round-trip exactly: `t.into_face_based().into_axis_based()` equals
`t.into_axis_based()`, and `t.into_axis_based().into_face_based()` equals
`t.into_face_based()`, reproducing every field. -/
theorem c5_turn_conversion_roundtrip (t : Turn) (h : t.valid) :
    t.intoFaceBased.intoAxisBased = t.intoAxisBased ∧
    t.intoAxisBased.intoFaceBased = t.intoFaceBased := by
  cases t with
  | axisBased ax p i cs =>
    obtain ⟨h1, h2⟩ := h
    refine ⟨?_, rfl⟩
    by_cases hi : 0 < i
    · exact intoFaceBased_axis_pos ax p i cs hi h2
    · exact intoFaceBased_axis_nonpos ax p i cs hi h2
  | faceBased f v ni cs =>
    exact ⟨rfl, intoAxisBased_face f v ni cs h⟩

/-- C5 witness: the round trip at the concrete valid turn `+X` layer 1 of a
3×3×3 cube. -/
theorem c5_witness :
    (Turn.axisBased .X true 1 3).intoFaceBased.intoAxisBased =
      (Turn.axisBased .X true 1 3).intoAxisBased ∧
    (Turn.axisBased .X true 1 3).intoAxisBased.intoFaceBased =
      (Turn.axisBased .X true 1 3).intoFaceBased :=
  c5_turn_conversion_roundtrip (Turn.axisBased .X true 1 3) (by decide)

/-! ## C8: `change_cube_size_hold_center` -/

/-- C8 (amended): for a valid turn, `change_cube_size_hold_center(t, m)`
returns `Err(())` iff the preserved axis-based index `idx` satisfies
`|idx| > ⌊m/2⌋`, and returns `Ok` of the same turn with cube size `m`
whenever `1 ≤ |idx| ≤ ⌊m/2⌋`.  (The claim stated the bound `⌈m/2⌉`, which
fails for odd `m`; the code compares against `m/2` rounded down.) -/
theorem c8_change_cube_size_hold_center (t : Turn) (_hv : t.valid) (m : ℕ)
    (ax : Axis) (p : Bool) (idx : ℤ) (cs : ℕ)
    (ht : t.intoAxisBased = .axisBased ax p idx cs) :
    (t.changeCubeSizeHoldCenter m = .error () ↔ m / 2 < idx.natAbs) ∧
    (1 ≤ idx.natAbs → idx.natAbs ≤ m / 2 →
      t.changeCubeSizeHoldCenter m = .ok (.axisBased ax p idx m)) := by
  by_cases hlt : m / 2 < idx.natAbs
  · refine ⟨⟨fun _ => hlt, fun _ => ?_⟩, fun _ hle => absurd hlt (by omega)⟩
    simp [Turn.changeCubeSizeHoldCenter, ht, hlt]
  · refine ⟨⟨fun he => ?_, fun h => absurd h hlt⟩, fun _ _ => ?_⟩
    · exfalso
      simp [Turn.changeCubeSizeHoldCenter, ht, hlt] at he
    · simp [Turn.changeCubeSizeHoldCenter, ht, hlt]

/-- C8 witness: resizing the `+X` outer-layer turn of a 4×4×4 cube to a
2×2×2 cube succeeds and keeps the index. -/
theorem c8_witness :
    ((Turn.axisBased .X true 1 4).changeCubeSizeHoldCenter 2 = .error () ↔
      2 / 2 < (1 : ℤ).natAbs) ∧
    (1 ≤ (1 : ℤ).natAbs → (1 : ℤ).natAbs ≤ 2 / 2 →
      (Turn.axisBased .X true 1 4).changeCubeSizeHoldCenter 2 =
        .ok (.axisBased .X true 1 2)) :=
  c8_change_cube_size_hold_center (Turn.axisBased .X true 1 4) (by decide) 2 .X true 1 4 rfl

/-- C8 counterexample: the turn `+X` index 2 is valid for a 5×5×5 cube and
its index 2 lies within the claim's range `±1..±⌈3/2⌉ = ±2` for the new
size 3, yet `change_cube_size_hold_center(·, 3)` returns `Err(())` because
the code's bound is `⌊3/2⌋ = 1`. -/
theorem c8_counterexample :
    (Turn.axisBased .X true 2 5).valid ∧
    (1 ≤ (2 : ℤ).natAbs ∧ (2 : ℤ).natAbs ≤ (3 + 1) / 2) ∧
    (Turn.axisBased .X true 2 5).changeCubeSizeHoldCenter 3 = .error () := by
  refine ⟨by decide, by decide, ?_⟩
  rfl

/-! ## C10: `impl PartialEq for Move` -/

/-- C10: move equality compares only the first `self.turns.len()` positions:
the empty move compares equal to every move, while comparing a non-empty
move against the empty move indexes `other.turns[0]` out of bounds and
panics (modelled by `none`). -/
theorem c10_move_partial_eq :
    (∀ M : Move, Move.eqB Move.empty.turns M.turns = some true) ∧
    (∀ M : Move, M.turns ≠ [] → Move.eqB M.turns Move.empty.turns = none) := by
  constructor
  · intro M
    rfl
  · intro M h
    match hM : M.turns with
    | [] => exact absurd hM h
    | t :: ts => rfl

/-- C10 witness: comparing the one-turn move `U0` against the empty move
panics. -/
theorem c10_witness :
    Move.eqB (Move.mk [Turn.faceBased .Up false 0 3]).turns Move.empty.turns = none :=
  c10_move_partial_eq.2 ⟨[Turn.faceBased .Up false 0 3]⟩ (by decide)

/-! ## C9: `from_state_string` -/

/-- C9 (amended): for an input over the six recognized letters,
`from_state_string` returns the `InvalidData` error iff the length is not
`6·n²` for any nonnegative `n`; for length `6·n²` it returns `Ok` of a
state of size `n` whose facelets are the parsed characters in order (faces
Up, Left, Front, Right, Back, Down, row-major).  (The claim required a
positive `n`: the empty string has length `6·0²` only, and the code accepts
it, returning a degenerate size-0 state rather than an error.) -/
theorem c9_from_state_string (s : List Char) (hall : ∀ c ∈ s, (colorOfChar c).isSome) :
    ((∀ n : ℕ, s.length ≠ 6 * n ^ 2) → fromStateString s = some (.error .invalidData)) ∧
    (∀ n : ℕ, s.length = 6 * n ^ 2 →
      ∃ st, fromStateString s = some (.ok st) ∧ st.n = n ∧
        ∀ i (h : i < s.length), st.data i = (colorOfChar (s.get ⟨i, h⟩)).getD .White) := by
  constructor
  · intro hno
    have hcond : s.length % 6 ≠ 0 ∨ Nat.sqrt (s.length / 6) ^ 2 ≠ s.length / 6 := by
      by_contra hcon
      push_neg at hcon
      obtain ⟨h6, hsq⟩ := hcon
      exact hno (Nat.sqrt (s.length / 6)) (by omega)
    unfold fromStateString
    rw [if_pos hcond]
  · intro n hn
    have h6 : s.length % 6 = 0 := by omega
    have hdiv : s.length / 6 = n ^ 2 := by omega
    have hsq : Nat.sqrt (s.length / 6) = n := by
      rw [hdiv]
      exact Nat.sqrt_eq' n
    have hcond : ¬ (s.length % 6 ≠ 0 ∨ Nat.sqrt (s.length / 6) ^ 2 ≠ s.length / 6) := by
      push_neg
      exact ⟨h6, by rw [hsq, hdiv]⟩
    have hallb : s.all (fun c => (colorOfChar c).isSome) = true := by
      rw [List.all_eq_true]
      exact hall
    refine ⟨{ n := Nat.sqrt (s.length / 6)
              data := fun i =>
                if h : i < s.length
                then ((colorOfChar (s.get ⟨i, h⟩)).getD .White) else .White },
      ?_, hsq, fun i h => ?_⟩
    · unfold fromStateString
      rw [if_neg hcond, if_pos hallb]
    · simp only [dif_pos h]

/-- C9 witness: the 6-character string `wgrboy` parses to the (solved)
1×1×1 cube. -/
theorem c9_witness :
    (∀ c ∈ ("wgrboy".toList), (colorOfChar c).isSome) ∧
    ∃ st, fromStateString ("wgrboy".toList) = some (.ok st) ∧ st.n = 1 ∧
      ∀ i (h : i < ("wgrboy".toList).length),
        st.data i = (colorOfChar (("wgrboy".toList).get ⟨i, h⟩)).getD .White :=
  ⟨by decide, (c9_from_state_string ("wgrboy".toList) (by decide)).2 1 (by decide)⟩

/-- C9 counterexample: the empty string's length 0 is `6·n²` for no positive
`n`, so the claim demands a data-format error, but the code returns `Ok` of
a size-0 state. -/
theorem c9_counterexample :
    (∀ n : ℕ, 0 < n → ([] : List Char).length ≠ 6 * n ^ 2) ∧
    fromStateString [] ≠ some (.error .invalidData) ∧
    ∃ st, fromStateString [] = some (.ok st) ∧ st.n = 0 := by
  have hres : fromStateString [] =
      some (.ok
        { n := Nat.sqrt (([] : List Char).length / 6)
          data := fun i =>
            if h : i < ([] : List Char).length
            then ((colorOfChar (([] : List Char).get ⟨i, h⟩)).getD .White) else .White }) := rfl
  refine ⟨?_, ?_, ⟨_, hres, by norm_num⟩⟩
  · intro n hn
    have : 1 ≤ n ^ 2 := Nat.one_le_pow 2 n hn
    simp only [List.length_nil]
    omega
  · rw [hres]
    simp

/-! ## Support machinery for in-place data transformations

Each primitive mutation of the facelet vector touches (reads and writes)
only a known index set; disjointly-supported mutations commute.  This is
the backbone of the inversion and commutation theorems about `turn`. -/

/-- `op` is supported on `A`: it leaves indices outside `A` unchanged and
its values on `A` depend only on the input's values on `A`. -/
def SuppOn (op : (ℕ → α) → (ℕ → α)) (A : Set ℕ) : Prop :=
  (∀ f p, p ∉ A → op f p = f p) ∧
  (∀ f g, (∀ a ∈ A, f a = g a) → ∀ p ∈ A, op f p = op g p)

lemma suppOn_mono {op : (ℕ → α) → (ℕ → α)} {A B : Set ℕ}
    (hAB : A ⊆ B) (h : SuppOn op A) : SuppOn op B := by
  obtain ⟨h1, h2⟩ := h
  constructor
  · intro f p hp
    exact h1 f p fun hA => hp (hAB hA)
  · intro f g hfg p hp
    by_cases hpA : p ∈ A
    · exact h2 f g (fun a ha => hfg a (hAB ha)) p hpA
    · rw [h1 f p hpA, h1 g p hpA]
      exact hfg p hp

lemma suppOn_comp {op1 op2 : (ℕ → α) → (ℕ → α)} {A B : Set ℕ}
    (h1 : SuppOn op1 A) (h2 : SuppOn op2 B) :
    SuppOn (fun f => op1 (op2 f)) (A ∪ B) := by
  obtain ⟨h1u, h1c⟩ := h1
  obtain ⟨h2u, h2c⟩ := h2
  constructor
  · intro f p hp
    show op1 (op2 f) p = f p
    rw [h1u _ p fun hA => hp (Or.inl hA), h2u f p fun hB => hp (Or.inr hB)]
  · intro f g hfg p hp
    show op1 (op2 f) p = op1 (op2 g) p
    have hAgree : ∀ a ∈ A, op2 f a = op2 g a := by
      intro a ha
      by_cases haB : a ∈ B
      · exact h2c f g (fun b hb => hfg b (Or.inr hb)) a haB
      · rw [h2u f a haB, h2u g a haB]
        exact hfg a (Or.inl ha)
    rcases hp with hpA | hpB
    · exact h1c _ _ hAgree p hpA
    · by_cases hpA : p ∈ A
      · exact h1c _ _ hAgree p hpA
      · rw [h1u _ p hpA, h1u _ p hpA]
        exact h2c f g (fun b hb => hfg b (Or.inr hb)) p hpB

lemma suppOn_comm {op1 op2 : (ℕ → α) → (ℕ → α)} {A B : Set ℕ}
    (h1 : SuppOn op1 A) (h2 : SuppOn op2 B)
    (hd : ∀ p, p ∈ A → p ∈ B → False) (f : ℕ → α) :
    op1 (op2 f) = op2 (op1 f) := by
  obtain ⟨h1u, h1c⟩ := h1
  obtain ⟨h2u, h2c⟩ := h2
  funext p
  by_cases hpA : p ∈ A
  · have hpB : p ∉ B := fun hB => hd p hpA hB
    rw [h2u _ p hpB]
    exact h1c _ _ (fun a ha => h2u f a fun hB => hd a ha hB) p hpA
  · by_cases hpB : p ∈ B
    · rw [h1u _ p hpA]
      exact (h2c _ _ (fun b hb => h1u f b fun hA => hd b hA hb) p hpB).symm
    · rw [h1u _ p hpA, h2u f p hpB, h2u _ p hpB, h1u f p hpA]

/-! ### `cyc4` lemmas -/

/-- Membership in a strip quadruple. -/
def q4mem (p : ℕ) (q : ℕ × ℕ × ℕ × ℕ) : Prop :=
  p = q.1 ∨ p = q.2.1 ∨ p = q.2.2.1 ∨ p = q.2.2.2

/-- The reversed 4-cycle `(a,b,c,e) ↦ (a,e,c,b)`: the index pattern of the
inverted turn's strips. -/
def rev4 (q : ℕ × ℕ × ℕ × ℕ) : ℕ × ℕ × ℕ × ℕ :=
  (q.1, q.2.2.2, q.2.2.1, q.2.1)

lemma cyc4_untouched (a b c e : ℕ) (f : ℕ → α) (p : ℕ)
    (ha : p ≠ a) (hb : p ≠ b) (hc : p ≠ c) (he : p ≠ e) :
    cyc4 a b c e f p = f p := by
  simp [cyc4, Function.update_apply, ha, hb, hc, he]

lemma cyc4_eval (a b c e : ℕ) (hab : a ≠ b) (hac : a ≠ c) (hae : a ≠ e)
    (hbc : b ≠ c) (hbe : b ≠ e) (hce : c ≠ e) (f : ℕ → α) (p : ℕ) :
    cyc4 a b c e f p =
      if p = a then f b else if p = b then f c else if p = c then f e
      else if p = e then f a else f p := by
  have hba : b ≠ a := hab.symm
  have hca : c ≠ a := hac.symm
  have hea : e ≠ a := hae.symm
  have hcb : c ≠ b := hbc.symm
  have heb : e ≠ b := hbe.symm
  have hec : e ≠ c := hce.symm
  by_cases hpa : p = a <;> by_cases hpb : p = b <;> by_cases hpc : p = c <;>
      by_cases hpe : p = e <;>
    simp_all [cyc4, Function.update_apply]

lemma cyc4_suppOn (a b c e : ℕ) :
    @SuppOn α (cyc4 a b c e) {p | q4mem p (a, b, c, e)} := by
  constructor
  · intro f p hp
    simp only [Set.mem_setOf_eq, q4mem, not_or] at hp
    exact cyc4_untouched a b c e f p hp.1 hp.2.1 hp.2.2.1 hp.2.2.2
  · intro f g hfg p hp
    have ha : f a = g a := hfg a (Or.inl rfl)
    have hb : f b = g b := hfg b (Or.inr (Or.inl rfl))
    have hc : f c = g c := hfg c (Or.inr (Or.inr (Or.inl rfl)))
    have he : f e = g e := hfg e (Or.inr (Or.inr (Or.inr rfl)))
    simp only [cyc4, Function.update_apply]
    split_ifs <;> first | exact ha | exact hb | exact hc | exact he | exact hfg p hp

lemma cyc4_inv (a b c e : ℕ) (hab : a ≠ b) (hac : a ≠ c) (hae : a ≠ e)
    (hbc : b ≠ c) (hbe : b ≠ e) (hce : c ≠ e) (f : ℕ → α) :
    cyc4 a e c b (cyc4 a b c e f) = f := by
  funext p
  rw [cyc4_eval a e c b hae hac hab (Ne.symm hce) (Ne.symm hbe) hbc.symm]
  by_cases hpa : p = a
  · rw [if_pos hpa, hpa, cyc4_eval a b c e hab hac hae hbc hbe hce]
    simp [hae.symm, hbe.symm, hce.symm]
  · rw [if_neg hpa]
    by_cases hpe : p = e
    · rw [if_pos hpe, hpe, cyc4_eval a b c e hab hac hae hbc hbe hce]
      simp [hac.symm, hbc.symm]
    · rw [if_neg hpe]
      by_cases hpc : p = c
      · rw [if_pos hpc, hpc, cyc4_eval a b c e hab hac hae hbc hbe hce]
        simp [hab.symm]
      · rw [if_neg hpc]
        by_cases hpb : p = b
        · rw [if_pos hpb, hpb, cyc4_eval a b c e hab hac hae hbc hbe hce]
          simp
        · rw [if_neg hpb]
          exact cyc4_untouched a b c e f p hpa hpb hpc hpe

/-- Pairwise distinctness of a strip quadruple. -/
def q4distinct (q : ℕ × ℕ × ℕ × ℕ) : Prop :=
  q.1 ≠ q.2.1 ∧ q.1 ≠ q.2.2.1 ∧ q.1 ≠ q.2.2.2 ∧
  q.2.1 ≠ q.2.2.1 ∧ q.2.1 ≠ q.2.2.2 ∧ q.2.2.1 ≠ q.2.2.2

lemma q4mem_rev4 (p : ℕ) (q : ℕ × ℕ × ℕ × ℕ) : q4mem p (rev4 q) ↔ q4mem p q := by
  simp only [q4mem, rev4]
  tauto

lemma cyc4_inv' (q : ℕ × ℕ × ℕ × ℕ) (h : q4distinct q) (f : ℕ → α) :
    cyc4 (rev4 q).1 (rev4 q).2.1 (rev4 q).2.2.1 (rev4 q).2.2.2
      (cyc4 q.1 q.2.1 q.2.2.1 q.2.2.2 f) = f := by
  obtain ⟨h1, h2, h3, h4, h5, h6⟩ := h
  exact cyc4_inv q.1 q.2.1 q.2.2.1 q.2.2.2 h1 h2 h3 h4 h5 h6 f

lemma stripCycle_succ (count : ℕ) (idx : ℕ → ℕ × ℕ × ℕ × ℕ) (f : ℕ → α) :
    stripCycle (count + 1) idx f =
      cyc4 (idx count).1 (idx count).2.1 (idx count).2.2.1 (idx count).2.2.2
        (stripCycle count idx f) := by
  unfold stripCycle
  rw [List.range_succ, List.foldl_append]
  rfl

lemma stripCycle_suppOn (count : ℕ) (idx : ℕ → ℕ × ℕ × ℕ × ℕ) :
    @SuppOn α (stripCycle count idx) {p | ∃ i < count, q4mem p (idx i)} := by
  induction count with
  | zero =>
    constructor
    · intro f p _
      rfl
    · intro f g _ p hp
      obtain ⟨i, hi, _⟩ := hp
      omega
  | succ k ih =>
    have hf : stripCycle (k + 1) idx =
        fun f : ℕ → α => cyc4 (idx k).1 (idx k).2.1 (idx k).2.2.1 (idx k).2.2.2
          (stripCycle k idx f) :=
      funext fun f => stripCycle_succ k idx f
    rw [hf]
    refine suppOn_mono ?_
      (suppOn_comp (cyc4_suppOn (idx k).1 (idx k).2.1 (idx k).2.2.1 (idx k).2.2.2) ih)
    rintro p (hp | hp)
    · exact ⟨k, Nat.lt_succ_self k, hp⟩
    · obtain ⟨i, hi, hq⟩ := hp
      exact ⟨i, Nat.lt_succ_of_lt hi, hq⟩

lemma stripCycle_inv (count : ℕ) (idx : ℕ → ℕ × ℕ × ℕ × ℕ)
    (hdist : ∀ i < count, q4distinct (idx i))
    (hdisj : ∀ i j, i < count → j < count → i ≠ j →
      ∀ p, q4mem p (idx i) → q4mem p (idx j) → False)
    (f : ℕ → α) :
    stripCycle count (fun i => rev4 (idx i)) (stripCycle count idx f) = f := by
  induction count with
  | zero => rfl
  | succ k ih =>
    rw [stripCycle_succ, stripCycle_succ]
    have hcomm :
        stripCycle k (fun i => rev4 (idx i))
            (cyc4 (idx k).1 (idx k).2.1 (idx k).2.2.1 (idx k).2.2.2
              (stripCycle k idx f)) =
          cyc4 (idx k).1 (idx k).2.1 (idx k).2.2.1 (idx k).2.2.2
            (stripCycle k (fun i => rev4 (idx i)) (stripCycle k idx f)) := by
      refine suppOn_comm (stripCycle_suppOn k fun i => rev4 (idx i))
        (cyc4_suppOn (idx k).1 (idx k).2.1 (idx k).2.2.1 (idx k).2.2.2) ?_
        (stripCycle k idx f)
      rintro p ⟨i, hi, hqi⟩ hqk
      exact hdisj i k (Nat.lt_succ_of_lt hi) (Nat.lt_succ_self k) (Nat.ne_of_lt hi) p
        ((q4mem_rev4 p (idx i)).mp hqi) hqk
    rw [hcomm,
      ih (fun i hi => hdist i (Nat.lt_succ_of_lt hi))
        (fun i j hi hj hij p hpi hpj =>
          hdisj i j (Nat.lt_succ_of_lt hi) (Nat.lt_succ_of_lt hj) hij p hpi hpj)]
    exact cyc4_inv' (idx k) (hdist k (Nat.lt_succ_self k)) f

/-! ### `rotate_face` lemmas -/

/-- The index block of a face. -/
def blockSet (n offset : ℕ) : Set ℕ := {p | offset ≤ p ∧ p < offset + n * n}

lemma div_mod_decomp (n j r : ℕ) (hn : 0 < n) (hr : r < n) :
    (j * n + r) / n = j ∧ (j * n + r) % n = r := by
  constructor
  · rw [mul_comm, Nat.mul_add_div hn, Nat.div_eq_of_lt hr, Nat.add_zero]
  · rw [mul_comm, Nat.mul_add_mod, Nat.mod_eq_of_lt hr]

lemma off_in_block (n offset a b : ℕ) (ha : a < n) (hb : b < n) :
    offset ≤ offset + a * n + b ∧ offset + a * n + b < offset + n * n := by
  refine ⟨by omega, ?_⟩
  have h2 : (a + 1) * n ≤ n * n := Nat.mul_le_mul_right n ha
  rw [add_mul, one_mul] at h2
  omega

lemma rotateFaceData_untouched (n offset : ℕ) (inv : Bool) (f : ℕ → α) (p : ℕ)
    (hp : ¬(offset ≤ p ∧ p < offset + n * n)) :
    rotateFaceData n offset inv f p = f p := by
  unfold rotateFaceData
  rw [if_neg hp]

lemma rfd_eval_ccw (n offset di mo : ℕ) (hdi : di < n) (hmo : mo < n) (f : ℕ → α) :
    rotateFaceData n offset true f (offset + di * n + mo) =
      f (offset + mo * n + (n - di - 1)) := by
  have hcond := off_in_block n offset di mo hdi hmo
  unfold rotateFaceData
  rw [if_pos hcond]
  have h1 : offset + di * n + mo - offset = di * n + mo := by omega
  simp only [h1]
  have hd := div_mod_decomp n di mo (by omega) hmo
  rw [hd.1, hd.2]
  rfl

lemma rfd_eval_cw (n offset di mo : ℕ) (hdi : di < n) (hmo : mo < n) (f : ℕ → α) :
    rotateFaceData n offset false f (offset + di * n + mo) =
      f (offset + (n - mo - 1) * n + di) := by
  have hcond := off_in_block n offset di mo hdi hmo
  unfold rotateFaceData
  rw [if_pos hcond]
  have h1 : offset + di * n + mo - offset = di * n + mo := by omega
  simp only [h1]
  have hd := div_mod_decomp n di mo (by omega) hmo
  rw [hd.1, hd.2]
  rfl

lemma block_decomp (n offset p : ℕ) (hcond : offset ≤ p ∧ p < offset + n * n) :
    ∃ di mo, di < n ∧ mo < n ∧ p = offset + di * n + mo := by
  have hn : 0 < n := by
    rcases Nat.eq_zero_or_pos n with h | h
    · subst h
      exact absurd hcond (by omega)
    · exact h
  have hq : p - offset < n * n := by omega
  have hi : (p - offset) / n < n := Nat.div_lt_iff_lt_mul hn |>.mpr hq
  have hj : (p - offset) % n < n := Nat.mod_lt _ hn
  have hqsum : (p - offset) / n * n + (p - offset) % n = p - offset :=
    Nat.div_add_mod' (p - offset) n
  exact ⟨(p - offset) / n, (p - offset) % n, hi, hj, by omega⟩

lemma rotateFaceData_suppOn (n offset : ℕ) (inv : Bool) :
    @SuppOn α (rotateFaceData n offset inv) (blockSet n offset) := by
  constructor
  · intro f p hp
    exact rotateFaceData_untouched n offset inv f p hp
  · intro f g hfg p hp
    have hcond : offset ≤ p ∧ p < offset + n * n := hp
    obtain ⟨di, mo, hdi, hmo, hpeq⟩ := block_decomp n offset p hcond
    subst hpeq
    cases inv
    · rw [rfd_eval_cw n offset di mo hdi hmo f, rfd_eval_cw n offset di mo hdi hmo g]
      exact hfg _ (off_in_block n offset (n - mo - 1) di (by omega) hdi)
    · rw [rfd_eval_ccw n offset di mo hdi hmo f, rfd_eval_ccw n offset di mo hdi hmo g]
      exact hfg _ (off_in_block n offset mo (n - di - 1) hmo (by omega))

lemma rotateFaceData_inv (n offset : ℕ) (inv : Bool) (f : ℕ → α) :
    rotateFaceData n offset (!inv) (rotateFaceData n offset inv f) = f := by
  funext p
  by_cases hcond : offset ≤ p ∧ p < offset + n * n
  · obtain ⟨di, mo, hdi, hmo, hpeq⟩ := block_decomp n offset p hcond
    subst hpeq
    cases inv
    · -- inner clockwise, outer counter-clockwise
      rw [show (!false) = true from rfl,
        rfd_eval_ccw n offset di mo hdi hmo (rotateFaceData n offset false f),
        rfd_eval_cw n offset mo (n - di - 1) hmo (by omega) f,
        show n - (n - di - 1) - 1 = di from by omega]
    · -- inner counter-clockwise, outer clockwise
      rw [show (!true) = false from rfl,
        rfd_eval_cw n offset di mo hdi hmo (rotateFaceData n offset true f),
        rfd_eval_ccw n offset (n - mo - 1) di (by omega) hdi f,
        show n - (n - mo - 1) - 1 = mo from by omega]
  · rw [rotateFaceData_untouched n offset (!inv) _ p hcond,
      rotateFaceData_untouched n offset inv f p hcond]

/-! ### Per-face strip index obligations -/

lemma mul_add_lt (n i c : ℕ) (hi : i < n) (hc : c < n) : i * n + c < n * n := by
  have h2 : (i + 1) * n ≤ n * n := Nat.mul_le_mul_right n hi
  rw [add_mul, one_mul] at h2
  omega

lemma q4distinct_rev4 (q : ℕ × ℕ × ℕ × ℕ) : q4distinct (rev4 q) ↔ q4distinct q := by
  simp only [q4distinct, rev4]
  tauto

/-- The inverted turn cycles the same strip indices in reverse. -/
lemma turnStrip_rev (n : ℕ) (face : Face) (inv : Bool) (ni i : ℕ) :
    turnStripIdx n face (!inv) ni i = rev4 (turnStripIdx n face inv ni i) := by
  cases face <;> cases inv <;> rfl

lemma turnStrip_distinct_f (n : ℕ) (face : Face) (ni : ℕ) (hni : ni < n) :
    ∀ i < n, q4distinct (turnStripIdx n face false ni i) := by
  intro i hi
  have hn0 : 0 < n := by omega
  have hc1 : n * ni = ni * n := Nat.mul_comm n ni
  have hc2 : n * (n - ni - 1) = (n - ni - 1) * n := Nat.mul_comm n (n - ni - 1)
  have m1 : ni * n + i < n * n := mul_add_lt n ni i hni hi
  have m2 : i * n + ni < n * n := mul_add_lt n i ni hi hni
  have m3 : (n - ni - 1) * n + i < n * n := mul_add_lt n (n - ni - 1) i (by omega) hi
  have m4 : (n - i - 1) * n + (n - ni - 1) < n * n :=
    mul_add_lt n (n - i - 1) (n - ni - 1) (by omega) (by omega)
  have m5 : ni * n + (n - i - 1) < n * n := mul_add_lt n ni (n - i - 1) hni (by omega)
  have m6 : (n - i - 1) * n + ni < n * n := mul_add_lt n (n - i - 1) ni (by omega) hni
  have m7 : i * n + (n - ni - 1) < n * n := mul_add_lt n i (n - ni - 1) hi (by omega)
  have m8 : (n - ni - 1) * n + (n - i - 1) < n * n :=
    mul_add_lt n (n - ni - 1) (n - i - 1) (by omega) (by omega)
  cases face <;> simp only [turnStripIdx, q4distinct, Bool.false_eq_true, if_false] <;> omega

lemma turnStrip_distinct (n : ℕ) (face : Face) (inv : Bool) (ni : ℕ) (hni : ni < n) :
    ∀ i < n, q4distinct (turnStripIdx n face inv ni i) := by
  cases inv
  · exact turnStrip_distinct_f n face ni hni
  · intro i hi
    rw [show (true : Bool) = !false from rfl, turnStrip_rev]
    exact (q4distinct_rev4 _).mpr (turnStrip_distinct_f n face ni hni i hi)

lemma turnStrip_disjoint_f (n : ℕ) (face : Face) (ni : ℕ) (hni : ni < n) :
    ∀ i j, i < n → j < n → i ≠ j →
      ∀ p, q4mem p (turnStripIdx n face false ni i) →
        q4mem p (turnStripIdx n face false ni j) → False := by
  intro i j hi hj hne p hpi hpj
  have hn0 : 0 < n := by omega
  have hc1 : n * ni = ni * n := Nat.mul_comm n ni
  have hc2 : n * (n - ni - 1) = (n - ni - 1) * n := Nat.mul_comm n (n - ni - 1)
  have mi1 : ni * n + i < n * n := mul_add_lt n ni i hni hi
  have mj1 : ni * n + j < n * n := mul_add_lt n ni j hni hj
  have mi2 : i * n + ni < n * n := mul_add_lt n i ni hi hni
  have mj2 : j * n + ni < n * n := mul_add_lt n j ni hj hni
  have mi3 : (n - ni - 1) * n + i < n * n := mul_add_lt n (n - ni - 1) i (by omega) hi
  have mj3 : (n - ni - 1) * n + j < n * n := mul_add_lt n (n - ni - 1) j (by omega) hj
  have mi4 : (n - i - 1) * n + (n - ni - 1) < n * n :=
    mul_add_lt n (n - i - 1) (n - ni - 1) (by omega) (by omega)
  have mj4 : (n - j - 1) * n + (n - ni - 1) < n * n :=
    mul_add_lt n (n - j - 1) (n - ni - 1) (by omega) (by omega)
  have mi5 : ni * n + (n - i - 1) < n * n := mul_add_lt n ni (n - i - 1) hni (by omega)
  have mj5 : ni * n + (n - j - 1) < n * n := mul_add_lt n ni (n - j - 1) hni (by omega)
  have mi6 : (n - i - 1) * n + ni < n * n := mul_add_lt n (n - i - 1) ni (by omega) hni
  have mj6 : (n - j - 1) * n + ni < n * n := mul_add_lt n (n - j - 1) ni (by omega) hni
  have mi7 : i * n + (n - ni - 1) < n * n := mul_add_lt n i (n - ni - 1) hi (by omega)
  have mj7 : j * n + (n - ni - 1) < n * n := mul_add_lt n j (n - ni - 1) hj (by omega)
  have mi8 : (n - ni - 1) * n + (n - i - 1) < n * n :=
    mul_add_lt n (n - ni - 1) (n - i - 1) (by omega) (by omega)
  have mj8 : (n - ni - 1) * n + (n - j - 1) < n * n :=
    mul_add_lt n (n - ni - 1) (n - j - 1) (by omega) (by omega)
  have e1 : i * n ≠ j * n := fun h => hne (Nat.eq_of_mul_eq_mul_right hn0 h)
  have e2 : (n - i - 1) * n ≠ (n - j - 1) * n := fun h => by
    have := Nat.eq_of_mul_eq_mul_right hn0 h
    omega
  cases face <;>
      simp only [turnStripIdx, q4mem, Bool.false_eq_true, if_false] at hpi hpj <;>
    rcases hpi with h | h | h | h <;> rcases hpj with h' | h' | h' | h' <;> omega

lemma turnStrip_disjoint (n : ℕ) (face : Face) (inv : Bool) (ni : ℕ) (hni : ni < n) :
    ∀ i j, i < n → j < n → i ≠ j →
      ∀ p, q4mem p (turnStripIdx n face inv ni i) →
        q4mem p (turnStripIdx n face inv ni j) → False := by
  cases inv
  · exact turnStrip_disjoint_f n face ni hni
  · intro i j hi hj hne p hpi hpj
    rw [show (true : Bool) = !false from rfl, turnStrip_rev] at hpi hpj
    exact turnStrip_disjoint_f n face ni hni i j hi hj hne p
      ((q4mem_rev4 p _).mp hpi) ((q4mem_rev4 p _).mp hpj)

/-- The strips of a turn never touch the turning face's own block. -/
lemma turnStrip_own_block (n : ℕ) (face : Face) (inv : Bool) (ni : ℕ) (hni : ni < n) :
    ∀ i < n, ∀ p, q4mem p (turnStripIdx n face inv ni i) →
      ¬(n * n * face.idx ≤ p ∧ p < n * n * face.idx + n * n) := by
  have key : ∀ i < n, ∀ p, q4mem p (turnStripIdx n face false ni i) →
      ¬(n * n * face.idx ≤ p ∧ p < n * n * face.idx + n * n) := by
    intro i hi p hp
    have hn0 : 0 < n := by omega
    have hc1 : n * ni = ni * n := Nat.mul_comm n ni
    have hc2 : n * (n - ni - 1) = (n - ni - 1) * n := Nat.mul_comm n (n - ni - 1)
    have m1 : ni * n + i < n * n := mul_add_lt n ni i hni hi
    have m2 : i * n + ni < n * n := mul_add_lt n i ni hi hni
    have m3 : (n - ni - 1) * n + i < n * n := mul_add_lt n (n - ni - 1) i (by omega) hi
    have m4 : (n - i - 1) * n + (n - ni - 1) < n * n :=
      mul_add_lt n (n - i - 1) (n - ni - 1) (by omega) (by omega)
    have m5 : ni * n + (n - i - 1) < n * n := mul_add_lt n ni (n - i - 1) hni (by omega)
    have m6 : (n - i - 1) * n + ni < n * n := mul_add_lt n (n - i - 1) ni (by omega) hni
    have m7 : i * n + (n - ni - 1) < n * n := mul_add_lt n i (n - ni - 1) hi (by omega)
    have m8 : (n - ni - 1) * n + (n - i - 1) < n * n :=
      mul_add_lt n (n - ni - 1) (n - i - 1) (by omega) (by omega)
    cases face <;>
        simp only [turnStripIdx, q4mem, Face.idx, Bool.false_eq_true, if_false] at hp ⊢ <;>
      rcases hp with h | h | h | h <;> omega
  cases inv
  · exact key
  · intro i hi p hp
    rw [show (true : Bool) = !false from rfl, turnStrip_rev] at hp
    exact key i hi p ((q4mem_rev4 p _).mp hp)

/-- Inverting a turn undoes its data transformation. -/
theorem turnData_inv (n : ℕ) (face : Face) (inv : Bool) (ni : ℕ) (hni : ni < n)
    (f : ℕ → α) :
    turnData n face (!inv) ni (turnData n face inv ni f) = f := by
  have hstrip : ∀ g : ℕ → α,
      stripCycle n (turnStripIdx n face (!inv) ni)
        (stripCycle n (turnStripIdx n face inv ni) g) = g := by
    intro g
    have hrw : turnStripIdx n face (!inv) ni = fun i => rev4 (turnStripIdx n face inv ni i) :=
      funext fun i => turnStrip_rev n face inv ni i
    rw [hrw]
    exact stripCycle_inv n (turnStripIdx n face inv ni)
      (turnStrip_distinct n face inv ni hni)
      (turnStrip_disjoint n face inv ni hni) g
  unfold turnData
  by_cases h0 : ni = 0
  · subst h0
    rw [if_pos rfl, if_pos rfl]
    -- strips₂ (rf₂ (strips₁ (rf₁ f))) = f; commute rf₂ past strips₁
    have hcomm :
        rotateFaceData n (n * n * face.idx) (!inv)
            (stripCycle n (turnStripIdx n face inv 0)
              (rotateFaceData n (n * n * face.idx) inv f)) =
          stripCycle n (turnStripIdx n face inv 0)
            (rotateFaceData n (n * n * face.idx) (!inv)
              (rotateFaceData n (n * n * face.idx) inv f)) := by
      refine suppOn_comm (rotateFaceData_suppOn n (n * n * face.idx) (!inv))
        (stripCycle_suppOn n (turnStripIdx n face inv 0)) ?_ _
      rintro p hpB ⟨i, hi, hq⟩
      exact turnStrip_own_block n face inv 0 hni i hi p hq hpB
    rw [hcomm, rotateFaceData_inv, hstrip f]
  · rw [if_neg h0, if_neg h0]
    exact hstrip f

/-! ## C4: the inversion law -/

/-- The precondition `turn` asserts: the face-based form of the turn has the
state's cube size and `num_in < n/2`. -/
def Turn.validFor (t : Turn) (n : ℕ) : Prop :=
  match t.intoFaceBased with
  | .faceBased _ _ ni cs => cs = n ∧ ni < n / 2
  | .axisBased .. => False

instance (t : Turn) (n : ℕ) : Decidable (t.validFor n) :=
  match h : t.intoFaceBased with
  | .faceBased _ _ ni cs =>
    decidable_of_iff (cs = n ∧ ni < n / 2) (by unfold Turn.validFor; rw [h])
  | .axisBased _ _ _ _ =>
    decidable_of_iff False (by unfold Turn.validFor; rw [h])

/-- `into_face_based` commutes with `invert`. -/
lemma intoFaceBased_invert (t : Turn) :
    t.invert.intoFaceBased = t.intoFaceBased.invert := by
  cases t with
  | axisBased ax p i cs =>
    cases ax <;> by_cases hi : 0 < i <;>
      simp [Turn.intoFaceBased, Turn.invert, hi]
  | faceBased f v ni cs => rfl

lemma turn_n (s : CubeState) (t : Turn) : (s.turn t).n = s.n := by
  unfold CubeState.turn
  rcases h : t.intoFaceBased with _ | _ <;> rfl

lemma invert_validFor {t : Turn} {n : ℕ} (h : t.validFor n) : t.invert.validFor n := by
  unfold Turn.validFor at h ⊢
  rw [intoFaceBased_invert]
  rcases hfb : t.intoFaceBased with _ | ⟨f, v, ni, cs⟩
  · rw [hfb] at h
    exact h
  · rw [hfb] at h
    exact h

/-- A single valid turn followed by its inverse restores the state exactly. -/
theorem turn_invert_cancel (s : CubeState) (t : Turn) (h : t.validFor s.n) :
    (s.turn t).turn t.invert = s := by
  unfold Turn.validFor at h
  rcases hfb : t.intoFaceBased with _ | ⟨fc, v, ni, cs⟩
  · rw [hfb] at h
    exact absurd h (by simp)
  · rw [hfb] at h
    obtain ⟨hcs, hni⟩ := h
    have hinv : t.invert.intoFaceBased = .faceBased fc (!v) ni cs := by
      rw [intoFaceBased_invert, hfb]
      rfl
    obtain ⟨sn, sd⟩ := s
    simp only [CubeState.turn, hfb, hinv]
    have hd := turnData_inv sn fc v ni (by simp at hcs hni ⊢; omega) sd
    simp only [hd]

/-- `do_move` of a concatenation. -/
lemma doMove_append (s : CubeState) (l1 l2 : List Turn) :
    s.doMove ⟨l1 ++ l2⟩ = (s.doMove ⟨l1⟩).doMove ⟨l2⟩ := by
  unfold CubeState.doMove
  exact List.foldl_append _ _ _ _

lemma doMove_n (s : CubeState) (m : Move) : (s.doMove m).n = s.n := by
  obtain ⟨l⟩ := m
  induction l generalizing s with
  | nil => rfl
  | cons t ts ih =>
    show ((s.turn t).doMove ⟨ts⟩).n = s.n
    rw [ih (s.turn t), turn_n]

lemma move_invert_invert (m : Move) : m.invert.invert = m := by
  obtain ⟨l⟩ := m
  unfold Move.invert
  simp only [List.map_reverse, List.reverse_reverse, List.map_map]
  congr 1
  have : Turn.invert ∘ Turn.invert = id := by
    funext t
    cases t <;> simp [Turn.invert]
  rw [this, List.map_id]

theorem doMove_invert_cancel (s : CubeState) (M : Move)
    (h : ∀ t ∈ M.turns, t.validFor s.n) :
    (s.doMove M).doMove M.invert = s := by
  obtain ⟨l⟩ := M
  induction l generalizing s with
  | nil => rfl
  | cons t ts ih =>
    have hts : ∀ u ∈ ts, u.validFor s.n := fun u hu => h u (List.mem_cons_of_mem t hu)
    have ht : t.validFor s.n := h t (List.mem_cons_self t ts)
    have hstep : s.doMove ⟨t :: ts⟩ = (s.turn t).doMove ⟨ts⟩ := rfl
    have hinv : (Move.mk (t :: ts)).invert =
        Move.mk ((Move.mk ts).invert.turns ++ [t.invert]) := by
      unfold Move.invert
      simp
    rw [hstep, hinv, doMove_append]
    have hts' : ∀ u ∈ ts, u.validFor (s.turn t).n := by
      rw [turn_n]
      exact hts
    rw [ih (s.turn t) hts']
    show (s.turn t).turn t.invert = s
    exact turn_invert_cancel s t ht

/-- C4: for every cube state `S` of size `n` and every move `M` whose turns
all have cube size `n` and `num_in < n/2`, applying `M` with `do_move` and
then `M.invert()` restores exactly the original facelet configuration; in
particular applying `M.invert()` and then `M` to a solved cube leaves it
solved. -/
theorem c4_move_inversion (s : CubeState) (M : Move)
    (h : ∀ t ∈ M.turns, t.validFor s.n) :
    (s.doMove M).doMove M.invert = s ∧
    (s.isSolved → ((s.doMove M.invert).doMove M).isSolved) := by
  refine ⟨doMove_invert_cancel s M h, fun hs => ?_⟩
  have hinv : ∀ t ∈ M.invert.turns, t.validFor s.n := by
    intro t ht
    unfold Move.invert at ht
    simp only [List.mem_map, List.mem_reverse] at ht
    obtain ⟨u, hu, rfl⟩ := ht
    exact invert_validFor (h u hu)
  have := doMove_invert_cancel s M.invert hinv
  rw [move_invert_invert] at this
  rw [this]
  exact hs

/-- C4 witness: `U0 F0` on the solved 3×3×3 and back. -/
theorem c4_witness :
    ((stdSolved 3).doMove ⟨[Turn.faceBased .Up false 0 3, Turn.faceBased .Front false 0 3]⟩
        |>.doMove (Move.mk [Turn.faceBased .Up false 0 3,
          Turn.faceBased .Front false 0 3]).invert) = stdSolved 3 ∧
    ((stdSolved 3).isSolved →
      (((stdSolved 3).doMove (Move.mk [Turn.faceBased .Up false 0 3,
          Turn.faceBased .Front false 0 3]).invert).doMove
        ⟨[Turn.faceBased .Up false 0 3, Turn.faceBased .Front false 0 3]⟩).isSolved) :=
  c4_move_inversion (stdSolved 3)
    ⟨[Turn.faceBased .Up false 0 3, Turn.faceBased .Front false 0 3]⟩
    (by decide)

/-! ## Read maps

Every data transformation of `turn`/`rotate_cube` only reads the input at
one index per output index, so it is postcomposition-natural; applying it
to `id` yields its (computable) read map. -/

lemma update_natural {β : Type} (h : α → β) (f : ℕ → α) (a : ℕ) (v : α) :
    Function.update (fun p => h (f p)) a (h v) = fun p => h (Function.update f a v p) := by
  funext p
  by_cases hp : p = a <;> simp [Function.update_apply, hp]

lemma cyc4_natural {β : Type} (h : α → β) (a b c e : ℕ) (f : ℕ → α) :
    cyc4 a b c e (fun p => h (f p)) = fun p => h (cyc4 a b c e f p) := by
  funext p
  simp only [cyc4, Function.update_apply]
  split_ifs <;> rfl

lemma rotateFaceData_natural {β : Type} (h : α → β) (n offset : ℕ) (inv : Bool)
    (f : ℕ → α) :
    rotateFaceData n offset inv (fun p => h (f p)) =
      fun p => h (rotateFaceData n offset inv f p) := by
  funext p
  simp only [rotateFaceData]
  split_ifs <;> rfl

lemma stripCycle_natural {β : Type} (h : α → β) (count : ℕ)
    (idx : ℕ → ℕ × ℕ × ℕ × ℕ) (f : ℕ → α) :
    stripCycle count idx (fun p => h (f p)) = fun p => h (stripCycle count idx f p) := by
  induction count with
  | zero => rfl
  | succ k ih =>
    rw [stripCycle_succ, stripCycle_succ, ih, cyc4_natural]

lemma turnData_natural {β : Type} (h : α → β) (n : ℕ) (face : Face) (inv : Bool)
    (ni : ℕ) (f : ℕ → α) :
    turnData n face inv ni (fun p => h (f p)) = fun p => h (turnData n face inv ni f p) := by
  unfold turnData
  by_cases h0 : ni = 0
  · rw [if_pos h0, if_pos h0, rotateFaceData_natural, stripCycle_natural]
  · rw [if_neg h0, if_neg h0, stripCycle_natural]

/-- The read map of a turn: new data at `p` is old data at
`turnReadMap n face inv ni p`. -/
def turnReadMap (n : ℕ) (face : Face) (inv : Bool) (ni : ℕ) : ℕ → ℕ :=
  turnData n face inv ni id

lemma turnData_read (n : ℕ) (face : Face) (inv : Bool) (ni : ℕ) (f : ℕ → α) :
    turnData n face inv ni f = fun p => f (turnReadMap n face inv ni p) :=
  turnData_natural f n face inv ni id

end Rubiks

namespace Rubiks

variable {α : Type}

/-! ## C6: the heuristic pruning rule of `solve_dpll` -/

/-- C6 (amended): at a popped node `(i, t)` of `solve_dpll` with bound `k`
(unsolved successor state, `i < k`, root size `> 2`, remaining budget
`k - i < 14`) whose corner-heuristic lookup returns `hv`, the branch is
pruned (no successor turns pushed) exactly when `hv > k - 1`; when
`hv ≤ k - 1` the efficient successor turns are pushed even if `hv` exceeds
the remaining budget `k - i`.  (The claim stated pruning at `hv > k - i`;
the code compares against `k - 1`.) -/
theorem c6_dpll_pruning (table : Option CornerTable) (root : CubeState) (k i : ℕ)
    (t : Turn) (ctx : DpllCtx) (pm : Move) (ps : CubeState)
    (hh : ctx.hist (i - 1) = some (pm, ps))
    (hns : ¬(ps.turn t).isSolved) (hik : i < k)
    (hn : 2 < root.n) (hk14 : k - i < 14)
    (hv : ℕ) (hcv : calcCornerHeuristics table (ps.turn t) = some hv) :
    dpllStep table root k i t ctx = .inr
      { hist := Function.update ctx.hist i (some (⟨pm.turns ++ [t]⟩, ps.turn t))
        stack :=
          if k - 1 < hv then ctx.stack
          else ((root.allTurns.filter fun tt =>
              (Move.mk (pm.turns ++ [t])).isNextTurnEfficient tt).map
            fun tt => (i + 1, tt)).reverse ++ ctx.stack } := by
  simp only [dpllStep, hh]
  rw [if_neg hns, if_neg (by omega)]
  by_cases hp : k - 1 < hv
  · rw [if_pos ⟨hn, hk14, hv, hcv, hp⟩, if_pos hp]
  · rw [if_neg ?_, if_neg hp]
    rintro ⟨-, -, hv', hcv', hp'⟩
    rw [hcv] at hcv'
    cases hcv'
    exact hp hp'

/-- C6 witness: at a concrete node of depth 4 with bound 5 whose heuristic
value is 2 (not above `k - 1 = 4`), the step pushes successors. -/
theorem c6_witness :
    dpllStep (some fun _ => some 2) (stdSolved 3) 5 4 (Turn.faceBased .Up false 0 3)
      ⟨Function.update (fun _ => none) 3
        (some (⟨[Turn.faceBased .Front false 0 3, Turn.faceBased .Front false 0 3,
          Turn.faceBased .Front false 0 3]⟩,
          (stdSolved 3).doMove ⟨[Turn.faceBased .Front false 0 3,
            Turn.faceBased .Front false 0 3, Turn.faceBased .Front false 0 3]⟩)), []⟩ =
      .inr
        { hist := Function.update
            (Function.update (fun _ => none) 3
              (some (⟨[Turn.faceBased .Front false 0 3, Turn.faceBased .Front false 0 3,
                Turn.faceBased .Front false 0 3]⟩,
                (stdSolved 3).doMove ⟨[Turn.faceBased .Front false 0 3,
                  Turn.faceBased .Front false 0 3, Turn.faceBased .Front false 0 3]⟩)))
            4
            (some (⟨[Turn.faceBased .Front false 0 3, Turn.faceBased .Front false 0 3,
              Turn.faceBased .Front false 0 3, Turn.faceBased .Up false 0 3]⟩,
              ((stdSolved 3).doMove ⟨[Turn.faceBased .Front false 0 3,
                Turn.faceBased .Front false 0 3, Turn.faceBased .Front false 0 3]⟩).turn
                (Turn.faceBased .Up false 0 3)))
          stack :=
            if 5 - 1 < 2 then []
            else (((stdSolved 3).allTurns.filter fun tt =>
                (Move.mk [Turn.faceBased .Front false 0 3, Turn.faceBased .Front false 0 3,
                  Turn.faceBased .Front false 0 3, Turn.faceBased .Up false 0 3]).isNextTurnEfficient
                  tt).map
              fun tt => (5, tt)).reverse ++ [] } :=
  c6_dpll_pruning (some fun _ => some 2) (stdSolved 3) 5 4 (Turn.faceBased .Up false 0 3)
    ⟨Function.update (fun _ => none) 3
      (some (⟨[Turn.faceBased .Front false 0 3, Turn.faceBased .Front false 0 3,
        Turn.faceBased .Front false 0 3]⟩,
        (stdSolved 3).doMove ⟨[Turn.faceBased .Front false 0 3,
          Turn.faceBased .Front false 0 3, Turn.faceBased .Front false 0 3]⟩)), []⟩
    ⟨[Turn.faceBased .Front false 0 3, Turn.faceBased .Front false 0 3,
      Turn.faceBased .Front false 0 3]⟩
    ((stdSolved 3).doMove ⟨[Turn.faceBased .Front false 0 3,
      Turn.faceBased .Front false 0 3, Turn.faceBased .Front false 0 3]⟩)
    rfl (by decide) (by decide) (by decide) (by decide) 2 rfl

/-- C6 counterexample: a node at depth `i = 4` with bound `k = 5` has
remaining budget `k - i = 1 < 14` and corner-heuristic lower bound `2 > 1`,
yet the step pushes its successor turns onto the work list (the code prunes
only when the bound exceeds `k - 1`). -/
theorem c6_counterexample :
    (2 : ℕ) < (stdSolved 3).n ∧ 5 - 4 < 14 ∧
    calcCornerHeuristics (some fun _ => some 2)
      (((stdSolved 3).doMove ⟨[Turn.faceBased .Front false 0 3,
        Turn.faceBased .Front false 0 3, Turn.faceBased .Front false 0 3]⟩).turn
        (Turn.faceBased .Up false 0 3)) = some 2 ∧
    5 - 4 < 2 ∧
    ∃ ctx' : DpllCtx,
      dpllStep (some fun _ => some 2) (stdSolved 3) 5 4 (Turn.faceBased .Up false 0 3)
        ⟨Function.update (fun _ => none) 3
          (some (⟨[Turn.faceBased .Front false 0 3, Turn.faceBased .Front false 0 3,
            Turn.faceBased .Front false 0 3]⟩,
            (stdSolved 3).doMove ⟨[Turn.faceBased .Front false 0 3,
              Turn.faceBased .Front false 0 3, Turn.faceBased .Front false 0 3]⟩)), []⟩ =
        .inr ctx' ∧ ctx'.stack ≠ [] := by
  refine ⟨by decide, by decide, rfl, by decide, ?_⟩
  rw [c6_witness]
  exact ⟨_, rfl, by decide⟩

/-! ## C1 groundwork: bounds, read maps at n = 3 -/

lemma turnStrip_bound (n : ℕ) (face : Face) (inv : Bool) (ni : ℕ) (hni : ni < n) :
    ∀ i < n, ∀ p, q4mem p (turnStripIdx n face inv ni i) → p < 6 * (n * n) := by
  have key : ∀ i < n, ∀ p, q4mem p (turnStripIdx n face false ni i) → p < 6 * (n * n) := by
    intro i hi p hp
    have hn0 : 0 < n := by omega
    have hc1 : n * ni = ni * n := Nat.mul_comm n ni
    have hc2 : n * (n - ni - 1) = (n - ni - 1) * n := Nat.mul_comm n (n - ni - 1)
    have m1 : ni * n + i < n * n := mul_add_lt n ni i hni hi
    have m2 : i * n + ni < n * n := mul_add_lt n i ni hi hni
    have m3 : (n - ni - 1) * n + i < n * n := mul_add_lt n (n - ni - 1) i (by omega) hi
    have m4 : (n - i - 1) * n + (n - ni - 1) < n * n :=
      mul_add_lt n (n - i - 1) (n - ni - 1) (by omega) (by omega)
    have m5 : ni * n + (n - i - 1) < n * n := mul_add_lt n ni (n - i - 1) hni (by omega)
    have m6 : (n - i - 1) * n + ni < n * n := mul_add_lt n (n - i - 1) ni (by omega) hni
    have m7 : i * n + (n - ni - 1) < n * n := mul_add_lt n i (n - ni - 1) hi (by omega)
    have m8 : (n - ni - 1) * n + (n - i - 1) < n * n :=
      mul_add_lt n (n - ni - 1) (n - i - 1) (by omega) (by omega)
    cases face <;>
        simp only [turnStripIdx, q4mem, Bool.false_eq_true, if_false] at hp <;>
      rcases hp with h | h | h | h <;> omega
  cases inv
  · exact key
  · intro i hi p hp
    rw [show (true : Bool) = !false from rfl, turnStrip_rev] at hp
    exact key i hi p ((q4mem_rev4 p _).mp hp)

lemma face_idx_le (face : Face) : face.idx ≤ 5 := by
  cases face <;> simp [Face.idx]

lemma turnData_untouched (n : ℕ) (face : Face) (inv : Bool) (ni : ℕ) (hni : ni < n)
    (f : ℕ → α) (p : ℕ) (hp : 6 * (n * n) ≤ p) :
    turnData n face inv ni f p = f p := by
  unfold turnData
  have hblock : ¬(n * n * face.idx ≤ p ∧ p < n * n * face.idx + n * n) := by
    have h5 : n * n * face.idx ≤ n * n * 5 := Nat.mul_le_mul_left _ (face_idx_le face)
    omega
  have hnostrip : p ∉ {q | ∃ i < n, q4mem q (turnStripIdx n face inv ni i)} := by
    rintro ⟨i, hi, hq⟩
    exact absurd (turnStrip_bound n face inv ni hni i hi p hq) (by omega)
  have hsu := (@stripCycle_suppOn α n (turnStripIdx n face inv ni)).1
  by_cases h0 : ni = 0
  · rw [if_pos h0, hsu _ p hnostrip, rotateFaceData_untouched n _ inv f p hblock]
  · rw [if_neg h0, hsu _ p hnostrip]

lemma turnReadMap_untouched (n : ℕ) (face : Face) (inv : Bool) (ni : ℕ) (hni : ni < n)
    (p : ℕ) (hp : 6 * (n * n) ≤ p) :
    turnReadMap n face inv ni p = p :=
  turnData_untouched n face inv ni hni id p hp

/-- The axis of each face under the face/axis mapping of the source. -/
def faceAxis : Face → Axis
  | .Up => .Z
  | .Down => .Z
  | .Left => .X
  | .Right => .X
  | .Front => .Y
  | .Back => .Y

lemma axisOf_faceBased (f : Face) (v : Bool) (ni cs : ℕ) :
    (Turn.faceBased f v ni cs).axisOf = faceAxis f := by
  cases f <;> rfl

lemma trm3_comm_all : ∀ (f1 f2 : Face) (v1 v2 : Bool), faceAxis f1 = faceAxis f2 →
    ∀ p < 54, turnReadMap 3 f1 v1 0 (turnReadMap 3 f2 v2 0 p) =
      turnReadMap 3 f2 v2 0 (turnReadMap 3 f1 v1 0 p) := by decide

lemma trm3_pow_all : ∀ (f : Face) (v : Bool), ∀ p < 54,
    turnReadMap 3 f v 0 (turnReadMap 3 f v 0 (turnReadMap 3 f v 0 p)) =
      turnReadMap 3 f (!v) 0 p := by decide

lemma trm3_comm (f1 f2 : Face) (v1 v2 : Bool) (hax : faceAxis f1 = faceAxis f2) (p : ℕ) :
    turnReadMap 3 f1 v1 0 (turnReadMap 3 f2 v2 0 p) =
      turnReadMap 3 f2 v2 0 (turnReadMap 3 f1 v1 0 p) := by
  by_cases hp : p < 54
  · exact trm3_comm_all f1 f2 v1 v2 hax p hp
  · have h1 : turnReadMap 3 f1 v1 0 p = p :=
      turnReadMap_untouched 3 f1 v1 0 (by omega) p (by omega)
    have h2 : turnReadMap 3 f2 v2 0 p = p :=
      turnReadMap_untouched 3 f2 v2 0 (by omega) p (by omega)
    simp only [h1, h2]

lemma trm3_pow (f : Face) (v : Bool) (p : ℕ) :
    turnReadMap 3 f v 0 (turnReadMap 3 f v 0 (turnReadMap 3 f v 0 p)) =
      turnReadMap 3 f (!v) 0 p := by
  by_cases hp : p < 54
  · exact trm3_pow_all f v p hp
  · have h1 : turnReadMap 3 f v 0 p = p :=
      turnReadMap_untouched 3 f v 0 (by omega) p (by omega)
    have h2 : turnReadMap 3 f (!v) 0 p = p :=
      turnReadMap_untouched 3 f (!v) 0 (by omega) p (by omega)
    simp only [h1, h2]

/-- `turn` at a face-based outer turn of a 3×3×3 state, in read-map form. -/
lemma turn3_data (s : CubeState) (f : Face) (v : Bool) (hs : s.n = 3) :
    s.turn (Turn.faceBased f v 0 3) =
      { n := 3, data := fun p => s.data (turnReadMap 3 f v 0 p) } := by
  show ({ n := s.n, data := turnData s.n f v 0 s.data } : CubeState) =
    { n := 3, data := fun p => s.data (turnReadMap 3 f v 0 p) }
  rw [hs]
  rw [turnData_read 3 f v 0 s.data]

lemma turn3_comm_state (s : CubeState) (hs : s.n = 3) (f1 f2 : Face) (v1 v2 : Bool)
    (hax : faceAxis f1 = faceAxis f2) :
    (s.turn (Turn.faceBased f1 v1 0 3)).turn (Turn.faceBased f2 v2 0 3) =
      (s.turn (Turn.faceBased f2 v2 0 3)).turn (Turn.faceBased f1 v1 0 3) := by
  rw [turn3_data s f1 v1 hs, turn3_data s f2 v2 hs,
    turn3_data _ f2 v2 rfl, turn3_data _ f1 v1 rfl]
  simp only [CubeState.mk.injEq, true_and]
  funext p
  rw [trm3_comm f1 f2 v1 v2 hax p]

lemma turn3_triple_state (s : CubeState) (hs : s.n = 3) (f : Face) (v : Bool) :
    ((s.turn (Turn.faceBased f v 0 3)).turn (Turn.faceBased f v 0 3)).turn
        (Turn.faceBased f v 0 3) =
      s.turn (Turn.faceBased f (!v) 0 3) := by
  rw [turn3_data s f v hs, turn3_data _ f v rfl, turn3_data _ f v rfl,
    turn3_data s f (!v) hs]
  simp only [CubeState.mk.injEq, true_and]
  funext p
  rw [trm3_pow f v p]

/-! ## Efficient move sequences and their normalization -/

/-- An outer-layer turn of the 3×3×3 cube in face-based form: the only
turns `all_turns` enumerates for size 3. -/
def isOuter3 (t : Turn) : Prop := ∃ f v, t = Turn.faceBased f v 0 3

instance : DecidablePred isOuter3 := fun t => by
  unfold isOuter3
  cases t with
  | axisBased a p i c => exact .isFalse (by rintro ⟨f, v, h⟩; cases h)
  | faceBased f v ni cs =>
    by_cases h : ni = 0 ∧ cs = 3
    · exact .isTrue ⟨f, v, by rw [h.1, h.2]⟩
    · refine .isFalse ?_
      rintro ⟨f', v', heq⟩
      cases heq
      exact h ⟨rfl, rfl⟩

/-- Every prefix step of the sequence passes `is_next_turn_efficient`. -/
def Eff (w : List Turn) : Prop :=
  ∀ j < w.length, Move.isNextTurnEfficient ⟨w.take j⟩ (w.getD j default) = true

instance : DecidablePred Eff := fun w => by
  unfold Eff
  infer_instance

lemma eqB_faceBased_iff (f1 f2 : Face) (v1 v2 : Bool) (n1 n2 c1 c2 : ℕ) :
    (Turn.faceBased f1 v1 n1 c1).eqB (.faceBased f2 v2 n2 c2) = true ↔
      (f1 = f2 ∧ v1 = v2 ∧ n1 = n2 ∧ c1 = c2) := by
  show decide _ = true ↔ _
  rw [decide_eq_true_eq]

lemma eqB_outer3_iff (a b : Turn) (ha : isOuter3 a) (hb : isOuter3 b) :
    a.eqB b = true ↔ a = b := by
  obtain ⟨f1, v1, rfl⟩ := ha
  obtain ⟨f2, v2, rfl⟩ := hb
  rw [eqB_faceBased_iff]
  constructor
  · rintro ⟨rfl, rfl, -, -⟩
    rfl
  · rintro h
    cases h
    exact ⟨rfl, rfl, rfl, rfl⟩

lemma commutesWith_outer3 (f1 f2 : Face) (v1 v2 : Bool) :
    (Turn.faceBased f1 v1 0 3).commutesWith (.faceBased f2 v2 0 3) = true ↔
      faceAxis f1 = faceAxis f2 := by
  unfold Turn.commutesWith
  rw [axisOf_faceBased, axisOf_faceBased, decide_eq_true_eq]

lemma outer3_invert {t : Turn} (h : isOuter3 t) : isOuter3 t.invert := by
  obtain ⟨f, v, rfl⟩ := h
  exact ⟨f, !v, rfl⟩

/-- Failure analysis of `is_next_turn_efficient` for a nonempty move. -/
lemma eff_fail_cases (u : List Turn) (t : Turn) (hne : u ≠ [])
    (hfail : Move.isNextTurnEfficient ⟨u⟩ t = false) :
    (u.getLast hne).invert.eqB t = true ∨
    (1 < u.length ∧ (u.getD (u.length - 2) default).eqB (u.getLast hne) = true ∧
      (u.getLast hne).eqB t = true) ∨
    (t.commutesWith (u.getLast hne) = true ∧ (u.getLast hne).indexOf < t.indexOf) := by
  unfold Move.isNextTurnEfficient at hfail
  rw [List.getLast?_eq_getLast u hne] at hfail
  simp only at hfail
  by_cases h1 : (u.getLast hne).invert.eqB t = true
  · exact Or.inl h1
  · rw [Bool.not_eq_true] at h1
    rw [if_neg (by simp [h1])] at hfail
    by_cases h2 : 1 < u.length ∧ (u.getD (u.length - 2) default).eqB (u.getLast hne) = true ∧
        (u.getLast hne).eqB t = true
    · exact Or.inr (Or.inl h2)
    · rw [if_neg (by
        intro hcon
        exact h2 ⟨hcon.1, by simpa using hcon.2.1, by simpa using hcon.2.2⟩)] at hfail
      by_cases h3 : t.commutesWith (u.getLast hne) = true
      · rw [if_pos h3] at hfail
        refine Or.inr (Or.inr ⟨h3, ?_⟩)
        rcases hax : (u.getLast hne).axisOf with _ | _ | _ <;> rw [hax] at hfail <;>
          · rw [decide_eq_false_iff_not] at hfail
            push_neg at hfail
            exact hfail.2
      · rw [Bool.not_eq_true] at h3
        rw [h3] at hfail
        simp at hfail

lemma commutesWith_symm (a b : Turn) : a.commutesWith b = b.commutesWith a := by
  simp [Turn.commutesWith, eq_comm]

lemma getLast_eq_getD {β : Type} [Inhabited β] (u : List β) (h : u ≠ []) :
    u.getLast h = u.getD (u.length - 1) default := by
  have hp : 0 < u.length := List.length_pos.mpr h
  rw [List.getLast_eq_getElem u h, List.getD_eq_getElem u default (by omega)]

lemma getD_take {β : Type} [Inhabited β] (w : List β) (j i : ℕ) (h : i < j) :
    (w.take j).getD i default = w.getD i default := by
  by_cases hi : i < w.length
  · have hti : i < (w.take j).length := by
      rw [List.length_take]
      omega
    rw [List.getD_eq_getElem _ default hti, List.getD_eq_getElem w default hi]
    exact List.getElem_take ..
  · have h1 : w.length ≤ i := by omega
    have h2 : (w.take j).length ≤ i := by
      rw [List.length_take]
      omega
    rw [List.getD_eq_default _ default h1, List.getD_eq_default _ default h2]

lemma getD_mem {β : Type} [Inhabited β] (w : List β) (i : ℕ) (h : i < w.length) :
    w.getD i default ∈ w := by
  rw [List.getD_eq_getElem w default h]
  exact List.getElem_mem h

lemma list_decomp2 {β : Type} [Inhabited β] (w : List β) (j : ℕ) (h1 : 1 ≤ j)
    (h2 : j < w.length) :
    w = w.take (j-1) ++ w.getD (j-1) default :: w.getD j default :: w.drop (j+1) := by
  have hja : j - 1 < w.length := by omega
  have hd1 : w.drop (j-1) = w[j-1] :: w.drop (j-1+1) := List.drop_eq_getElem_cons hja
  have hj : j - 1 + 1 = j := by omega
  rw [hj] at hd1
  have hd2 : w.drop j = w[j] :: w.drop (j+1) := List.drop_eq_getElem_cons h2
  rw [List.getD_eq_getElem w default hja, List.getD_eq_getElem w default h2,
    ← hd2, ← hd1, List.take_append_drop]

lemma list_decomp3 {β : Type} [Inhabited β] (w : List β) (j : ℕ) (h1 : 2 ≤ j)
    (h2 : j < w.length) :
    w = w.take (j-2) ++ w.getD (j-2) default :: w.getD (j-1) default ::
      w.getD j default :: w.drop (j+1) := by
  have hja : j - 2 < w.length := by omega
  have hjb : j - 1 < w.length := by omega
  have hd1 : w.drop (j-2) = w[j-2] :: w.drop (j-2+1) := List.drop_eq_getElem_cons hja
  have hj1 : j - 2 + 1 = j - 1 := by omega
  rw [hj1] at hd1
  have hd2 : w.drop (j-1) = w[j-1] :: w.drop (j-1+1) := List.drop_eq_getElem_cons hjb
  have hj2 : j - 1 + 1 = j := by omega
  rw [hj2] at hd2
  have hd3 : w.drop j = w[j] :: w.drop (j+1) := List.drop_eq_getElem_cons h2
  rw [List.getD_eq_getElem w default hja, List.getD_eq_getElem w default hjb,
    List.getD_eq_getElem w default h2, ← hd3, ← hd2, ← hd1, List.take_append_drop]

/-- A sequence of outer 3×3×3 turns that is not efficient contains an adjacent
inverse pair, a triple repeat, or an out-of-order commuting pair. -/
lemma not_eff_decomp (w : List Turn) (hall : ∀ t ∈ w, isOuter3 t) (hw : ¬ Eff w) :
    (∃ x a y, w = x ++ a :: a.invert :: y) ∨
    (∃ x a y, w = x ++ a :: a :: a :: y) ∨
    (∃ x a b y, w = x ++ a :: b :: y ∧ a.commutesWith b = true ∧
      a.indexOf < b.indexOf) := by
  unfold Eff at hw
  push_neg at hw
  obtain ⟨j, hj, hfail⟩ := hw
  rw [Ne, Bool.not_eq_true] at hfail
  have hjpos : 1 ≤ j := by
    by_contra hcon
    have hj0 : j = 0 := by omega
    rw [hj0] at hfail
    exact absurd hfail (by simp [Move.isNextTurnEfficient])
  have hne : w.take j ≠ [] := by
    intro hcon
    have hlen := congrArg List.length hcon
    rw [List.length_take] at hlen
    simp only [List.length_nil] at hlen
    omega
  have hul : (w.take j).length = j := by
    rw [List.length_take]
    omega
  have hlast : (w.take j).getLast hne = w.getD (j-1) default := by
    rw [getLast_eq_getD _ hne, hul, getD_take w j (j-1) (by omega)]
  have hmem : ∀ i < w.length, isOuter3 (w.getD i default) :=
    fun i hi => hall _ (getD_mem w i hi)
  rcases eff_fail_cases (w.take j) (w.getD j default) hne hfail with
    hc1 | ⟨hlen2, hc2a, hc2b⟩ | ⟨hc3a, hc3b⟩
  · -- adjacent inverse pair at positions j-1, j
    rw [hlast] at hc1
    have heq : (w.getD (j-1) default).invert = w.getD j default :=
      (eqB_outer3_iff _ _ (outer3_invert (hmem _ (by omega))) (hmem _ hj)).mp hc1
    refine Or.inl ⟨w.take (j-1), w.getD (j-1) default, w.drop (j+1), ?_⟩
    rw [heq]
    exact list_decomp2 w j hjpos hj
  · -- triple repeat at positions j-2, j-1, j
    rw [hul, hlast] at hc2a
    rw [hlast] at hc2b
    have hj2 : 2 ≤ j := by
      rw [hul] at hlen2
      omega
    rw [getD_take w j (j-2) (by omega)] at hc2a
    have heqa : w.getD (j-2) default = w.getD (j-1) default :=
      (eqB_outer3_iff _ _ (hmem _ (by omega)) (hmem _ (by omega))).mp hc2a
    have heqb : w.getD (j-1) default = w.getD j default :=
      (eqB_outer3_iff _ _ (hmem _ (by omega)) (hmem _ hj)).mp hc2b
    refine Or.inr (Or.inl ⟨w.take (j-2), w.getD j default, w.drop (j+1), ?_⟩)
    have := list_decomp3 w j hj2 hj
    rw [heqa, heqb] at this
    exact this
  · -- out-of-order commuting pair at positions j-1, j
    rw [hlast] at hc3a hc3b
    refine Or.inr (Or.inr ⟨w.take (j-1), w.getD (j-1) default, w.getD j default,
      w.drop (j+1), list_decomp2 w j hjpos hj, ?_, hc3b⟩)
    rw [commutesWith_symm]
    exact hc3a

lemma outer3_validFor {a : Turn} (h : isOuter3 a) : a.validFor 3 := by
  obtain ⟨f, v, rfl⟩ := h
  exact ⟨rfl, by norm_num⟩

/-- Removing an adjacent turn–inverse pair preserves the action. -/
lemma action_cancel (s : CubeState) (x y : List Turn) (a : Turn)
    (ha : a.validFor s.n) :
    s.doMove ⟨x ++ a :: a.invert :: y⟩ = s.doMove ⟨x ++ y⟩ := by
  rw [doMove_append, doMove_append]
  have h1 : (s.doMove ⟨x⟩).doMove ⟨a :: a.invert :: y⟩ =
      (((s.doMove ⟨x⟩).turn a).turn a.invert).doMove ⟨y⟩ := rfl
  rw [h1, turn_invert_cancel _ a (by rw [doMove_n]; exact ha)]

/-- Replacing a triple repeat by the inverse turn preserves the action on
3×3×3 states. -/
lemma action_triple (s : CubeState) (hs : s.n = 3) (x y : List Turn) (a : Turn)
    (ha : isOuter3 a) :
    s.doMove ⟨x ++ a :: a :: a :: y⟩ = s.doMove ⟨x ++ a.invert :: y⟩ := by
  obtain ⟨f, v, rfl⟩ := ha
  rw [doMove_append, doMove_append]
  have hn : (s.doMove ⟨x⟩).n = 3 := by rw [doMove_n]; exact hs
  have hL : (s.doMove ⟨x⟩).doMove ⟨Turn.faceBased f v 0 3 :: Turn.faceBased f v 0 3 ::
      Turn.faceBased f v 0 3 :: y⟩ =
      ((((s.doMove ⟨x⟩).turn (Turn.faceBased f v 0 3)).turn
        (Turn.faceBased f v 0 3)).turn (Turn.faceBased f v 0 3)).doMove ⟨y⟩ := rfl
  have hR : (s.doMove ⟨x⟩).doMove ⟨(Turn.faceBased f v 0 3).invert :: y⟩ =
      ((s.doMove ⟨x⟩).turn (Turn.faceBased f (!v) 0 3)).doMove ⟨y⟩ := rfl
  rw [hL, hR, turn3_triple_state _ hn f v]

/-- Swapping two adjacent commuting turns preserves the action on 3×3×3
states. -/
lemma action_swap (s : CubeState) (hs : s.n = 3) (x y : List Turn) (a b : Turn)
    (ha : isOuter3 a) (hb : isOuter3 b) (hcm : a.commutesWith b = true) :
    s.doMove ⟨x ++ a :: b :: y⟩ = s.doMove ⟨x ++ b :: a :: y⟩ := by
  obtain ⟨f1, v1, rfl⟩ := ha
  obtain ⟨f2, v2, rfl⟩ := hb
  have hax : faceAxis f1 = faceAxis f2 := (commutesWith_outer3 f1 f2 v1 v2).mp hcm
  rw [doMove_append, doMove_append]
  have hn : (s.doMove ⟨x⟩).n = 3 := by rw [doMove_n]; exact hs
  have hL : (s.doMove ⟨x⟩).doMove ⟨Turn.faceBased f1 v1 0 3 ::
      Turn.faceBased f2 v2 0 3 :: y⟩ =
      (((s.doMove ⟨x⟩).turn (Turn.faceBased f1 v1 0 3)).turn
        (Turn.faceBased f2 v2 0 3)).doMove ⟨y⟩ := rfl
  have hR : (s.doMove ⟨x⟩).doMove ⟨Turn.faceBased f2 v2 0 3 ::
      Turn.faceBased f1 v1 0 3 :: y⟩ =
      (((s.doMove ⟨x⟩).turn (Turn.faceBased f2 v2 0 3)).turn
        (Turn.faceBased f1 v1 0 3)).doMove ⟨y⟩ := rfl
  rw [hL, hR, turn3_comm_state _ hn f1 f2 v1 v2 hax]

/-- An out-of-order commuting adjacent pair, as a Boolean. -/
def badB (a b : Turn) : Bool := a.commutesWith b && decide (a.indexOf < b.indexOf)

def badCount (t : Turn) (ts : List Turn) : ℕ := (ts.filter (badB t)).length

/-- Number of out-of-order commuting (not necessarily adjacent) pairs. -/
def badPairs : List Turn → ℕ
  | [] => 0
  | t :: ts => badCount t ts + badPairs ts

def crossCount (x y : List Turn) : ℕ := (x.map (fun a => badCount a y)).sum

lemma badCount_cons (t u : Turn) (ts : List Turn) :
    badCount t (u :: ts) = (if badB t u then 1 else 0) + badCount t ts := by
  unfold badCount
  rw [List.filter_cons]
  by_cases h : badB t u
  · rw [if_pos h, if_pos h, List.length_cons]
    omega
  · rw [if_neg h, if_neg h]
    omega

lemma badCount_append (t : Turn) (xs ys : List Turn) :
    badCount t (xs ++ ys) = badCount t xs + badCount t ys := by
  unfold badCount
  rw [List.filter_append, List.length_append]

lemma crossCount_cons (c : Turn) (x y : List Turn) :
    crossCount (c :: x) y = badCount c y + crossCount x y := by
  unfold crossCount
  rw [List.map_cons, List.sum_cons]

lemma badPairs_append (x y : List Turn) :
    badPairs (x ++ y) = badPairs x + crossCount x y + badPairs y := by
  induction x with
  | nil => simp [badPairs, crossCount]
  | cons c x ih =>
    simp only [List.cons_append, badPairs, crossCount_cons, List.append_eq]
    rw [badCount_append, ih]
    omega

lemma badCount_le (t : Turn) (ts : List Turn) : badCount t ts ≤ ts.length :=
  List.length_filter_le _ _

lemma badPairs_le (w : List Turn) : badPairs w ≤ w.length * w.length := by
  induction w with
  | nil => simp [badPairs]
  | cons t ts ih =>
    simp only [badPairs, List.length_cons]
    have h1 := badCount_le t ts
    have h2 : (ts.length + 1) * (ts.length + 1) =
        ts.length * ts.length + 2 * ts.length + 1 := by ring
    omega

lemma badCount_comm2 (c a b : Turn) (y : List Turn) :
    badCount c (a :: b :: y) = badCount c (b :: a :: y) := by
  rw [badCount_cons, badCount_cons, badCount_cons, badCount_cons]
  omega

lemma badB_asymm (a b : Turn) (hab : badB a b = true) : badB b a = false := by
  unfold badB at hab ⊢
  rw [Bool.and_eq_true] at hab
  obtain ⟨h1, h2⟩ := hab
  rw [decide_eq_true_eq] at h2
  have hn : ¬ (b.indexOf < a.indexOf) := by omega
  rw [decide_eq_false hn, Bool.and_false]

lemma badPairs_swap (x y : List Turn) (a b : Turn) (hab : badB a b = true) :
    badPairs (x ++ b :: a :: y) + 1 = badPairs (x ++ a :: b :: y) := by
  rw [badPairs_append, badPairs_append]
  have hcross : crossCount x (b :: a :: y) = crossCount x (a :: b :: y) := by
    induction x with
    | nil => rfl
    | cons c x ih => rw [crossCount_cons, crossCount_cons, ih, badCount_comm2]
  rw [hcross]
  have hba := badB_asymm a b hab
  have h1 : badPairs (b :: a :: y) = badCount b (a :: y) + (badCount a y + badPairs y) :=
    rfl
  have h2 : badPairs (a :: b :: y) = badCount a (b :: y) + (badCount b y + badPairs y) :=
    rfl
  rw [h1, h2, badCount_cons, badCount_cons, if_pos hab,
    if_neg (by rw [hba]; simp)]
  omega

/-- Termination measure for the efficiency rewriting system. -/
def effMeasure (w : List Turn) : ℕ :=
  w.length * w.length * w.length + w.length + badPairs w

lemma effMeasure_lt_of_length (w w' : List Turn) (h : w'.length + 2 ≤ w.length) :
    effMeasure w' < effMeasure w := by
  unfold effMeasure
  have hb := badPairs_le w'
  have hexp : (w'.length + 1) * (w'.length + 1) * (w'.length + 1) =
      w'.length * w'.length * w'.length + 3 * (w'.length * w'.length) +
        3 * w'.length + 1 := by ring
  have hmono : (w'.length + 1) * (w'.length + 1) * (w'.length + 1) ≤
      w.length * w.length * w.length := by
    have h1 : w'.length + 1 ≤ w.length := by omega
    exact Nat.mul_le_mul (Nat.mul_le_mul h1 h1) h1
  omega

lemma effMeasure_lt_of_swap (x y : List Turn) (a b : Turn) (hab : badB a b = true) :
    effMeasure (x ++ b :: a :: y) < effMeasure (x ++ a :: b :: y) := by
  unfold effMeasure
  have hlen : (x ++ b :: a :: y).length = (x ++ a :: b :: y).length := by simp
  have hsw := badPairs_swap x y a b hab
  rw [hlen]
  omega

/-- Every word of outer 3×3×3 turns has an efficient word of no greater length
with the same action on every 3×3×3 state. -/
theorem normalize3 (w : List Turn) (hall : ∀ t ∈ w, isOuter3 t) :
    ∃ w', (∀ t ∈ w', isOuter3 t) ∧ Eff w' ∧ w'.length ≤ w.length ∧
      ∀ s : CubeState, s.n = 3 → s.doMove ⟨w⟩ = s.doMove ⟨w'⟩ := by
  have H : ∀ m : ℕ, ∀ w : List Turn, effMeasure w ≤ m → (∀ t ∈ w, isOuter3 t) →
      ∃ w', (∀ t ∈ w', isOuter3 t) ∧ Eff w' ∧ w'.length ≤ w.length ∧
        ∀ s : CubeState, s.n = 3 → s.doMove ⟨w⟩ = s.doMove ⟨w'⟩ := by
    intro m
    induction m with
    | zero =>
      intro w hm hall
      cases w with
      | nil =>
        exact ⟨[], hall, fun j hj => absurd hj (by simp), le_refl _, fun s _ => rfl⟩
      | cons t ts =>
        exfalso
        unfold effMeasure at hm
        simp only [List.length_cons] at hm
        omega
    | succ m ih =>
      intro w hm hall
      by_cases heff : Eff w
      · exact ⟨w, hall, heff, le_refl _, fun s _ => rfl⟩
      · rcases not_eff_decomp w hall heff with ⟨x, a, y, hdec⟩ | ⟨x, a, y, hdec⟩ |
          ⟨x, a, b, y, hdec, hcm, hlt⟩
        · subst hdec
          have hlen : (x ++ y).length + 2 ≤ (x ++ a :: a.invert :: y).length := by
            simp only [List.length_append, List.length_cons]
            omega
          have hall1 : ∀ t ∈ x ++ y, isOuter3 t := by
            intro t ht
            apply hall
            simp only [List.mem_append, List.mem_cons] at ht ⊢
            tauto
          have hμ : effMeasure (x ++ y) ≤ m := by
            have := effMeasure_lt_of_length (x ++ a :: a.invert :: y) (x ++ y) hlen
            omega
          obtain ⟨w', h1, h2, h3, h4⟩ := ih (x ++ y) hμ hall1
          refine ⟨w', h1, h2, by omega, ?_⟩
          intro s hs
          have hav : a.validFor s.n := by
            rw [hs]
            exact outer3_validFor (hall a (by simp))
          rw [action_cancel s x y a hav, h4 s hs]
        · subst hdec
          have hlen : (x ++ a.invert :: y).length + 2 ≤
              (x ++ a :: a :: a :: y).length := by
            simp only [List.length_append, List.length_cons]
            omega
          have hamem : isOuter3 a := hall a (by simp)
          have hall1 : ∀ t ∈ x ++ a.invert :: y, isOuter3 t := by
            intro t ht
            simp only [List.mem_append, List.mem_cons] at ht
            rcases ht with h | h | h
            · exact hall t (by simp [h])
            · rw [h]
              exact outer3_invert hamem
            · exact hall t (by simp [h])
          have hμ : effMeasure (x ++ a.invert :: y) ≤ m := by
            have := effMeasure_lt_of_length (x ++ a :: a :: a :: y)
              (x ++ a.invert :: y) hlen
            omega
          obtain ⟨w', h1, h2, h3, h4⟩ := ih (x ++ a.invert :: y) hμ hall1
          refine ⟨w', h1, h2, by omega, ?_⟩
          intro s hs
          rw [action_triple s hs x y a hamem, h4 s hs]
        · subst hdec
          have hamem : isOuter3 a := hall a (by simp)
          have hbmem : isOuter3 b := hall b (by simp)
          have hbad : badB a b = true := by
            unfold badB
            rw [hcm, decide_eq_true hlt, Bool.and_self]
          have hall1 : ∀ t ∈ x ++ b :: a :: y, isOuter3 t := by
            intro t ht
            apply hall
            simp only [List.mem_append, List.mem_cons] at ht ⊢
            tauto
          have hμ : effMeasure (x ++ b :: a :: y) ≤ m := by
            have := effMeasure_lt_of_swap x y a b hbad
            omega
          obtain ⟨w', h1, h2, h3, h4⟩ := ih (x ++ b :: a :: y) hμ hall1
          refine ⟨w', h1, h2, by simp at h3 ⊢; omega, ?_⟩
          intro s hs
          rw [action_swap s hs x y a b hamem hbmem hcm, h4 s hs]
  exact H (effMeasure w) w (le_refl _) hall

/-! ## DFS search: invariants, soundness and completeness -/

lemma isSolved_stdSolved3 : (stdSolved 3).isSolved := by decide

/-- The twelve turns `all_turns` yields on a 3×3×3 state. -/
def allTurns3List : List Turn :=
  [.faceBased .Up true 0 3, .faceBased .Up false 0 3,
   .faceBased .Left true 0 3, .faceBased .Left false 0 3,
   .faceBased .Front true 0 3, .faceBased .Front false 0 3,
   .faceBased .Right true 0 3, .faceBased .Right false 0 3,
   .faceBased .Back true 0 3, .faceBased .Back false 0 3,
   .faceBased .Down true 0 3, .faceBased .Down false 0 3]

lemma allTurns3 (s : CubeState) (h3 : s.n = 3) : s.allTurns = allTurns3List := by
  unfold CubeState.allTurns
  rw [h3]
  rfl

lemma allTurns_outer3 {s : CubeState} (h3 : s.n = 3) {t : Turn}
    (ht : t ∈ s.allTurns) : isOuter3 t := by
  rw [allTurns3 s h3] at ht
  have hall : ∀ u ∈ allTurns3List, isOuter3 u := by decide
  exact hall t ht

lemma outer3_mem_allTurns {s : CubeState} (h3 : s.n = 3) {t : Turn}
    (ht : isOuter3 t) : t ∈ s.allTurns := by
  rw [allTurns3 s h3]
  obtain ⟨f, v, rfl⟩ := ht
  cases f <;> cases v <;> decide

lemma intoFaceBased_idem (t : Turn) :
    t.intoFaceBased.intoFaceBased = t.intoFaceBased := by
  cases t with
  | axisBased ax p i cs =>
    cases ax <;> by_cases hi : 0 < i <;> simp [Turn.intoFaceBased, hi]
  | faceBased f v ni cs => rfl

lemma turn_intoFaceBased (s : CubeState) (t : Turn) :
    s.turn t.intoFaceBased = s.turn t := by
  unfold CubeState.turn
  rw [intoFaceBased_idem t]

lemma doMove_map_intoFaceBased (s : CubeState) (l : List Turn) :
    s.doMove ⟨l.map Turn.intoFaceBased⟩ = s.doMove ⟨l⟩ := by
  induction l generalizing s with
  | nil => rfl
  | cons t ts ih =>
    show ((s.turn t.intoFaceBased).doMove ⟨ts.map Turn.intoFaceBased⟩ : CubeState) =
      (s.turn t).doMove ⟨ts⟩
    rw [turn_intoFaceBased, ih]

lemma validFor3_outer3 {u : Turn} (h : u.validFor 3) : isOuter3 u.intoFaceBased := by
  unfold Turn.validFor at h
  rcases hfb : u.intoFaceBased with _ | ⟨f, v, ni, cs⟩
  · rw [hfb] at h
    exact absurd h (by simp)
  · rw [hfb] at h
    obtain ⟨hcs, hni⟩ := h
    have hni0 : ni = 0 := by omega
    exact ⟨f, v, by rw [hcs, hni0]⟩

lemma mem_invert_turns {M : Move} {t : Turn} (ht : t ∈ M.invert.turns) :
    ∃ u ∈ M.turns, t = u.invert := by
  unfold Move.invert at ht
  simp only [List.mem_map, List.mem_reverse] at ht
  obtain ⟨u, hu, rfl⟩ := ht
  exact ⟨u, hu, rfl⟩

lemma getD_append_left {β : Type} [Inhabited β] (u v : List β) (j : ℕ)
    (h : j < u.length) : (u ++ v).getD j default = u.getD j default := by
  rw [List.getD_eq_getElem u default h,
    List.getD_eq_getElem _ default (by rw [List.length_append]; omega)]
  exact List.getElem_append_left ..

lemma getD_append_self {β : Type} [Inhabited β] (u v : List β) (x : β) :
    (u ++ x :: v).getD u.length default = x := by
  rw [List.getD_eq_getElem _ default (by rw [List.length_append, List.length_cons]; omega)]
  rw [List.getElem_append_right (le_refl u.length)]
  simp

/-- An efficient word stays efficient after appending one turn the filter
accepts. -/
lemma eff_snoc {u : List Turn} {x : Turn} (hu : Eff u)
    (hx : Move.isNextTurnEfficient ⟨u⟩ x = true) : Eff (u ++ [x]) := by
  intro j hj
  rw [List.length_append, List.length_cons, List.length_nil] at hj
  by_cases hju : j < u.length
  · rw [List.take_append_of_le_length (by omega), getD_append_left u [x] j hju]
    exact hu j hju
  · have hje : j = u.length := by omega
    rw [hje, List.take_left, getD_append_self]
    exact hx

/-- Every step inside an efficient word passes the efficiency filter. -/
lemma eff_step {q u r : List Turn} {x : Turn} (hq : Eff q) (hdec : q = u ++ x :: r) :
    Move.isNextTurnEfficient ⟨u⟩ x = true := by
  have hlt : u.length < q.length := by
    rw [hdec, List.length_append, List.length_cons]
    omega
  have := hq u.length hlt
  rw [hdec, List.take_left, getD_append_self] at this
  exact this

lemma stackWeight_cons (B k : ℕ) (e : ℕ × Turn) (l : List (ℕ × Turn)) :
    stackWeight B k (e :: l) = B ^ (k - e.1) + stackWeight B k l := by
  unfold stackWeight
  rw [List.map_cons, List.sum_cons]

lemma stackWeight_append (B k : ℕ) (l1 l2 : List (ℕ × Turn)) :
    stackWeight B k (l1 ++ l2) = stackWeight B k l1 + stackWeight B k l2 := by
  unfold stackWeight
  rw [List.map_append, List.sum_append]

lemma stackWeight_const (B k d : ℕ) (l : List (ℕ × Turn)) (h : ∀ e ∈ l, e.1 = d) :
    stackWeight B k l = l.length * B ^ (k - d) := by
  induction l with
  | nil => simp [stackWeight]
  | cons e l ih =>
    rw [stackWeight_cons, ih (fun a ha => h a (List.mem_cons_of_mem e ha)),
      h e (List.mem_cons_self ..), List.length_cons]
    ring

lemma pairwise_depth_const (d : ℕ) (l : List (ℕ × Turn)) (h : ∀ e ∈ l, e.1 = d) :
    l.Pairwise (fun e1 e2 => e2.1 ≤ e1.1) := by
  induction l with
  | nil => exact List.Pairwise.nil
  | cons e l ih =>
    refine List.Pairwise.cons ?_ (ih fun a ha => h a (List.mem_cons_of_mem e ha))
    intro b hb
    rw [h e (List.mem_cons_self ..), h b (List.mem_cons_of_mem e hb)]

/-- Admissibility of a heuristic source for 3×3×3 states: a reported value
never exceeds the length of any solving word of outer turns. -/
def Admissible (table : Option CornerTable) : Prop :=
  ∀ s : CubeState, s.n = 3 → ∀ hv, calcCornerHeuristics table s = some hv →
    ∀ w : List Turn, (∀ t ∈ w, isOuter3 t) → (s.doMove ⟨w⟩).isSolved → hv ≤ w.length

lemma admissible_none : Admissible none := fun s _ hv h => by
  exact absurd h (by simp [calcCornerHeuristics])

/-- Weak history invariant: every stack entry's parent record is consistent
(its move has the right length and reproduces its state from the root). -/
def WInv (root : CubeState) (k : ℕ) (hist : ℕ → Option (Move × CubeState))
    (stack : List (ℕ × Turn)) : Prop :=
  ∀ e ∈ stack, 1 ≤ e.1 ∧ e.1 ≤ k ∧
    ∃ pm ps, hist (e.1 - 1) = some (pm, ps) ∧ pm.turns.length = e.1 - 1 ∧
      ps = root.doMove pm

/-- A consistent stack entry whose recorded partial word is also efficient. -/
def EntryOk (root : CubeState) (k : ℕ) (hist : ℕ → Option (Move × CubeState))
    (e : ℕ × Turn) : Prop :=
  1 ≤ e.1 ∧ e.1 ≤ k ∧
    ∃ pm ps, hist (e.1 - 1) = some (pm, ps) ∧ pm.turns.length = e.1 - 1 ∧
      ps = root.doMove pm ∧ Eff (pm.turns ++ [e.2])

/-- Full search invariant: additionally the recorded partial words are
efficient, and stack depths do not increase from the top down. -/
structure LoopInv (root : CubeState) (k : ℕ) (hist : ℕ → Option (Move × CubeState))
    (stack : List (ℕ × Turn)) : Prop where
  entries : ∀ e ∈ stack, EntryOk root k hist e
  ord : stack.Pairwise fun e1 e2 => e2.1 ≤ e1.1

/-- The target word `q` is still tracked: some stack entry continues a
recorded prefix of `q`. -/
def Tracked (q : List Turn) (hist : ℕ → Option (Move × CubeState))
    (stack : List (ℕ × Turn)) : Prop :=
  ∃ e ∈ stack, ∃ pm ps r, hist (e.1 - 1) = some (pm, ps) ∧
    q = (pm.turns ++ [e.2]) ++ r

/-- One unfolding of the search loop at a popped entry whose parent record
is present. -/
lemma dpllLoop_cons (table : Option CornerTable) (root : CubeState)
    (k fuel i : ℕ) (t : Turn) (hist : ℕ → Option (Move × CubeState))
    (rest : List (ℕ × Turn)) (pm : Move) (ps : CubeState)
    (hh : hist (i - 1) = some (pm, ps)) :
    dpllLoop table root k (fuel + 1) ⟨hist, (i, t) :: rest⟩ =
      if (ps.turn t).isSolved then .ok ⟨pm.turns ++ [t]⟩
      else if k ≤ i then
        dpllLoop table root k fuel
          ⟨Function.update hist i (some (⟨pm.turns ++ [t]⟩, ps.turn t)), rest⟩
      else if 2 < root.n ∧ k - i < 14 ∧
          ∃ hv, calcCornerHeuristics table (ps.turn t) = some hv ∧ k - 1 < hv then
        dpllLoop table root k fuel
          ⟨Function.update hist i (some (⟨pm.turns ++ [t]⟩, ps.turn t)), rest⟩
      else
        dpllLoop table root k fuel
          ⟨Function.update hist i (some (⟨pm.turns ++ [t]⟩, ps.turn t)),
            ((root.allTurns.filter fun tt =>
                (Move.mk (pm.turns ++ [t])).isNextTurnEfficient tt).map
              fun tt => (i + 1, tt)).reverse ++ rest⟩ := by
  simp only [dpllLoop, dpllStep, hh]
  by_cases h1 : (ps.turn t).isSolved
  · rw [if_pos h1, if_pos h1]
  · rw [if_neg h1, if_neg h1]
    by_cases h2 : k ≤ i
    · rw [if_pos h2, if_pos h2]
    · rw [if_neg h2, if_neg h2]
      by_cases h3 : 2 < root.n ∧ k - i < 14 ∧
          ∃ hv, calcCornerHeuristics table (ps.turn t) = some hv ∧ k - 1 < hv
      · rw [if_pos h3, if_pos h3]
      · rw [if_neg h3, if_neg h3]

lemma WInv_update {root : CubeState} {k : ℕ} {hist : ℕ → Option (Move × CubeState)}
    {rest : List (ℕ × Turn)} (hinv : WInv root k hist rest)
    (i : ℕ) (mm : Move) (ms : CubeState) (hmlen : mm.turns.length = i)
    (hms : ms = root.doMove mm) :
    WInv root k (Function.update hist i (some (mm, ms))) rest := by
  intro e he
  obtain ⟨h1, h2, pm, ps, hh, hlen, hps⟩ := hinv e he
  refine ⟨h1, h2, ?_⟩
  by_cases hei : e.1 - 1 = i
  · exact ⟨mm, ms, by rw [hei, Function.update_same], by omega, hms⟩
  · exact ⟨pm, ps, by rw [Function.update_noteq hei]; exact hh, hlen, hps⟩

/-- Soundness of the search loop: under the weak history invariant, an `Ok`
result is a move within the bound that solves the root. -/
lemma dpllLoop_sound (table : Option CornerTable) (root : CubeState) (k : ℕ) :
    ∀ (fuel : ℕ) (hist : ℕ → Option (Move × CubeState)) (stack : List (ℕ × Turn)),
      WInv root k hist stack →
      ∀ m : Move, dpllLoop table root k fuel ⟨hist, stack⟩ = .ok m →
        m.turns.length ≤ k ∧ (root.doMove m).isSolved := by
  intro fuel
  induction fuel with
  | zero =>
    intro hist stack _ m hm
    exact absurd hm (by simp [dpllLoop])
  | succ fuel ih =>
    intro hist stack hinv m hm
    cases stack with
    | nil => exact absurd hm (by simp [dpllLoop])
    | cons e rest =>
      obtain ⟨i, t⟩ := e
      obtain ⟨hi1, hik, pm, ps, hh, hlen, hps⟩ := hinv (i, t) (List.mem_cons_self ..)
      have hact : root.doMove ⟨pm.turns ++ [t]⟩ = ps.turn t := by
        rw [doMove_append]
        show (root.doMove ⟨pm.turns⟩).turn t = ps.turn t
        rw [hps]
      have hinv_rest : WInv root k hist rest :=
        fun e he => hinv e (List.mem_cons_of_mem _ he)
      have hmlen : (Move.mk (pm.turns ++ [t])).turns.length = i := by
        simp only [List.length_append, List.length_cons, List.length_nil]
        omega
      rw [dpllLoop_cons table root k fuel i t hist rest pm ps hh] at hm
      by_cases h1 : (ps.turn t).isSolved
      · rw [if_pos h1] at hm
        injection hm with hm2
        subst hm2
        constructor
        · rw [hmlen]
          exact hik
        · rw [hact]
          exact h1
      · rw [if_neg h1] at hm
        by_cases h2 : k ≤ i
        · rw [if_pos h2] at hm
          exact ih _ rest (WInv_update hinv_rest i _ _ hmlen hact.symm) m hm
        · rw [if_neg h2] at hm
          by_cases h3 : 2 < root.n ∧ k - i < 14 ∧
              ∃ hv, calcCornerHeuristics table (ps.turn t) = some hv ∧ k - 1 < hv
          · rw [if_pos h3] at hm
            exact ih _ rest (WInv_update hinv_rest i _ _ hmlen hact.symm) m hm
          · rw [if_neg h3] at hm
            refine ih _ _ ?_ m hm
            intro e he
            rcases List.mem_append.mp he with hc | hr
            · rw [List.mem_reverse, List.mem_map] at hc
              obtain ⟨tt, htt, rfl⟩ := hc
              exact ⟨by omega, by omega, ⟨pm.turns ++ [t]⟩, ps.turn t,
                by rw [show i + 1 - 1 = i from rfl, Function.update_same],
                by rw [show i + 1 - 1 = i from rfl]; exact hmlen, hact.symm⟩
            · exact WInv_update hinv_rest i _ _ hmlen hact.symm e hr

/-- Soundness of `solve_dpll`: an `Ok` move respects the bound and solves
the input, for every heuristic table, input state and bound. -/
lemma solveDpll_sound (table : Option CornerTable) (root : CubeState) (k : ℕ)
    (m : Move) (hm : solveDpll table root k = .ok m) :
    m.turns.length ≤ k ∧ (root.doMove m).isSolved := by
  unfold solveDpll at hm
  by_cases h1 : root.isSolved
  · rw [if_pos h1] at hm
    injection hm with hm2
    subst hm2
    exact ⟨by simp [Move.empty], h1⟩
  · rw [if_neg h1] at hm
    by_cases h2 : k = 0
    · rw [if_pos h2] at hm
      exact absurd hm (by simp)
    · rw [if_neg h2] at hm
      refine dpllLoop_sound table root k _ _ _ ?_ m hm
      intro e he
      rw [List.mem_reverse, List.mem_map] at he
      obtain ⟨t, ht, rfl⟩ := he
      exact ⟨le_refl 1, by omega, Move.empty, root,
        by rw [show (1:ℕ) - 1 = 0 from rfl, Function.update_same], rfl, rfl⟩

lemma stackWeight_pos (B k : ℕ) (hB : 0 < B) (stack : List (ℕ × Turn))
    (hne : stack ≠ []) : 0 < stackWeight B k stack := by
  cases stack with
  | nil => exact absurd rfl hne
  | cons e l =>
    rw [stackWeight_cons]
    have hp : 0 < B ^ (k - e.1) := Nat.pow_pos hB
    omega

/-- Completeness of the search loop: if an efficient solving word within the
bound is tracked on the stack, the loop returns a solving move within the
bound (given enough fuel). -/
lemma dpllLoop_complete (table : Option CornerTable) (hadm : Admissible table)
    (root : CubeState) (hroot : root.n = 3) (k : ℕ)
    (q : List Turn) (hq_out : ∀ t ∈ q, isOuter3 t)
    (hq_eff : Eff q) (hq_solve : (root.doMove ⟨q⟩).isSolved)
    (hq_len : q.length ≤ k) :
    ∀ (fuel : ℕ) (hist : ℕ → Option (Move × CubeState)) (stack : List (ℕ × Turn)),
      LoopInv root k hist stack → Tracked q hist stack →
      stackWeight (root.allTurns.length + 1) k stack < fuel →
      ∃ m : Move, dpllLoop table root k fuel ⟨hist, stack⟩ = .ok m ∧
        m.turns.length ≤ k ∧ (root.doMove m).isSolved := by
  intro fuel
  induction fuel with
  | zero =>
    intro hist stack hinv htr hw
    exfalso
    obtain ⟨e, he, -⟩ := htr
    have hne : stack ≠ [] := by
      rintro rfl
      exact absurd he (List.not_mem_nil e)
    have := stackWeight_pos (root.allTurns.length + 1) k (by omega) stack hne
    omega
  | succ fuel ih =>
    intro hist stack hinv htr hw
    cases stack with
    | nil =>
      exfalso
      obtain ⟨e, he, -⟩ := htr
      exact absurd he (List.not_mem_nil e)
    | cons e0 rest =>
      obtain ⟨i, t⟩ := e0
      obtain ⟨hi1, hik, pm, ps, hh, hlen, hps, heffh⟩ :=
        hinv.entries (i, t) (List.mem_cons_self ..)
      dsimp only at hi1 hik hh hlen heffh
      have hw2 : (root.allTurns.length + 1) ^ (k - i) +
          stackWeight (root.allTurns.length + 1) k rest < fuel + 1 := by
        rw [stackWeight_cons] at hw
        exact hw
      have hact : root.doMove ⟨pm.turns ++ [t]⟩ = ps.turn t := by
        rw [doMove_append]
        show (root.doMove ⟨pm.turns⟩).turn t = ps.turn t
        rw [hps]
      have hmlen : (pm.turns ++ [t]).length = i := by
        rw [List.length_append, List.length_cons, List.length_nil]
        omega
      have hrest_bound : ∀ e ∈ rest, e.1 ≤ i :=
        fun e he => (List.pairwise_cons.mp hinv.ord).1 e he
      have hrest_ord : rest.Pairwise (fun e1 e2 => e2.1 ≤ e1.1) :=
        (List.pairwise_cons.mp hinv.ord).2
      have hrest_entries : ∀ e ∈ rest, EntryOk root k hist e :=
        fun e he => hinv.entries e (List.mem_cons_of_mem _ he)
      have hrest_upd : ∀ (v : Move × CubeState), ∀ e ∈ rest,
          EntryOk root k (Function.update hist i (some v)) e := by
        intro v e he
        obtain ⟨h1, h2, pm', ps', hh', hlen', hps', heff'⟩ := hrest_entries e he
        have hne : e.1 - 1 ≠ i := by
          have := hrest_bound e he
          omega
        exact ⟨h1, h2, pm', ps',
          by rw [Function.update_noteq hne]; exact hh', hlen', hps', heff'⟩
      obtain ⟨e, he, pm', ps', r, hh', hqdec⟩ := htr
      have hhead : e = (i, t) → ∃ r0, q = (pm.turns ++ [t]) ++ r0 := by
        intro heq
        subst heq
        have hcmp := hh.symm.trans hh'
        injection hcmp with hcmp2
        injection hcmp2 with ha hb
        subst ha
        exact ⟨r, hqdec⟩
      have htr_rest : e ∈ rest → ∀ v : Move × CubeState,
          Tracked q (Function.update hist i (some v)) rest := by
        intro hr v
        refine ⟨e, hr, pm', ps', r, ?_, hqdec⟩
        have hne : e.1 - 1 ≠ i := by
          have := hrest_bound e hr
          have := (hrest_entries e hr).1
          omega
        rw [Function.update_noteq hne]
        exact hh'
      have hwrest : stackWeight (root.allTurns.length + 1) k rest < fuel := by
        have hp : 0 < (root.allTurns.length + 1) ^ (k - i) := Nat.pow_pos (by omega)
        omega
      rw [dpllLoop_cons table root k fuel i t hist rest pm ps hh]
      by_cases h1 : (ps.turn t).isSolved
      · rw [if_pos h1]
        refine ⟨⟨pm.turns ++ [t]⟩, rfl, ?_, ?_⟩
        · show (pm.turns ++ [t]).length ≤ k
          rw [hmlen]
          exact hik
        · rw [hact]
          exact h1
      · rw [if_neg h1]
        have hsolved_of_nil : ∀ r0 : List Turn, q = (pm.turns ++ [t]) ++ r0 →
            r0 = [] → False := by
          intro r0 hq0 hr0
          subst hr0
          apply h1
          have hqa : root.doMove ⟨q⟩ = ps.turn t := by
            rw [hq0, doMove_append, hact]
            rfl
          rw [← hqa]
          exact hq_solve
        by_cases h2 : k ≤ i
        · rw [if_pos h2]
          rcases List.mem_cons.mp he with heq | hrest
          · exfalso
            obtain ⟨r0, hq0⟩ := hhead heq
            have hql : q.length = i + r0.length := by
              rw [hq0, List.length_append, hmlen]
            exact hsolved_of_nil r0 hq0 (List.length_eq_zero.mp (by omega))
          · exact ih _ _ ⟨fun e he => hrest_upd _ e he, hrest_ord⟩
              (htr_rest hrest _) hwrest
        · rw [if_neg h2]
          by_cases h3 : 2 < root.n ∧ k - i < 14 ∧
              ∃ hv, calcCornerHeuristics table (ps.turn t) = some hv ∧ k - 1 < hv
          · rw [if_pos h3]
            rcases List.mem_cons.mp he with heq | hrest
            · exfalso
              obtain ⟨r0, hq0⟩ := hhead heq
              obtain ⟨-, -, hv, hcv, hvgt⟩ := h3
              have hsn : (ps.turn t).n = 3 := by
                rw [← hact, doMove_n]
                exact hroot
              have houtr : ∀ u ∈ r0, isOuter3 u := fun u hu =>
                hq_out u (by rw [hq0]; exact List.mem_append_right _ hu)
              have hsolv : ((ps.turn t).doMove ⟨r0⟩).isSolved := by
                have hqa : root.doMove ⟨q⟩ = (ps.turn t).doMove ⟨r0⟩ := by
                  rw [hq0, doMove_append, hact]
                rw [← hqa]
                exact hq_solve
              have hle := hadm (ps.turn t) hsn hv hcv r0 houtr hsolv
              have hql : q.length = i + r0.length := by
                rw [hq0, List.length_append, hmlen]
              omega
            · exact ih _ _ ⟨fun e he => hrest_upd _ e he, hrest_ord⟩
                (htr_rest hrest _) hwrest
          · rw [if_neg h3]
            have hchild_depth : ∀ ee ∈ ((root.allTurns.filter fun tt =>
                  (Move.mk (pm.turns ++ [t])).isNextTurnEfficient tt).map
                fun tt => (i + 1, tt)).reverse, ee.1 = i + 1 := by
              intro ee hee
              rw [List.mem_reverse, List.mem_map] at hee
              obtain ⟨tt, -, rfl⟩ := hee
              rfl
            have hinv_new : LoopInv root k
                (Function.update hist i (some (⟨pm.turns ++ [t]⟩, ps.turn t)))
                (((root.allTurns.filter fun tt =>
                    (Move.mk (pm.turns ++ [t])).isNextTurnEfficient tt).map
                  fun tt => (i + 1, tt)).reverse ++ rest) := by
              refine ⟨?_, ?_⟩
              · intro ee hee
                rcases List.mem_append.mp hee with hc | hr
                · rw [List.mem_reverse, List.mem_map] at hc
                  obtain ⟨tt, htt, rfl⟩ := hc
                  have httE := (List.mem_filter.mp htt).2
                  refine ⟨by omega, by omega, ⟨pm.turns ++ [t]⟩, ps.turn t,
                    by rw [show i + 1 - 1 = i from rfl, Function.update_same], ?_,
                    hact.symm, ?_⟩
                  · show (pm.turns ++ [t]).length = i + 1 - 1
                    rw [hmlen]
                    omega
                  · exact eff_snoc heffh httE
                · exact hrest_upd _ ee hr
              · rw [List.pairwise_append]
                refine ⟨pairwise_depth_const (i + 1) _ hchild_depth, hrest_ord, ?_⟩
                intro a ha b hb
                have h1a := hchild_depth a ha
                have h2b := hrest_bound b hb
                omega
            have hw_new : stackWeight (root.allTurns.length + 1) k
                (((root.allTurns.filter fun tt =>
                    (Move.mk (pm.turns ++ [t])).isNextTurnEfficient tt).map
                  fun tt => (i + 1, tt)).reverse ++ rest) < fuel := by
              rw [stackWeight_append]
              have hwc := stackWeight_const (root.allTurns.length + 1) k (i + 1)
                (((root.allTurns.filter fun tt =>
                    (Move.mk (pm.turns ++ [t])).isNextTurnEfficient tt).map
                  fun tt => (i + 1, tt)).reverse) hchild_depth
              have hlenc : (((root.allTurns.filter fun tt =>
                    (Move.mk (pm.turns ++ [t])).isNextTurnEfficient tt).map
                  fun tt => (i + 1, tt)).reverse).length ≤ root.allTurns.length := by
                rw [List.length_reverse, List.length_map]
                exact List.length_filter_le ..
              have hexp : k - i = (k - (i + 1)) + 1 := by omega
              have hpow : (root.allTurns.length + 1) ^ (k - i) =
                  (root.allTurns.length + 1) ^ (k - (i + 1)) *
                    (root.allTurns.length + 1) := by
                rw [hexp, pow_succ]
              have hppos : 0 < (root.allTurns.length + 1) ^ (k - (i + 1)) :=
                Nat.pow_pos (by omega)
              have hmul : (((root.allTurns.filter fun tt =>
                    (Move.mk (pm.turns ++ [t])).isNextTurnEfficient tt).map
                  fun tt => (i + 1, tt)).reverse).length *
                    (root.allTurns.length + 1) ^ (k - (i + 1)) <
                  (root.allTurns.length + 1) ^ (k - i) := by
                calc (((root.allTurns.filter fun tt =>
                      (Move.mk (pm.turns ++ [t])).isNextTurnEfficient tt).map
                    fun tt => (i + 1, tt)).reverse).length *
                      (root.allTurns.length + 1) ^ (k - (i + 1))
                    ≤ root.allTurns.length *
                      (root.allTurns.length + 1) ^ (k - (i + 1)) :=
                      Nat.mul_le_mul_right _ hlenc
                  _ < (root.allTurns.length + 1) *
                      (root.allTurns.length + 1) ^ (k - (i + 1)) :=
                      (Nat.mul_lt_mul_right hppos).mpr (by omega)
                  _ = (root.allTurns.length + 1) ^ (k - i) := by
                      rw [Nat.mul_comm, ← hpow]
              omega
            rcases List.mem_cons.mp he with heq | hrest
            · obtain ⟨r0, hq0⟩ := hhead heq
              obtain ⟨t', r', rfl⟩ : ∃ t' r', r0 = t' :: r' := by
                cases r0 with
                | nil => exact absurd rfl (by intro hcon; exact hsolved_of_nil _ hq0 hcon)
                | cons a b => exact ⟨a, b, rfl⟩
              have ht'flt : (Move.mk (pm.turns ++ [t])).isNextTurnEfficient t' = true :=
                eff_step hq_eff hq0
              have ht'mem : t' ∈ root.allTurns := outer3_mem_allTurns hroot
                (hq_out t' (by rw [hq0]; simp))
              refine ih _ _ hinv_new ⟨(i + 1, t'), List.mem_append_left _ ?_,
                ⟨pm.turns ++ [t]⟩, ps.turn t, r', ?_, ?_⟩ hw_new
              · rw [List.mem_reverse, List.mem_map]
                exact ⟨t', List.mem_filter.mpr ⟨ht'mem, ht'flt⟩, rfl⟩
              · rw [show i + 1 - 1 = i from rfl, Function.update_same]
              · rw [hq0, List.append_cons]
            · exact ih _ _ hinv_new ⟨e, List.mem_append_right _ hrest, pm', ps', r,
                by rw [Function.update_noteq (show e.1 - 1 ≠ i by
                  have := hrest_bound e hrest
                  have := (hrest_entries e hrest).1
                  omega)]; exact hh', hqdec⟩ hw_new

/-- C1: for every 3×3×3 state produced by scrambling the standard solved
cube with a move of length `L` (`1 ≤ L ≤ 7`, every turn valid for size 3,
i.e. `num_in = 0`), `solve_dpll` with bound `L` and an admissible (or
absent) corner table returns `Ok(m)` with `m` of at most `L` turns whose
application solves the scrambled state; and for every table, input and
bound, an `Ok` result never exceeds the bound and always solves the
input. -/
theorem c1_solve_dpll (table : Option CornerTable) (hadm : Admissible table)
    (M : Move) (hM : ∀ t ∈ M.turns, t.validFor 3)
    (hL1 : 1 ≤ M.turns.length) (hL7 : M.turns.length ≤ 7) :
    (∃ m : Move,
      solveDpll table ((stdSolved 3).doMove M) M.turns.length = .ok m ∧
        m.turns.length ≤ M.turns.length ∧
        (((stdSolved 3).doMove M).doMove m).isSolved) ∧
    ∀ (table2 : Option CornerTable) (root : CubeState) (k : ℕ) (m2 : Move),
      solveDpll table2 root k = .ok m2 →
        m2.turns.length ≤ k ∧ (root.doMove m2).isSolved := by
  constructor
  · have hrootn : ((stdSolved 3).doMove M).n = 3 := by
      rw [doMove_n]
      rfl
    have hMinv_valid : ∀ t ∈ M.invert.turns, t.validFor 3 := by
      intro t ht
      obtain ⟨u, hu, rfl⟩ := mem_invert_turns ht
      exact invert_validFor (hM u hu)
    have hw0_out : ∀ t ∈ M.invert.turns.map Turn.intoFaceBased, isOuter3 t := by
      intro t ht
      rw [List.mem_map] at ht
      obtain ⟨u, hu, rfl⟩ := ht
      exact validFor3_outer3 (hMinv_valid u hu)
    have hw0_act : ((stdSolved 3).doMove M).doMove
        ⟨M.invert.turns.map Turn.intoFaceBased⟩ = stdSolved 3 := by
      rw [doMove_map_intoFaceBased]
      show ((stdSolved 3).doMove M).doMove M.invert = stdSolved 3
      exact doMove_invert_cancel (stdSolved 3) M hM
    obtain ⟨q, hq_out, hq_eff, hq_len, hq_act⟩ :=
      normalize3 (M.invert.turns.map Turn.intoFaceBased) hw0_out
    have hw0_len : (M.invert.turns.map Turn.intoFaceBased).length =
        M.turns.length := by
      simp [Move.invert]
    have hq_solve : (((stdSolved 3).doMove M).doMove ⟨q⟩).isSolved := by
      rw [← hq_act _ hrootn, hw0_act]
      exact isSolved_stdSolved3
    by_cases hsolved : ((stdSolved 3).doMove M).isSolved
    · refine ⟨Move.empty, ?_, by simp [Move.empty], hsolved⟩
      unfold solveDpll
      rw [if_pos hsolved]
    · have hqne : q ≠ [] := by
        rintro rfl
        exact hsolved hq_solve
      obtain ⟨q0, qrest, rfl⟩ : ∃ a b, q = a :: b := by
        cases q with
        | nil => exact absurd rfl hqne
        | cons a b => exact ⟨a, b, rfl⟩
      have hk0 : ¬ M.turns.length = 0 := by omega
      have hinv0 : LoopInv ((stdSolved 3).doMove M) M.turns.length
          (Function.update (fun _ => none) 0
            (some (Move.empty, (stdSolved 3).doMove M)))
          ((((stdSolved 3).doMove M).allTurns.map fun t => (1, t)).reverse) := by
        constructor
        · intro e he
          rw [List.mem_reverse, List.mem_map] at he
          obtain ⟨t, ht, rfl⟩ := he
          refine ⟨le_refl 1, by omega, Move.empty, (stdSolved 3).doMove M,
            by rw [show (1:ℕ) - 1 = 0 from rfl, Function.update_same], rfl, rfl, ?_⟩
          intro j hj
          have hj0 : j = 0 := by
            simp [Move.empty] at hj
            omega
          rw [hj0]
          rfl
        · apply pairwise_depth_const 1
          intro e he
          rw [List.mem_reverse, List.mem_map] at he
          obtain ⟨t, -, rfl⟩ := he
          rfl
      have htr0 : Tracked (q0 :: qrest)
          (Function.update (fun _ => none) 0
            (some (Move.empty, (stdSolved 3).doMove M)))
          ((((stdSolved 3).doMove M).allTurns.map fun t => (1, t)).reverse) := by
        refine ⟨(1, q0), ?_, Move.empty, (stdSolved 3).doMove M, qrest,
          by rw [show (1:ℕ) - 1 = 0 from rfl, Function.update_same], rfl⟩
        rw [List.mem_reverse, List.mem_map]
        exact ⟨q0, outer3_mem_allTurns hrootn (hq_out q0 (List.mem_cons_self ..)), rfl⟩
      obtain ⟨m, hm, hmlen, hmsolve⟩ := dpllLoop_complete table hadm
        ((stdSolved 3).doMove M) hrootn M.turns.length (q0 :: qrest)
        hq_out hq_eff hq_solve (by omega)
        (stackWeight (((stdSolved 3).doMove M).allTurns.length + 1) M.turns.length
          ((((stdSolved 3).doMove M).allTurns.map fun t => (1, t)).reverse) + 1)
        (Function.update (fun _ => none) 0
          (some (Move.empty, (stdSolved 3).doMove M)))
        ((((stdSolved 3).doMove M).allTurns.map fun t => (1, t)).reverse)
        hinv0 htr0 (Nat.lt_succ_self _)
      refine ⟨m, ?_, hmlen, hmsolve⟩
      unfold solveDpll
      rw [if_neg hsolved, if_neg hk0]
      exact hm
  · intro table2 root k m2 hm2
    exact solveDpll_sound table2 root k m2 hm2

/-- C1 witness: the concrete scramble `U` of the solved 3×3×3 cube with an
absent table and bound 1. -/
theorem c1_witness :
    (∃ m : Move,
      solveDpll none ((stdSolved 3).doMove ⟨[Turn.faceBased .Up false 0 3]⟩)
        (Move.mk [Turn.faceBased .Up false 0 3]).turns.length = .ok m ∧
        m.turns.length ≤ (Move.mk [Turn.faceBased .Up false 0 3]).turns.length ∧
        (((stdSolved 3).doMove ⟨[Turn.faceBased .Up false 0 3]⟩).doMove m).isSolved) ∧
    ∀ (table2 : Option CornerTable) (root : CubeState) (k : ℕ) (m2 : Move),
      solveDpll table2 root k = .ok m2 →
        m2.turns.length ≤ k ∧ (root.doMove m2).isSolved :=
  c1_solve_dpll none admissible_none ⟨[Turn.faceBased .Up false 0 3]⟩ (by decide)
    (by decide) (by decide)

/-! ## Whole-cube rotations as read maps (2×2×2) -/

/-- The data pipeline of `rotate_cube`, factored out of `CubeState`. -/
def rotCubeData (n : ℕ) (axis : Axis) (d0 : ℕ → α) : ℕ → α :=
  let nn := n * n
  match axis with
  | .X =>
    let d1 := rotateFaceData n (nn * Face.idx .Back) false d0
    let d2 := rotateFaceData n (nn * Face.idx .Back) false d1
    let d3 := rotateFaceData n (nn * Face.idx .Right) false d2
    let d4 := rotateFaceData n (nn * Face.idx .Left) true d3
    let d5 := stripCycle nn (fun i => (i, 2 * nn + i, 5 * nn + i, 4 * nn + i)) d4
    let d6 := rotateFaceData n (nn * Face.idx .Back) false d5
    let d7 := rotateFaceData n (nn * Face.idx .Back) false d6
    d7
  | .Y =>
    let d1 := rotateFaceData n (nn * Face.idx .Back) false d0
    let d2 := rotateFaceData n (nn * Face.idx .Front) true d1
    let d3 := stripCycle nn (fun i => (i, 3 * nn + i, 5 * nn + i, 1 * nn + i)) d2
    let d4 := rotateFaceData n (nn * Face.idx .Up) true d3
    let d5 := rotateFaceData n (nn * Face.idx .Left) true d4
    let d6 := rotateFaceData n (nn * Face.idx .Down) true d5
    let d7 := rotateFaceData n (nn * Face.idx .Right) true d6
    d7
  | .Z =>
    let d1 := rotateFaceData n (nn * Face.idx .Down) false d0
    let d2 := rotateFaceData n (nn * Face.idx .Up) true d1
    let d3 := stripCycle nn (fun i => (1 * nn + i, 4 * nn + i, 3 * nn + i, 2 * nn + i)) d2
    d3

lemma rotateCube_eq (s : CubeState) (ax : Axis) :
    s.rotateCube ax = { n := s.n, data := rotCubeData s.n ax s.data } := by
  cases ax <;> rfl

lemma rotCubeData_natural {β : Type} (h : α → β) (n : ℕ) (ax : Axis) (f : ℕ → α) :
    rotCubeData n ax (fun p => h (f p)) = fun p => h (rotCubeData n ax f p) := by
  cases ax <;>
    simp only [rotCubeData, rotateFaceData_natural, stripCycle_natural]

/-- The read map of a whole-cube rotation. -/
def rotReadMap (n : ℕ) (ax : Axis) : ℕ → ℕ := rotCubeData n ax id

lemma rotCubeData_read (n : ℕ) (ax : Axis) (f : ℕ → α) :
    rotCubeData n ax f = fun p => f (rotReadMap n ax p) :=
  rotCubeData_natural f n ax id

lemma rot2_data (s : CubeState) (ax : Axis) (hs : s.n = 2) :
    s.rotateCube ax = { n := 2, data := fun p => s.data (rotReadMap 2 ax p) } := by
  rw [rotateCube_eq, hs, rotCubeData_read]

lemma stripCycle_untouched (count : ℕ) (idx : ℕ → ℕ × ℕ × ℕ × ℕ)
    (hidx : ∀ i < count, (idx i).1 < 24 ∧ (idx i).2.1 < 24 ∧
      (idx i).2.2.1 < 24 ∧ (idx i).2.2.2 < 24)
    (g : ℕ → α) (p : ℕ) (hp : 24 ≤ p) : stripCycle count idx g p = g p := by
  refine (stripCycle_suppOn count idx).1 g p ?_
  rintro ⟨i, hi, hq⟩
  obtain ⟨h1, h2, h3, h4⟩ := hidx i hi
  rcases hq with h | h | h | h <;> omega

lemma rotCubeData_untouched (ax : Axis) (f : ℕ → α) (p : ℕ) (hp : 24 ≤ p) :
    rotCubeData 2 ax f p = f p := by
  have hface : ∀ (fc : Face) (inv : Bool) (g : ℕ → α),
      rotateFaceData 2 (2 * 2 * fc.idx) inv g p = g p := by
    intro fc inv g
    refine rotateFaceData_untouched 2 _ inv g p ?_
    have := face_idx_le fc
    omega
  have hstrip : ∀ (idx : ℕ → ℕ × ℕ × ℕ × ℕ),
      (∀ i < 2 * 2, (idx i).1 < 24 ∧ (idx i).2.1 < 24 ∧ (idx i).2.2.1 < 24 ∧
        (idx i).2.2.2 < 24) →
      ∀ g : ℕ → α, stripCycle (2 * 2) idx g p = g p :=
    fun idx hidx g => stripCycle_untouched (2 * 2) idx hidx g p hp
  cases ax with
  | X =>
    simp only [rotCubeData]
    rw [hface, hface, hstrip _ (by intro i hi; dsimp only; omega), hface, hface,
      hface, hface]
  | Y =>
    simp only [rotCubeData]
    rw [hface, hface, hface, hface, hstrip _ (by intro i hi; dsimp only; omega),
      hface, hface]
  | Z =>
    simp only [rotCubeData]
    rw [hstrip _ (by intro i hi; dsimp only; omega), hface, hface]

lemma rotReadMap2_untouched (ax : Axis) (p : ℕ) (hp : 24 ≤ p) :
    rotReadMap 2 ax p = p :=
  rotCubeData_untouched ax id p hp

/-- `turn` at a face-based outer turn of a 2×2×2 state, in read-map form. -/
lemma turn2_data (s : CubeState) (f : Face) (v : Bool) (hs : s.n = 2) :
    s.turn (Turn.faceBased f v 0 2) =
      { n := 2, data := fun p => s.data (turnReadMap 2 f v 0 p) } := by
  show ({ n := s.n, data := turnData s.n f v 0 s.data } : CubeState) =
    { n := 2, data := fun p => s.data (turnReadMap 2 f v 0 p) }
  rw [hs]
  rw [turnData_read 2 f v 0 s.data]

/-- Iterated `rotate_cube` over a list of axes, first element applied
first. -/
def doRots (s : CubeState) (l : List Axis) : CubeState :=
  l.foldl CubeState.rotateCube s

lemma rotateCube_n (s : CubeState) (ax : Axis) : (s.rotateCube ax).n = s.n := by
  rw [rotateCube_eq]

lemma doRots_n (s : CubeState) (l : List Axis) : (doRots s l).n = s.n := by
  induction l generalizing s with
  | nil => rfl
  | cons a l ih =>
    show (doRots (s.rotateCube a) l).n = s.n
    rw [ih, rotateCube_n]

lemma doRots_append (s : CubeState) (l1 l2 : List Axis) :
    doRots s (l1 ++ l2) = doRots (doRots s l1) l2 :=
  List.foldl_append _ _ _ _

/-- The composite read map of a rotation word at size 2. -/
def rotW : List Axis → ℕ → ℕ
  | [], p => p
  | a :: rest, p => rotReadMap 2 a (rotW rest p)

lemma doRots_data (s : CubeState) (hs : s.n = 2) (w : List Axis) :
    doRots s w = { n := 2, data := fun p => s.data (rotW w p) } := by
  induction w generalizing s with
  | nil =>
    show s = { n := 2, data := fun p => s.data p }
    rw [← hs]
  | cons a rest ih =>
    show doRots (s.rotateCube a) rest = _
    rw [ih (s.rotateCube a) (by rw [rotateCube_n, hs]), rot2_data s a hs]
    rfl

lemma rotW_untouched (w : List Axis) (p : ℕ) (hp : 24 ≤ p) : rotW w p = p := by
  induction w with
  | nil => rfl
  | cons a rest ih =>
    show rotReadMap 2 a (rotW rest p) = p
    rw [ih, rotReadMap2_untouched a p hp]

lemma rotW_append (w1 w2 : List Axis) (p : ℕ) :
    rotW (w1 ++ w2) p = rotW w1 (rotW w2 p) := by
  induction w1 with
  | nil => rfl
  | cons a rest ih =>
    show rotReadMap 2 a (rotW (rest ++ w2) p) = _
    rw [ih]
    rfl

/-! ## The 24 cube orientations as lookup tables -/

/-- The 24 rotation read maps of the 2×2×2 cube, as 24-entry tables
(verified against the generator read maps below). -/
def canonTabs : List (List ℕ) :=
[[0, 1, 2, 3, 4, 5, 6, 7, 8, 9, 10, 11, 12, 13, 14, 15, 16, 17, 18, 19, 20, 21, 22, 23],
 [1, 3, 0, 2, 16, 17, 18, 19, 4, 5, 6, 7, 8, 9, 10, 11, 12, 13, 14, 15, 22, 20, 23, 21],
 [3, 2, 1, 0, 12, 13, 14, 15, 16, 17, 18, 19, 4, 5, 6, 7, 8, 9, 10, 11, 23, 22, 21, 20],
 [2, 0, 3, 1, 8, 9, 10, 11, 12, 13, 14, 15, 16, 17, 18, 19, 4, 5, 6, 7, 21, 23, 20, 22],
 [13, 15, 12, 14, 1, 3, 0, 2, 9, 11, 8, 10, 21, 23, 20, 22, 18, 16, 19, 17, 5, 7, 4, 6],
 [15, 14, 13, 12, 18, 16, 19, 17, 1, 3, 0, 2, 9, 11, 8, 10, 21, 23, 20, 22, 4, 5, 6, 7],
 [14, 12, 15, 13, 21, 23, 20, 22, 18, 16, 19, 17, 1, 3, 0, 2, 9, 11, 8, 10, 6, 4, 7, 5],
 [12, 13, 14, 15, 9, 11, 8, 10, 21, 23, 20, 22, 18, 16, 19, 17, 1, 3, 0, 2, 7, 6, 5, 4],
 [23, 22, 21, 20, 15, 14, 13, 12, 11, 10, 9, 8, 7, 6, 5, 4, 19, 18, 17, 16, 3, 2, 1, 0],
 [22, 20, 23, 21, 19, 18, 17, 16, 15, 14, 13, 12, 11, 10, 9, 8, 7, 6, 5, 4, 1, 3, 0, 2],
 [20, 21, 22, 23, 7, 6, 5, 4, 19, 18, 17, 16, 15, 14, 13, 12, 11, 10, 9, 8, 0, 1, 2, 3],
 [21, 23, 20, 22, 11, 10, 9, 8, 7, 6, 5, 4, 19, 18, 17, 16, 15, 14, 13, 12, 2, 0, 3, 1],
 [6, 4, 7, 5, 22, 20, 23, 21, 10, 8, 11, 9, 2, 0, 3, 1, 17, 19, 16, 18, 14, 12, 15, 13],
 [4, 5, 6, 7, 17, 19, 16, 18, 22, 20, 23, 21, 10, 8, 11, 9, 2, 0, 3, 1, 15, 14, 13, 12],
 [5, 7, 4, 6, 2, 0, 3, 1, 17, 19, 16, 18, 22, 20, 23, 21, 10, 8, 11, 9, 13, 15, 12, 14],
 [7, 6, 5, 4, 10, 8, 11, 9, 2, 0, 3, 1, 17, 19, 16, 18, 22, 20, 23, 21, 12, 13, 14, 15],
 [8, 9, 10, 11, 5, 7, 4, 6, 20, 21, 22, 23, 14, 12, 15, 13, 3, 2, 1, 0, 19, 18, 17, 16],
 [9, 11, 8, 10, 3, 2, 1, 0, 5, 7, 4, 6, 20, 21, 22, 23, 14, 12, 15, 13, 17, 19, 16, 18],
 [11, 10, 9, 8, 14, 12, 15, 13, 3, 2, 1, 0, 5, 7, 4, 6, 20, 21, 22, 23, 16, 17, 18, 19],
 [10, 8, 11, 9, 20, 21, 22, 23, 14, 12, 15, 13, 3, 2, 1, 0, 5, 7, 4, 6, 18, 16, 19, 17],
 [16, 17, 18, 19, 13, 15, 12, 14, 23, 22, 21, 20, 6, 4, 7, 5, 0, 1, 2, 3, 11, 10, 9, 8],
 [17, 19, 16, 18, 0, 1, 2, 3, 13, 15, 12, 14, 23, 22, 21, 20, 6, 4, 7, 5, 9, 11, 8, 10],
 [19, 18, 17, 16, 6, 4, 7, 5, 0, 1, 2, 3, 13, 15, 12, 14, 23, 22, 21, 20, 8, 9, 10, 11],
 [18, 16, 19, 17, 23, 22, 21, 20, 6, 4, 7, 5, 0, 1, 2, 3, 13, 15, 12, 14, 10, 8, 11, 9]]

/-- Which orientation table each of the 64 enumeration steps
`(c, b, a) ↦ X^c Y^b Z^a` realizes (flattened as `c*16 + b*4 + a`). -/
def eIdx : List ℕ :=
[0, 1, 2, 3, 4, 5, 6, 7, 8, 9, 10, 11, 12, 13, 14, 15, 16, 17, 18, 19, 7, 4, 5, 6,
 20, 21, 22, 23, 13, 14, 15, 12, 10, 11, 8, 9, 6, 7, 4, 5, 2, 3, 0, 1, 14, 15, 12, 13,
 22, 23, 20, 21, 5, 6, 7, 4, 18, 19, 16, 17, 15, 12, 13, 14]

/-- The 8 corner slots of the 2×2×2 cube: position triples in a fixed
orientation order (the orbit of the reference triple `(15, 18, 23)` under
the rotation tables). -/
def slotsL : List (ℕ × ℕ × ℕ) :=
[(15, 18, 23), (11, 14, 21), (7, 10, 20), (19, 6, 22),
 (2, 8, 5), (17, 0, 4), (12, 9, 3), (16, 13, 1)]

/-- Which slot the reference triple `(15, 18, 23)` reads through each
orientation table. -/
def jList : List ℕ := [0, 1, 2, 3, 3, 2, 4, 5, 5, 4, 6, 7, 7, 6, 1, 0, 7, 0, 3, 5, 4, 2, 1, 6]

/-- The cyclic spin with which the reference triple reads each slot. -/
def rList : List ℕ := [0, 0, 0, 0, 2, 1, 0, 0, 2, 1, 0, 0, 2, 1, 2, 1, 1, 2, 1, 1, 2, 2, 1, 2]

/-- Index of `rotate_cube(ax) ∘ orientation i` among the orientation
tables. -/
def compIdxL (ax : Axis) : List ℕ :=
  match ax with
  | .X => [16, 17, 18, 19, 7, 4, 5, 6, 20, 21, 22, 23, 13, 14, 15, 12, 10, 11, 8, 9, 2, 3, 0, 1]
  | .Y => [4, 5, 6, 7, 8, 9, 10, 11, 12, 13, 14, 15, 0, 1, 2, 3, 17, 18, 19, 16, 23, 20, 21, 22]
  | .Z => [1, 2, 3, 0, 17, 18, 19, 16, 11, 8, 9, 10, 23, 20, 21, 22, 13, 14, 15, 12, 7, 4, 5, 6]

/-- Composition table of the 24 orientations. -/
def mulIdx : List (List ℕ) :=
[[0, 1, 2, 3, 4, 5, 6, 7, 8, 9, 10, 11, 12, 13, 14, 15, 16, 17, 18, 19, 20, 21, 22, 23],
 [1, 2, 3, 0, 17, 18, 19, 16, 11, 8, 9, 10, 23, 20, 21, 22, 13, 14, 15, 12, 7, 4, 5, 6],
 [2, 3, 0, 1, 14, 15, 12, 13, 10, 11, 8, 9, 6, 7, 4, 5, 20, 21, 22, 23, 16, 17, 18, 19],
 [3, 0, 1, 2, 21, 22, 23, 20, 9, 10, 11, 8, 19, 16, 17, 18, 7, 4, 5, 6, 13, 14, 15, 12],
 [4, 5, 6, 7, 8, 9, 10, 11, 12, 13, 14, 15, 0, 1, 2, 3, 17, 18, 19, 16, 23, 20, 21, 22],
 [5, 6, 7, 4, 18, 19, 16, 17, 15, 12, 13, 14, 22, 23, 20, 21, 1, 2, 3, 0, 11, 8, 9, 10],
 [6, 7, 4, 5, 2, 3, 0, 1, 14, 15, 12, 13, 10, 11, 8, 9, 23, 20, 21, 22, 17, 18, 19, 16],
 [7, 4, 5, 6, 20, 21, 22, 23, 13, 14, 15, 12, 16, 17, 18, 19, 11, 8, 9, 10, 1, 2, 3, 0],
 [8, 9, 10, 11, 12, 13, 14, 15, 0, 1, 2, 3, 4, 5, 6, 7, 18, 19, 16, 17, 22, 23, 20, 21],
 [9, 10, 11, 8, 19, 16, 17, 18, 3, 0, 1, 2, 21, 22, 23, 20, 5, 6, 7, 4, 15, 12, 13, 14],
 [10, 11, 8, 9, 6, 7, 4, 5, 2, 3, 0, 1, 14, 15, 12, 13, 22, 23, 20, 21, 18, 19, 16, 17],
 [11, 8, 9, 10, 23, 20, 21, 22, 1, 2, 3, 0, 17, 18, 19, 16, 15, 12, 13, 14, 5, 6, 7, 4],
 [12, 13, 14, 15, 0, 1, 2, 3, 4, 5, 6, 7, 8, 9, 10, 11, 19, 16, 17, 18, 21, 22, 23, 20],
 [13, 14, 15, 12, 16, 17, 18, 19, 7, 4, 5, 6, 20, 21, 22, 23, 9, 10, 11, 8, 3, 0, 1, 2],
 [14, 15, 12, 13, 10, 11, 8, 9, 6, 7, 4, 5, 2, 3, 0, 1, 21, 22, 23, 20, 19, 16, 17, 18],
 [15, 12, 13, 14, 22, 23, 20, 21, 5, 6, 7, 4, 18, 19, 16, 17, 3, 0, 1, 2, 9, 10, 11, 8],
 [16, 17, 18, 19, 7, 4, 5, 6, 20, 21, 22, 23, 13, 14, 15, 12, 10, 11, 8, 9, 2, 3, 0, 1],
 [17, 18, 19, 16, 11, 8, 9, 10, 23, 20, 21, 22, 1, 2, 3, 0, 14, 15, 12, 13, 6, 7, 4, 5],
 [18, 19, 16, 17, 15, 12, 13, 14, 22, 23, 20, 21, 5, 6, 7, 4, 2, 3, 0, 1, 10, 11, 8, 9],
 [19, 16, 17, 18, 3, 0, 1, 2, 21, 22, 23, 20, 9, 10, 11, 8, 6, 7, 4, 5, 14, 15, 12, 13],
 [20, 21, 22, 23, 13, 14, 15, 12, 16, 17, 18, 19, 7, 4, 5, 6, 8, 9, 10, 11, 0, 1, 2, 3],
 [21, 22, 23, 20, 9, 10, 11, 8, 19, 16, 17, 18, 3, 0, 1, 2, 4, 5, 6, 7, 12, 13, 14, 15],
 [22, 23, 20, 21, 5, 6, 7, 4, 18, 19, 16, 17, 15, 12, 13, 14, 0, 1, 2, 3, 8, 9, 10, 11],
 [23, 20, 21, 22, 1, 2, 3, 0, 17, 18, 19, 16, 11, 8, 9, 10, 12, 13, 14, 15, 4, 5, 6, 7]]

/-- Slot permutation of each face turn's read map (inverted turn first). -/
def turnPermL (f : Face) (v : Bool) : List ℕ :=
  match f, v with
  | .Up, true => [0, 1, 2, 3, 5, 7, 4, 6]
  | .Up, false => [0, 1, 2, 3, 6, 4, 7, 5]
  | .Left, true => [0, 1, 3, 5, 2, 4, 6, 7]
  | .Left, false => [0, 1, 4, 2, 5, 3, 6, 7]
  | .Front, true => [0, 2, 4, 3, 6, 5, 1, 7]
  | .Front, false => [0, 6, 1, 3, 2, 5, 4, 7]
  | .Right, true => [1, 6, 2, 3, 4, 5, 7, 0]
  | .Right, false => [7, 0, 2, 3, 4, 5, 1, 6]
  | .Back, true => [7, 1, 2, 0, 4, 3, 6, 5]
  | .Back, false => [3, 1, 2, 5, 4, 7, 6, 0]
  | .Down, true => [3, 0, 1, 2, 4, 5, 6, 7]
  | .Down, false => [1, 2, 3, 0, 4, 5, 6, 7]

/-- Slot permutation of each whole-cube rotation's read map. -/
def rotPermL (ax : Axis) : List ℕ :=
  match ax with
  | .X => [7, 0, 3, 5, 2, 4, 1, 6]
  | .Y => [3, 2, 4, 5, 6, 7, 1, 0]
  | .Z => [1, 2, 3, 0, 5, 7, 4, 6]

/-- One cyclic spin of a triple. -/
def spin3 {γ : Type} (t : γ × γ × γ) : γ × γ × γ := (t.2.1, t.2.2, t.1)

def spinN {γ : Type} : ℕ → γ × γ × γ → γ × γ × γ
  | 0, t => t
  | k + 1, t => spin3 (spinN k t)

/-- The reference corner coloring of the canonical orientation. -/
def boy : Color × Color × Color := (.Blue, .Orange, .Yellow)

/-- Apply a read map to a position triple. -/
def readTriple (m : ℕ → ℕ) (t : ℕ × ℕ × ℕ) : ℕ × ℕ × ℕ := (m t.1, m t.2.1, m t.2.2)

def cubieAt (d : ℕ → Color) (t : ℕ × ℕ × ℕ) : Color × Color × Color :=
  (d t.1, d t.2.1, d t.2.2)

/-- The read map of orientation `i` (identity beyond the cube's data). -/
def canonMap (i : ℕ) : ℕ → ℕ := fun p =>
  if p < 24 then (canonTabs.getD i []).getD p p else p

/-- A 2×2×2 state re-read through orientation `i`. -/
def canonState (S : CubeState) (i : ℕ) : CubeState :=
  { n := 2, data := fun p => S.data (canonMap i p) }

def blockY : List Axis := [.Z, .Z, .Z, .Z, .Y]

def repW (w : List Axis) : ℕ → List Axis
  | 0 => []
  | k + 1 => w ++ repW w k

def blockX : List Axis := repW blockY 4 ++ [.X]

def shortW (c b a : ℕ) : List Axis :=
  List.replicate c Axis.X ++ (List.replicate b Axis.Y ++ List.replicate a Axis.Z)

def longW (c b a : ℕ) : List Axis :=
  repW blockX c ++ (repW blockY b ++ List.replicate a Axis.Z)

/-! ### Decided table facts -/

lemma tabL6 : ∀ c < 4, ∀ b < 4, ∀ a < 4, ∀ p < 24,
    rotW (shortW c b a) p =
      (canonTabs.getD (eIdx.getD (c * 16 + b * 4 + a) 0) []).getD p p := by decide

lemma z4p : ∀ p < 24, rotReadMap 2 .Z (rotReadMap 2 .Z (rotReadMap 2 .Z
    (rotReadMap 2 .Z p))) = p := by decide

lemma y4p : ∀ p < 24, rotReadMap 2 .Y (rotReadMap 2 .Y (rotReadMap 2 .Y
    (rotReadMap 2 .Y p))) = p := by decide

lemma z4E (q : ℕ) : rotReadMap 2 .Z (rotReadMap 2 .Z (rotReadMap 2 .Z
    (rotReadMap 2 .Z q))) = q := by
  by_cases h : q < 24
  · exact z4p q h
  · have h24 : 24 ≤ q := by omega
    rw [rotReadMap2_untouched .Z q h24, rotReadMap2_untouched .Z q h24,
      rotReadMap2_untouched .Z q h24, rotReadMap2_untouched .Z q h24]

lemma y4E (q : ℕ) : rotReadMap 2 .Y (rotReadMap 2 .Y (rotReadMap 2 .Y
    (rotReadMap 2 .Y q))) = q := by
  by_cases h : q < 24
  · exact y4p q h
  · have h24 : 24 ≤ q := by omega
    rw [rotReadMap2_untouched .Y q h24, rotReadMap2_untouched .Y q h24,
      rotReadMap2_untouched .Y q h24, rotReadMap2_untouched .Y q h24]

lemma FturnSF : ∀ (f : Face) (v : Bool), ∀ j < 8, ∃ r < 3,
    readTriple (turnReadMap 2 f v 0) (slotsL.getD j (0, 0, 0)) =
      spinN r (slotsL.getD ((turnPermL f v).getD j 0) (0, 0, 0)) := by decide

lemma FrotSF : ∀ (ax : Axis), ∀ j < 8, ∃ r < 3,
    readTriple (rotReadMap 2 ax) (slotsL.getD j (0, 0, 0)) =
      spinN r (slotsL.getD ((rotPermL ax).getD j 0) (0, 0, 0)) := by decide

lemma FturnPermOK : ∀ (f : Face) (v : Bool), (turnPermL f v).Nodup ∧
    (turnPermL f v).length = 8 ∧ ∀ x ∈ turnPermL f v, x < 8 := by decide

lemma FrotPermOK : ∀ (ax : Axis), (rotPermL ax).Nodup ∧
    (rotPermL ax).length = 8 ∧ ∀ x ∈ rotPermL ax, x < 8 := by decide

lemma Fread : ∀ i < 24, readTriple (canonMap i) (15, 18, 23) =
    spinN (rList.getD i 0) (slotsL.getD (jList.getD i 0) (0, 0, 0)) := by decide

lemma FjrNodup : ∀ i1 < 24, ∀ i2 < 24, jList.getD i1 0 = jList.getD i2 0 →
    rList.getD i1 0 = rList.getD i2 0 → i1 = i2 := by decide

lemma FjrCover : ∀ j < 8, ∀ r < 3, ∃ i < 24,
    jList.getD i 0 = j ∧ rList.getD i 0 = r := by decide

lemma FjrBound : ∀ i < 24, jList.getD i 0 < 8 ∧ rList.getD i 0 < 3 := by decide

set_option maxRecDepth 4000 in
lemma FeCover : ∀ i < 24, ∃ k < 64, eIdx.getD k 0 = i := by decide

lemma FeBound : ∀ k < 64, eIdx.getD k 0 < 24 := by decide

lemma Fcomp : ∀ (ax : Axis), ∀ i < 24, ∀ p : ℕ,
    rotReadMap 2 ax (canonMap i p) = canonMap ((compIdxL ax).getD i 0) p := by
  have h1 : ∀ (ax : Axis), ∀ i < 24, ∀ p < 24,
      rotReadMap 2 ax (canonMap i p) = canonMap ((compIdxL ax).getD i 0) p := by decide
  intro ax i hi p
  by_cases hp : p < 24
  · exact h1 ax i hi p hp
  · have hp24 : 24 ≤ p := by omega
    have hcm : ∀ k : ℕ, canonMap k p = p := by
      intro k
      unfold canonMap
      rw [if_neg hp]
    rw [hcm, hcm, rotReadMap2_untouched ax p hp24]

lemma FcompBound : ∀ (ax : Axis), ∀ i < 24, (compIdxL ax).getD i 0 < 24 := by decide

lemma Fmul : ∀ i1 < 24, ∀ i2 < 24, ∀ p < 24,
    canonMap i1 (canonMap i2 p) = canonMap ((mulIdx.getD i1 []).getD i2 0) p := by decide

lemma FmulBound : ∀ i1 < 24, ∀ i2 < 24, (mulIdx.getD i1 []).getD i2 0 < 24 := by decide

set_option maxRecDepth 10000 in
lemma Fspin3cube : ∀ c : Color × Color × Color, spin3 (spin3 (spin3 c)) = c := by decide

set_option maxRecDepth 4000 in
lemma FboyInj : ∀ r1 < 3, ∀ r2 < 3, spinN r1 boy = spinN r2 boy → r1 = r2 := by decide

/-- The corner-cubie occupancy predicate: slot `j` holds a (possibly
spun) copy of the reference corner coloring. -/
def PD (d : ℕ → Color) (j : ℕ) : Prop :=
  ∃ r < 3, spinN r (cubieAt d (slotsL.getD j (0, 0, 0))) = boy

instance (d : ℕ → Color) (j : ℕ) : Decidable (PD d j) := by
  unfold PD
  infer_instance

/-- The cubie invariant: exactly one slot holds the reference corner. -/
def INVU (d : ℕ → Color) : Prop :=
  ∃ j < 8, PD d j ∧ ∀ j2 < 8, PD d j2 → j2 = j

instance (d : ℕ → Color) : Decidable (INVU d) := by
  unfold INVU
  infer_instance

lemma FinvBase : INVU (stdSolved 2).data := by decide

lemma canonMap_mul (i1 i2 : ℕ) (h1 : i1 < 24) (h2 : i2 < 24) (p : ℕ) :
    canonMap i1 (canonMap i2 p) = canonMap ((mulIdx.getD i1 []).getD i2 0) p := by
  by_cases hp : p < 24
  · exact Fmul i1 h1 i2 h2 p hp
  · have hcm : ∀ k : ℕ, canonMap k p = p := by
      intro k
      unfold canonMap
      rw [if_neg hp]
    rw [hcm, hcm, hcm]

lemma canonState_mul (S : CubeState) (i1 i2 : ℕ) (h1 : i1 < 24) (h2 : i2 < 24) :
    canonState (canonState S i1) i2 = canonState S ((mulIdx.getD i1 []).getD i2 0) := by
  unfold canonState
  simp only [CubeState.mk.injEq, true_and]
  funext p
  show S.data (canonMap i1 (canonMap i2 p)) = S.data (canonMap _ p)
  rw [canonMap_mul i1 i2 h1 h2 p]

lemma rotW_blockY (p : ℕ) : rotW blockY p = rotReadMap 2 .Y p := by
  show rotReadMap 2 .Z (rotReadMap 2 .Z (rotReadMap 2 .Z (rotReadMap 2 .Z
    (rotReadMap 2 .Y p)))) = rotReadMap 2 .Y p
  exact z4E _

lemma rotW_repW_blockY (k : ℕ) (p : ℕ) :
    rotW (repW blockY k) p = rotW (List.replicate k Axis.Y) p := by
  induction k generalizing p with
  | zero => rfl
  | succ k ih =>
    rw [show repW blockY (k + 1) = blockY ++ repW blockY k from rfl, rotW_append,
      rotW_blockY, ih, List.replicate_succ]
    rfl

set_option maxHeartbeats 1000000 in
lemma rotW_blockX (p : ℕ) : rotW blockX p = rotReadMap 2 .X p := by
  have h1 : rotW blockX p = rotW (repW blockY 4) (rotW [Axis.X] p) :=
    rotW_append (repW blockY 4) [Axis.X] p
  have h2 : rotW [Axis.X] p = rotReadMap 2 Axis.X p := rfl
  rw [h1, h2, rotW_repW_blockY 4 (rotReadMap 2 Axis.X p)]
  have h3 : rotW (List.replicate 4 Axis.Y) (rotReadMap 2 Axis.X p) =
      rotReadMap 2 .Y (rotReadMap 2 .Y (rotReadMap 2 .Y (rotReadMap 2 .Y
        (rotReadMap 2 Axis.X p)))) := rfl
  rw [h3]
  exact y4E (rotReadMap 2 Axis.X p)

lemma rotW_repW_blockX (k : ℕ) (p : ℕ) :
    rotW (repW blockX k) p = rotW (List.replicate k Axis.X) p := by
  induction k generalizing p with
  | zero => rfl
  | succ k ih =>
    rw [show repW blockX (k + 1) = blockX ++ repW blockX k from rfl, rotW_append,
      rotW_blockX, ih, List.replicate_succ]
    rfl

lemma rotW_longW (c b a p : ℕ) : rotW (longW c b a) p = rotW (shortW c b a) p := by
  unfold longW shortW
  simp only [rotW_append]
  rw [rotW_repW_blockX, rotW_repW_blockY]

lemma rotW_longW_canon (c b a : ℕ) (hc : c < 4) (hb : b < 4) (ha : a < 4) (p : ℕ) :
    rotW (longW c b a) p = canonMap (eIdx.getD (c * 16 + b * 4 + a) 0) p := by
  rw [rotW_longW]
  by_cases hp : p < 24
  · rw [tabL6 c hc b hb a ha p hp]
    unfold canonMap
    rw [if_pos hp]
  · rw [rotW_untouched _ p (by omega)]
    unfold canonMap
    rw [if_neg hp]

lemma doRots_longW (S : CubeState) (hS : S.n = 2) (c b a : ℕ)
    (hc : c < 4) (hb : b < 4) (ha : a < 4) :
    doRots S (longW c b a) = canonState S (eIdx.getD (c * 16 + b * 4 + a) 0) := by
  rw [doRots_data S hS]
  unfold canonState
  simp only [CubeState.mk.injEq, true_and]
  funext p
  rw [rotW_longW_canon c b a hc hb ha p]

/-! ### Spin arithmetic and the cubie invariant -/

lemma spinN_add {γ : Type} (a b : ℕ) (c : γ × γ × γ) :
    spinN (a + b) c = spinN a (spinN b c) := by
  induction a with
  | zero =>
    rw [Nat.zero_add]
    rfl
  | succ a ih =>
    rw [Nat.succ_add]
    show spin3 (spinN (a + b) c) = spin3 (spinN a (spinN b c))
    rw [ih]

lemma spinN_three (c : Color × Color × Color) : spinN 3 c = c := Fspin3cube c

lemma spinN_mul3 (k : ℕ) (c : Color × Color × Color) : spinN (3 * k) c = c := by
  induction k with
  | zero => rfl
  | succ k ih =>
    rw [show 3 * (k + 1) = 3 + 3 * k from by ring, spinN_add, ih, spinN_three]

lemma spinN_mod (a : ℕ) (c : Color × Color × Color) : spinN a c = spinN (a % 3) c := by
  conv_lhs => rw [show a = a % 3 + 3 * (a / 3) from by omega]
  rw [spinN_add, spinN_mul3]

lemma cubieAt_spinN (d : ℕ → Color) (r : ℕ) (t : ℕ × ℕ × ℕ) :
    cubieAt d (spinN r t) = spinN r (cubieAt d t) := by
  induction r with
  | zero => rfl
  | succ r ih =>
    show cubieAt d (spin3 (spinN r t)) = spin3 (spinN r (cubieAt d t))
    rw [← ih]
    rfl

lemma cubieAt_read (d : ℕ → Color) (m : ℕ → ℕ) (t : ℕ × ℕ × ℕ) :
    cubieAt (fun p => d (m p)) t = cubieAt d (readTriple m t) := rfl

lemma PD_of_read (d : ℕ → Color) (m : ℕ → ℕ) (perm : List ℕ) (j : ℕ)
    (hsf : ∃ r < 3, readTriple m (slotsL.getD j (0, 0, 0)) =
      spinN r (slotsL.getD (perm.getD j 0) (0, 0, 0))) :
    PD (fun p => d (m p)) j ↔ PD d (perm.getD j 0) := by
  obtain ⟨r0, hr0, hread⟩ := hsf
  unfold PD
  constructor
  · rintro ⟨r, hr, hc⟩
    rw [cubieAt_read, hread, cubieAt_spinN, ← spinN_add] at hc
    refine ⟨(r + r0) % 3, by omega, ?_⟩
    rw [← spinN_mod]
    exact hc
  · rintro ⟨r, hr, hc⟩
    refine ⟨(r + (3 - r0)) % 3, by omega, ?_⟩
    rw [cubieAt_read, hread, cubieAt_spinN, ← spinN_mod, ← spinN_add,
      show r + (3 - r0) + r0 = r + 3 from by omega, spinN_add, spinN_three]
    exact hc

lemma nodup_getD_inj (perm : List ℕ) (hnd : perm.Nodup) (hlen : perm.length = 8) :
    ∀ i1 < 8, ∀ i2 < 8, perm.getD i1 0 = perm.getD i2 0 → i1 = i2 := by
  intro i1 h1 i2 h2 heq
  have h1l : i1 < perm.length := by omega
  have h2l : i2 < perm.length := by omega
  rw [List.getD_eq_getElem perm 0 h1l, List.getD_eq_getElem perm 0 h2l] at heq
  have heq2 : perm.get ⟨i1, h1l⟩ = perm.get ⟨i2, h2l⟩ := by
    rw [List.get_eq_getElem, List.get_eq_getElem]
    exact heq
  have := List.nodup_iff_injective_get.mp hnd heq2
  exact Fin.val_eq_of_eq this

lemma perm_surj (perm : List ℕ) (hnd : perm.Nodup) (hlen : perm.length = 8)
    (hbd : ∀ x ∈ perm, x < 8) : ∀ y < 8, ∃ i < 8, perm.getD i 0 = y := by
  intro y hy
  have hg : ∀ i : Fin 8, perm.getD i.1 0 < 8 := by
    intro i
    have hil : i.1 < perm.length := by omega
    rw [List.getD_eq_getElem perm 0 hil]
    exact hbd _ (List.getElem_mem hil)
  let g : Fin 8 → Fin 8 := fun i => ⟨perm.getD i.1 0, hg i⟩
  have hinj : Function.Injective g := by
    intro i1 i2 hgeq
    have := nodup_getD_inj perm hnd hlen i1.1 i1.2 i2.1 i2.2 (congrArg Fin.val hgeq)
    exact Fin.ext this
  obtain ⟨i, hi⟩ := (Finite.injective_iff_surjective.mp hinj) ⟨y, hy⟩
  exact ⟨i.1, i.2, congrArg Fin.val hi⟩

lemma INVU_of_read (d : ℕ → Color) (m : ℕ → ℕ) (perm : List ℕ)
    (hOK : perm.Nodup ∧ perm.length = 8 ∧ ∀ x ∈ perm, x < 8)
    (hsf : ∀ j < 8, ∃ r < 3, readTriple m (slotsL.getD j (0, 0, 0)) =
      spinN r (slotsL.getD (perm.getD j 0) (0, 0, 0)))
    (hinv : INVU d) : INVU (fun p => d (m p)) := by
  obtain ⟨hnd, hlen, hbd⟩ := hOK
  obtain ⟨j0, hj0, hPD0, huniq⟩ := hinv
  obtain ⟨i0, hi0, hperm0⟩ := perm_surj perm hnd hlen hbd j0 hj0
  refine ⟨i0, hi0, ?_, ?_⟩
  · rw [PD_of_read d m perm i0 (hsf i0 hi0), hperm0]
    exact hPD0
  · intro j2 hj2 hPD2
    rw [PD_of_read d m perm j2 (hsf j2 hj2)] at hPD2
    have hmem : perm.getD j2 0 ∈ perm := by
      rw [List.getD_eq_getElem perm 0 (by omega)]
      exact List.getElem_mem (by omega)
    have hbd2 : perm.getD j2 0 < 8 := hbd _ hmem
    have hj2j0 : perm.getD j2 0 = j0 := huniq _ hbd2 hPD2
    exact nodup_getD_inj perm hnd hlen j2 hj2 i0 hi0 (by rw [hj2j0, hperm0])

/-- The cubie invariant, at the state level. -/
def INV2 (S : CubeState) : Prop := S.n = 2 ∧ INVU S.data

lemma validFor2_fb {t : Turn} (h : t.validFor 2) :
    ∃ f v, t.intoFaceBased = Turn.faceBased f v 0 2 := by
  unfold Turn.validFor at h
  rcases hfb : t.intoFaceBased with _ | ⟨f, v, ni, cs⟩
  · rw [hfb] at h
    exact absurd h (by simp)
  · rw [hfb] at h
    obtain ⟨hcs, hni⟩ := h
    exact ⟨f, v, by rw [hcs, show ni = 0 from by omega]⟩

lemma INV2_turn (S : CubeState) (h : INV2 S) (t : Turn) (ht : t.validFor 2) :
    INV2 (S.turn t) := by
  obtain ⟨hn, hinv⟩ := h
  obtain ⟨f, v, hfb⟩ := validFor2_fb ht
  rw [← turn_intoFaceBased S t, hfb, turn2_data S f v hn]
  exact ⟨rfl, INVU_of_read S.data (turnReadMap 2 f v 0) (turnPermL f v)
    (FturnPermOK f v) (FturnSF f v) hinv⟩

lemma INV2_rot (S : CubeState) (h : INV2 S) (ax : Axis) : INV2 (S.rotateCube ax) := by
  obtain ⟨hn, hinv⟩ := h
  rw [rot2_data S ax hn]
  exact ⟨rfl, INVU_of_read S.data (rotReadMap 2 ax) (rotPermL ax)
    (FrotPermOK ax) (FrotSF ax) hinv⟩

lemma INV2_doMove (S : CubeState) (h : INV2 S) (w : List Turn)
    (hw : ∀ t ∈ w, t.validFor 2) : INV2 (S.doMove ⟨w⟩) := by
  induction w generalizing S with
  | nil => exact h
  | cons t ts ih =>
    show INV2 ((S.turn t).doMove ⟨ts⟩)
    exact ih (S.turn t) (INV2_turn S h t (hw t (List.mem_cons_self ..)))
      (fun u hu => hw u (List.mem_cons_of_mem t hu))

lemma INV2_doRots (S : CubeState) (h : INV2 S) (w : List Axis) :
    INV2 (doRots S w) := by
  induction w generalizing S with
  | nil => exact h
  | cons ax rest ih =>
    show INV2 (doRots (S.rotateCube ax) rest)
    exact ih (S.rotateCube ax) (INV2_rot S h ax)

/-- Reachability of a 2×2×2 state from the solved cube by valid turns. -/
def Reach2 (S : CubeState) : Prop :=
  ∃ w : List Turn, (∀ t ∈ w, t.validFor 2) ∧ S = (stdSolved 2).doMove ⟨w⟩

lemma reach2_INV2 (S : CubeState) (h : Reach2 S) : INV2 S := by
  obtain ⟨w, hw, rfl⟩ := h
  exact INV2_doMove (stdSolved 2) ⟨rfl, FinvBase⟩ w hw

/-! ### Characterization of the hash orientation search -/

lemma tryZ_char (C : CubeState) : ∀ (k : ℕ) (s : CubeState),
    (∀ j < k, (doRots s (List.replicate j Axis.Z)).isNormal2 →
      doRots s (List.replicate j Axis.Z) = C) →
    ((∃ j < k, (doRots s (List.replicate j Axis.Z)).isNormal2) →
      (tryZ k s).1 = some C) ∧
    ((∀ j < k, ¬ (doRots s (List.replicate j Axis.Z)).isNormal2) →
      tryZ k s = (none, doRots s (List.replicate k Axis.Z))) := by
  intro k
  induction k with
  | zero =>
    intro s huniq
    refine ⟨?_, fun hnone => rfl⟩
    rintro ⟨j, hj, -⟩
    omega
  | succ k ih =>
    intro s huniq
    have hunf : tryZ (k + 1) s =
        if s.isNormal2 then (some s, s) else tryZ k (s.rotateCube .Z) := rfl
    by_cases hs : s.isNormal2
    · have hC : s = C := huniq 0 (by omega) hs
      refine ⟨fun _ => ?_, fun hnone => absurd hs (hnone 0 (by omega))⟩
      rw [hunf, if_pos hs]
      show some s = some C
      rw [hC]
    · have hstep : ∀ j, doRots (s.rotateCube .Z) (List.replicate j Axis.Z) =
          doRots s (List.replicate (j + 1) Axis.Z) := by
        intro j
        rw [List.replicate_succ]
        rfl
      have huniq' : ∀ j < k,
          (doRots (s.rotateCube .Z) (List.replicate j Axis.Z)).isNormal2 →
          doRots (s.rotateCube .Z) (List.replicate j Axis.Z) = C := by
        intro j hj hno
        rw [hstep j] at hno ⊢
        exact huniq (j + 1) (by omega) hno
      obtain ⟨ihA, ihB⟩ := ih (s.rotateCube .Z) huniq'
      constructor
      · rintro ⟨j, hj, hnorm⟩
        have hj0 : j ≠ 0 := by
          rintro rfl
          exact hs hnorm
        obtain ⟨j', rfl⟩ : ∃ j', j = j' + 1 := ⟨j - 1, by omega⟩
        rw [hunf, if_neg hs]
        exact ihA ⟨j', by omega, by rw [hstep j']; exact hnorm⟩
      · intro hnone
        rw [hunf, if_neg hs,
          ihB (fun j hj => by rw [hstep j]; exact hnone (j + 1) (by omega)), hstep k]

lemma tryY_char (C : CubeState) : ∀ (k : ℕ) (s : CubeState),
    (∀ b < k, ∀ a < 4,
      (doRots s (repW blockY b ++ List.replicate a Axis.Z)).isNormal2 →
      doRots s (repW blockY b ++ List.replicate a Axis.Z) = C) →
    ((∃ b < k, ∃ a < 4,
        (doRots s (repW blockY b ++ List.replicate a Axis.Z)).isNormal2) →
      (tryY k s).1 = some C) ∧
    ((∀ b < k, ∀ a < 4,
        ¬ (doRots s (repW blockY b ++ List.replicate a Axis.Z)).isNormal2) →
      tryY k s = (none, doRots s (repW blockY k))) := by
  intro k
  induction k with
  | zero =>
    intro s huniq
    refine ⟨?_, fun hnone => rfl⟩
    rintro ⟨b, hb, -⟩
    omega
  | succ k ih =>
    intro s huniq
    have hunf : tryY (k + 1) s =
        (match tryZ 4 s with
          | (some r, _) => (some r, s)
          | (none, s1) => tryY k (s1.rotateCube .Y)) := rfl
    have huniqZ : ∀ j < 4, (doRots s (List.replicate j Axis.Z)).isNormal2 →
        doRots s (List.replicate j Axis.Z) = C := by
      intro j hj hno
      exact huniq 0 (by omega) j hj hno
    obtain ⟨zA, zB⟩ := tryZ_char C 4 s huniqZ
    by_cases hzex : ∃ j < 4, (doRots s (List.replicate j Axis.Z)).isNormal2
    · have h1 := zA hzex
      have hpair : tryZ 4 s = (some C, (tryZ 4 s).2) := by
        rw [← h1]
      rw [hunf, hpair]
      refine ⟨fun _ => rfl, fun hnone => ?_⟩
      obtain ⟨j, hj, hno⟩ := hzex
      exact absurd hno (hnone 0 (by omega) j hj)
    · push_neg at hzex
      have h2 := zB (fun j hj => hzex j hj)
      have hred : tryY (k + 1) s =
          tryY k ((doRots s (List.replicate 4 Axis.Z)).rotateCube .Y) := by
        rw [hunf, h2]
      have hby : (doRots s (List.replicate 4 Axis.Z)).rotateCube .Y =
          doRots s blockY := rfl
      rw [hred, hby]
      have hshift : ∀ w : List Axis,
          doRots (doRots s blockY) w = doRots s (blockY ++ w) := by
        intro w
        rw [doRots_append]
      have huniq' : ∀ b < k, ∀ a < 4,
          (doRots (doRots s blockY) (repW blockY b ++ List.replicate a Axis.Z)).isNormal2 →
          doRots (doRots s blockY) (repW blockY b ++ List.replicate a Axis.Z) = C := by
        intro b hb a ha hno
        rw [hshift, ← List.append_assoc,
          show blockY ++ repW blockY b = repW blockY (b + 1) from rfl] at hno ⊢
        exact huniq (b + 1) (by omega) a ha hno
      obtain ⟨yA, yB⟩ := ih (doRots s blockY) huniq'
      constructor
      · rintro ⟨b, hb, a, ha, hnorm⟩
        have hb0 : b ≠ 0 := by
          rintro rfl
          exact hzex a ha hnorm
        obtain ⟨b', rfl⟩ : ∃ b', b = b' + 1 := ⟨b - 1, by omega⟩
        refine yA ⟨b', by omega, a, ha, ?_⟩
        rw [hshift, ← List.append_assoc,
          show blockY ++ repW blockY b' = repW blockY (b' + 1) from rfl]
        exact hnorm
      · intro hnone
        rw [yB ?hn]
        · rw [hshift, show blockY ++ repW blockY k = repW blockY (k + 1) from rfl]
        · intro b hb a ha
          rw [hshift, ← List.append_assoc,
            show blockY ++ repW blockY b = repW blockY (b + 1) from rfl]
          exact hnone (b + 1) (by omega) a ha

lemma tryX_char (C : CubeState) : ∀ (k : ℕ) (s : CubeState),
    (∀ c < k, ∀ b < 4, ∀ a < 4,
      (doRots s (repW blockX c ++ (repW blockY b ++ List.replicate a Axis.Z))).isNormal2 →
      doRots s (repW blockX c ++ (repW blockY b ++ List.replicate a Axis.Z)) = C) →
    ((∃ c < k, ∃ b < 4, ∃ a < 4,
        (doRots s (repW blockX c ++ (repW blockY b ++ List.replicate a Axis.Z))).isNormal2) →
      (tryX k s).1 = some C) := by
  intro k
  induction k with
  | zero =>
    intro s huniq
    rintro ⟨c, hc, -⟩
    omega
  | succ k ih =>
    intro s huniq
    have hunf : tryX (k + 1) s =
        (match tryY 4 s with
          | (some r, _) => (some r, s)
          | (none, s1) => tryX k (s1.rotateCube .X)) := rfl
    have huniqY : ∀ b < 4, ∀ a < 4,
        (doRots s (repW blockY b ++ List.replicate a Axis.Z)).isNormal2 →
        doRots s (repW blockY b ++ List.replicate a Axis.Z) = C := by
      intro b hb a ha hno
      exact huniq 0 (by omega) b hb a ha hno
    obtain ⟨yA, yB⟩ := tryY_char C 4 s huniqY
    by_cases hyex : ∃ b < 4, ∃ a < 4,
        (doRots s (repW blockY b ++ List.replicate a Axis.Z)).isNormal2
    · have h1 := yA hyex
      have hpair : tryY 4 s = (some C, (tryY 4 s).2) := by
        rw [← h1]
      rw [hunf, hpair]
      intro _
      rfl
    · push_neg at hyex
      have h2 := yB (fun b hb a ha => hyex b hb a ha)
      have hred : tryX (k + 1) s =
          tryX k ((doRots s (repW blockY 4)).rotateCube .X) := by
        rw [hunf, h2]
      have hbx : (doRots s (repW blockY 4)).rotateCube .X = doRots s blockX := by
        show doRots (doRots s (repW blockY 4)) [Axis.X] = doRots s blockX
        rw [← doRots_append]
        rfl
      rw [hred, hbx]
      have hshift : ∀ w : List Axis,
          doRots (doRots s blockX) w = doRots s (blockX ++ w) := by
        intro w
        rw [doRots_append]
      have huniq' : ∀ c < k, ∀ b < 4, ∀ a < 4,
          (doRots (doRots s blockX)
            (repW blockX c ++ (repW blockY b ++ List.replicate a Axis.Z))).isNormal2 →
          doRots (doRots s blockX)
            (repW blockX c ++ (repW blockY b ++ List.replicate a Axis.Z)) = C := by
        intro c hc b hb a ha hno
        rw [hshift, ← List.append_assoc,
          show blockX ++ repW blockX c = repW blockX (c + 1) from rfl] at hno ⊢
        exact huniq (c + 1) (by omega) b hb a ha hno
      have ihA := ih (doRots s blockX) huniq'
      rintro ⟨c, hc, b, hb, a, ha, hnorm⟩
      have hc0 : c ≠ 0 := by
        rintro rfl
        exact hyex b hb a ha hnorm
      obtain ⟨c', rfl⟩ : ∃ c', c = c' + 1 := ⟨c - 1, by omega⟩
      refine ihA ⟨c', by omega, b, hb, a, ha, ?_⟩
      rw [hshift, ← List.append_assoc,
        show blockX ++ repW blockX c' = repW blockX (c' + 1) from rfl]
      exact hnorm

lemma hashCanon_char (S : CubeState) (hS : S.n = 2) (C : CubeState)
    (huniq : ∀ c < 4, ∀ b < 4, ∀ a < 4,
      (doRots S (longW c b a)).isNormal2 → doRots S (longW c b a) = C)
    (hex : ∃ c < 4, ∃ b < 4, ∃ a < 4, (doRots S (longW c b a)).isNormal2) :
    S.hashCanon = some C := by
  unfold CubeState.hashCanon
  rw [if_neg (by simp [hS])]
  exact tryX_char C 4 S huniq hex

/-! ### The canonical orientation of an invariant-satisfying state -/

lemma triple_eq_boy (d : ℕ → Color) :
    cubieAt d (15, 18, 23) = boy ↔
      (d 15 = Color.Blue ∧ d 18 = Color.Orange ∧ d 23 = Color.Yellow) := by
  unfold cubieAt boy
  constructor
  · intro h
    injection h with h1 h23
    injection h23 with h2 h3
    exact ⟨h1, h2, h3⟩
  · rintro ⟨h1, h2, h3⟩
    rw [h1, h2, h3]

lemma normal_canon (S : CubeState) (i : ℕ) (hi : i < 24) :
    (canonState S i).isNormal2 ↔
      spinN (rList.getD i 0)
        (cubieAt S.data (slotsL.getD (jList.getD i 0) (0, 0, 0))) = boy := by
  unfold CubeState.isNormal2
  rw [← triple_eq_boy]
  have h1 : cubieAt (canonState S i).data (15, 18, 23) =
      cubieAt S.data (readTriple (canonMap i) (15, 18, 23)) := rfl
  rw [h1, Fread i hi, cubieAt_spinN]

lemma hash_of_inv (S : CubeState) (h : INV2 S) :
    ∃ i < 24, S.hashCanon = some (canonState S i) ∧ (canonState S i).isNormal2 ∧
      ∀ i2 < 24, (canonState S i2).isNormal2 → canonState S i2 = canonState S i := by
  obtain ⟨hn, j0, hj0, ⟨r0, hr0, hc0⟩, huniq⟩ := h
  obtain ⟨i0, hi0, hji, hri⟩ := FjrCover j0 hj0 r0 hr0
  have hnorm0 : (canonState S i0).isNormal2 :=
    (normal_canon S i0 hi0).mpr (by rw [hji, hri]; exact hc0)
  have huniqC : ∀ i2 < 24, (canonState S i2).isNormal2 →
      canonState S i2 = canonState S i0 := by
    intro i2 hi2 hn2
    have h2 := (normal_canon S i2 hi2).mp hn2
    have hj2b : jList.getD i2 0 < 8 := (FjrBound i2 hi2).1
    have hr2b : rList.getD i2 0 < 3 := (FjrBound i2 hi2).2
    have hPD2 : PD S.data (jList.getD i2 0) := ⟨rList.getD i2 0, hr2b, h2⟩
    have hjeq : jList.getD i2 0 = j0 := huniq _ hj2b hPD2
    rw [hjeq] at h2
    have hceq : cubieAt S.data (slotsL.getD j0 (0, 0, 0)) =
        spinN (3 - rList.getD i2 0) boy := by
      calc cubieAt S.data (slotsL.getD j0 (0, 0, 0))
          = spinN 3 (cubieAt S.data (slotsL.getD j0 (0, 0, 0))) :=
            (spinN_three _).symm
        _ = spinN (3 - rList.getD i2 0 + rList.getD i2 0)
            (cubieAt S.data (slotsL.getD j0 (0, 0, 0))) := by
            rw [show 3 - rList.getD i2 0 + rList.getD i2 0 = 3 from by omega]
        _ = spinN (3 - rList.getD i2 0)
            (spinN (rList.getD i2 0) (cubieAt S.data (slotsL.getD j0 (0, 0, 0)))) :=
            spinN_add ..
        _ = spinN (3 - rList.getD i2 0) boy := by rw [h2]
    have hb : spinN ((r0 + (3 - rList.getD i2 0)) % 3) boy = spinN 0 boy := by
      rw [← spinN_mod, spinN_add, ← hceq]
      exact hc0
    have hr03 := FboyInj _ (by omega) 0 (by omega) hb
    have hreq : rList.getD i2 0 = r0 := by omega
    have hieq : i2 = i0 := FjrNodup i2 hi2 i0 hi0 (by rw [hjeq, hji])
      (by rw [hreq, hri])
    rw [hieq]
  refine ⟨i0, hi0, ?_, hnorm0, huniqC⟩
  obtain ⟨k, hk, hke⟩ := FeCover i0 hi0
  have hc4 : k / 16 < 4 := by omega
  have hb4 : k % 16 / 4 < 4 := by omega
  have ha4 : k % 4 < 4 := by omega
  have hkdec : k / 16 * 16 + k % 16 / 4 * 4 + k % 4 = k := by omega
  have hlong : doRots S (longW (k / 16) (k % 16 / 4) (k % 4)) = canonState S i0 := by
    rw [doRots_longW S hn _ _ _ hc4 hb4 ha4, hkdec, hke]
  refine hashCanon_char S hn (canonState S i0) ?_ ?_
  · intro c hc b hb a ha hno
    rw [doRots_longW S hn c b a hc hb ha] at hno ⊢
    exact huniqC _ (FeBound _ (by omega)) hno
  · exact ⟨k / 16, hc4, k % 16 / 4, hb4, k % 4, ha4, by rw [hlong]; exact hnorm0⟩

lemma rotW_canonIdx (rw : List Axis) : ∃ i < 24, ∀ p, rotW rw p = canonMap i p := by
  induction rw with
  | nil =>
    refine ⟨0, by omega, fun p => ?_⟩
    by_cases hp : p < 24
    · have hid : ∀ q < 24, (canonTabs.getD 0 []).getD q q = q := by decide
      unfold canonMap
      rw [if_pos hp, hid p hp]
      rfl
    · unfold canonMap
      rw [if_neg hp]
      rfl
  | cons ax rest ih =>
    obtain ⟨i, hi, hmap⟩ := ih
    refine ⟨(compIdxL ax).getD i 0, FcompBound ax i hi, fun p => ?_⟩
    show rotReadMap 2 ax (rotW rest p) = _
    rw [hmap p, Fcomp ax i hi p]

lemma doRots_canon (S : CubeState) (hS : S.n = 2) (rw : List Axis) :
    ∃ i < 24, doRots S rw = canonState S i := by
  obtain ⟨i, hi, hmap⟩ := rotW_canonIdx rw
  refine ⟨i, hi, ?_⟩
  rw [doRots_data S hS]
  unfold canonState
  simp only [CubeState.mk.injEq, true_and]
  funext p
  rw [hmap p]

/-- C7: hashing a 2×2×2 state reachable from the solved cube by valid turns
is invariant under any sequence of whole-cube rotations: the canonical
facelet data consumed by the hasher is identical (and defined, so equal
hash values result). -/
theorem c7_hash_rotation_invariance (S : CubeState) (hS : Reach2 S)
    (rw : List Axis) :
    (doRots S rw).hashCanon = S.hashCanon ∧ ∃ C, S.hashCanon = some C := by
  have hinv : INV2 S := reach2_INV2 S hS
  have hn2 : S.n = 2 := hinv.1
  obtain ⟨i0, hi0, hhash, hnorm, huniqC⟩ := hash_of_inv S hinv
  refine ⟨?_, canonState S i0, hhash⟩
  obtain ⟨iw, hiw, hSw⟩ := doRots_canon S hn2 rw
  have hinv' : INV2 (doRots S rw) := INV2_doRots S hinv rw
  obtain ⟨i1, hi1, hhash', hnorm', huniqC'⟩ := hash_of_inv (doRots S rw) hinv'
  have hc1 : canonState (doRots S rw) i1 =
      canonState S ((mulIdx.getD iw []).getD i1 0) := by
    rw [hSw, canonState_mul S iw i1 hiw hi1]
  have hm : (mulIdx.getD iw []).getD i1 0 < 24 := FmulBound iw hiw i1 hi1
  have heq : canonState (doRots S rw) i1 = canonState S i0 := by
    rw [hc1]
    exact huniqC _ hm (by rw [← hc1]; exact hnorm')
  rw [hhash', hhash, heq]

/-- C7 witness: the solved 2×2×2 cube and a single X rotation. -/
theorem c7_witness :
    (doRots (stdSolved 2) [Axis.X]).hashCanon = (stdSolved 2).hashCanon ∧
      ∃ C, (stdSolved 2).hashCanon = some C :=
  c7_hash_rotation_invariance (stdSolved 2)
    ⟨[], fun t ht => absurd ht (List.not_mem_nil t), rfl⟩ [Axis.X]

/-! ## C3: the corner heuristics table (BFS from the solved 2×2×2) -/

/-- An outer face turn of the 2×2×2 cube. -/
def isOuter2 (t : Turn) : Prop := ∃ f v, t = Turn.faceBased f v 0 2

/-- The twelve turns `all_turns` yields on a 2×2×2 state. -/
def allTurns2List : List Turn :=
  [.faceBased .Up true 0 2, .faceBased .Up false 0 2,
   .faceBased .Left true 0 2, .faceBased .Left false 0 2,
   .faceBased .Front true 0 2, .faceBased .Front false 0 2,
   .faceBased .Right true 0 2, .faceBased .Right false 0 2,
   .faceBased .Back true 0 2, .faceBased .Back false 0 2,
   .faceBased .Down true 0 2, .faceBased .Down false 0 2]

lemma allTurns2 (s : CubeState) (h2 : s.n = 2) : s.allTurns = allTurns2List := by
  unfold CubeState.allTurns
  rw [h2]
  rfl

/-- The source filter of `calc_corner_heuristics_table`:
`matches!(t.into_axis_based(), Turn::AxisBased{index, ..} if index > 0)`. -/
def posFilterB (t : Turn) : Bool :=
  match t.intoAxisBased with
  | .axisBased _ _ index _ => decide (0 < index)
  | .faceBased .. => false

/-- The six positive-index turns of the 2×2×2 cube (U, L, F layers). -/
def posTurns2 : List Turn :=
  [.faceBased .Up true 0 2, .faceBased .Up false 0 2,
   .faceBased .Left true 0 2, .faceBased .Left false 0 2,
   .faceBased .Front true 0 2, .faceBased .Front false 0 2]

lemma filter_allTurns2 : allTurns2List.filter posFilterB = posTurns2 := by decide

lemma posTurns2_validFor : ∀ t ∈ posTurns2, t.validFor 2 := by decide

lemma posTurns2_invert : ∀ t ∈ posTurns2, t.invert ∈ posTurns2 := by decide

lemma posTurns2_outer : ∀ t ∈ posTurns2, isOuter2 t := by
  intro t ht
  fin_cases ht <;> exact ⟨_, _, rfl⟩

/-- A 2×2×2 state whose data beyond the 24 real facelets is the `White`
default, as all states produced by the program are. -/
def canon2 (S : CubeState) : Prop :=
  S.n = 2 ∧ ∀ p, 24 ≤ p → S.data p = Color.White

lemma FtrmBound : ∀ (f : Face) (v : Bool), ∀ p < 24,
    turnReadMap 2 f v 0 p < 24 := by decide

lemma canon2_std : canon2 (stdSolved 2) := by
  refine ⟨rfl, fun p hp => ?_⟩
  show (if p < 6 * (2 * 2) then stdColor (p / (2 * 2)) else .White) = Color.White
  rw [if_neg (by omega)]

lemma canon2_turn {S : CubeState} (h : canon2 S) {t : Turn} (ht : t.validFor 2) :
    canon2 (S.turn t) := by
  obtain ⟨hn, hw⟩ := h
  obtain ⟨f, v, hfb⟩ := validFor2_fb ht
  rw [← turn_intoFaceBased S t, hfb, turn2_data S f v hn]
  refine ⟨rfl, fun p hp => ?_⟩
  show S.data (turnReadMap 2 f v 0 p) = Color.White
  rw [turnReadMap_untouched 2 f v 0 (by omega) p (by omega)]
  exact hw p hp

lemma isSolved2_stdSolved : (stdSolved 2).isSolved := by decide

lemma eqv_turn {S T : CubeState} (hS : S.n = 2) (h : S.eqv T) {t : Turn}
    (ht : t.validFor 2) : (S.turn t).eqv (T.turn t) := by
  obtain ⟨hn, hd⟩ := h
  obtain ⟨f, v, hfb⟩ := validFor2_fb ht
  rw [← turn_intoFaceBased S t, ← turn_intoFaceBased T t, hfb,
    turn2_data S f v hS, turn2_data T f v (by omega)]
  refine ⟨rfl, fun i hi => ?_⟩
  dsimp only at hi
  show S.data (turnReadMap 2 f v 0 i) = T.data (turnReadMap 2 f v 0 i)
  have hib : i < 24 := by omega
  have htb := FtrmBound f v i hib
  apply hd
  rw [hS]
  omega

lemma eqv_doMove {S T : CubeState} (hS : S.n = 2) (h : S.eqv T) (w : List Turn)
    (hw : ∀ t ∈ w, t.validFor 2) : (S.doMove ⟨w⟩).eqv (T.doMove ⟨w⟩) := by
  induction w generalizing S T with
  | nil => exact h
  | cons t ts ih =>
    show ((S.turn t).doMove ⟨ts⟩).eqv ((T.turn t).doMove ⟨ts⟩)
    exact ih (by rw [turn_n]; exact hS)
      (eqv_turn hS h (hw t (List.mem_cons_self ..)))
      (fun u hu => hw u (List.mem_cons_of_mem t hu))

lemma isSolved_eqv {S T : CubeState} (h : S.eqv T) :
    S.isSolved ↔ T.isSolved := by
  obtain ⟨hn, hd⟩ := h
  have hb : ∀ face < 6, ∀ i < S.n * S.n, S.n * S.n * face + i < 6 * (S.n * S.n) := by
    intro face hf i hi
    have h5 : S.n * S.n * face ≤ S.n * S.n * 5 := Nat.mul_le_mul_left _ (by omega)
    omega
  unfold CubeState.isSolved
  rw [← hn]
  constructor
  · intro hs face hf i hi
    rw [← hd _ (hb face hf _ hi), ← hd _ (by have := hb face hf 0 (by omega); omega)]
    exact hs face hf i hi
  · intro hs face hf i hi
    rw [hd _ (hb face hf _ hi), hd _ (by have := hb face hf 0 (by omega); omega)]
    exact hs face hf i hi

lemma eqv_refl (S : CubeState) : S.eqv S := ⟨rfl, fun _ _ => rfl⟩

lemma eqv_symm {S T : CubeState} (h : S.eqv T) : T.eqv S := by
  obtain ⟨hn, hd⟩ := h
  refine ⟨hn.symm, fun i hi => ?_⟩
  have hsq : S.n * S.n = T.n * T.n := by rw [hn]
  exact (hd i (by omega)).symm

lemma canon2_eqv_eq {S T : CubeState} (hS : canon2 S) (hT : canon2 T)
    (h : S.eqv T) : S = T := by
  obtain ⟨hSn, hSw⟩ := hS
  obtain ⟨hTn, hTw⟩ := hT
  obtain ⟨hn, hd⟩ := h
  obtain ⟨n1, d1⟩ := S
  obtain ⟨n2, d2⟩ := T
  simp only at hSn hTn hSw hTw hd
  subst hSn hTn
  simp only [CubeState.mk.injEq, true_and]
  funext p
  by_cases hp : p < 24
  · exact hd p (by omega)
  · rw [hSw p (by omega), hTw p (by omega)]

/-- Reachability from the solved 2×2×2 cube by exactly `k` positive turns. -/
def reachN (k : ℕ) (S : CubeState) : Prop :=
  ∃ w : List Turn, (∀ t ∈ w, t ∈ posTurns2) ∧ w.length = k ∧
    (stdSolved 2).doMove ⟨w⟩ = S

/-- Exact BFS distance from the solved 2×2×2 cube. -/
def distE (S : CubeState) (d : ℕ) : Prop :=
  reachN d S ∧ ∀ j < d, ¬ reachN j S

lemma canon2_doMove {X : CubeState} (h : canon2 X) (w : List Turn)
    (hw : ∀ t ∈ w, t.validFor 2) : canon2 (X.doMove ⟨w⟩) := by
  induction w generalizing X with
  | nil => exact h
  | cons t ts ih =>
    show canon2 ((X.turn t).doMove ⟨ts⟩)
    exact ih (canon2_turn h (hw t (List.mem_cons_self ..)))
      (fun u hu => hw u (List.mem_cons_of_mem t hu))

lemma reach_canon2 {k : ℕ} {S : CubeState} (h : reachN k S) : canon2 S := by
  obtain ⟨w, hw, -, rfl⟩ := h
  exact canon2_doMove canon2_std w (fun t ht => posTurns2_validFor t (hw t ht))

lemma reach_n2 {k : ℕ} {S : CubeState} (h : reachN k S) : S.n = 2 :=
  (reach_canon2 h).1

lemma distE_unique {S : CubeState} {d1 d2 : ℕ} (h1 : distE S d1) (h2 : distE S d2) :
    d1 = d2 := by
  by_contra hne
  rcases Nat.lt_or_ge d1 d2 with h | h
  · exact h2.2 d1 h h1.1
  · exact h1.2 d2 (by omega) h2.1

lemma distE_le_of_reach {S : CubeState} {d j : ℕ} (h : distE S d) (hr : reachN j S) :
    d ≤ j := by
  by_contra hlt
  exact h.2 j (by omega) hr

lemma exists_dist : ∀ (k : ℕ) {S : CubeState}, reachN k S → ∃ d ≤ k, distE S d := by
  intro k
  induction k using Nat.strong_induction_on with
  | _ k ih =>
    intro S hr
    by_cases h : ∃ j < k, reachN j S
    · obtain ⟨j, hj, hrj⟩ := h
      obtain ⟨d, hd1, hd2⟩ := ih j hj hrj
      exact ⟨d, by omega, hd2⟩
    · push_neg at h
      exact ⟨k, le_refl k, hr, h⟩

lemma reach_succ_comp {j : ℕ} {V : CubeState} (h : reachN j V) {t : Turn}
    (ht : t ∈ posTurns2) : reachN (j + 1) (V.turn t) := by
  obtain ⟨w, hw, hl, rfl⟩ := h
  refine ⟨w ++ [t], ?_, by simp [hl], ?_⟩
  · intro u hu
    rcases List.mem_append.mp hu with h | h
    · exact hw u h
    · rw [List.mem_singleton.mp h]
      exact ht
  · rw [doMove_append]
    rfl

lemma reach_succ_decomp {j : ℕ} {U : CubeState} (h : reachN (j + 1) U) :
    ∃ V t, reachN j V ∧ t ∈ posTurns2 ∧ U = V.turn t := by
  obtain ⟨w, hw, hl, rfl⟩ := h
  cases hrev : w.reverse with
  | nil =>
    exfalso
    have hlen : w.length = 0 := by
      rw [← List.length_reverse, hrev]
      rfl
    omega
  | cons t r =>
    have hw2 : w = r.reverse ++ [t] := by
      rw [← List.reverse_reverse w, hrev, List.reverse_cons]
    refine ⟨(stdSolved 2).doMove ⟨r.reverse⟩, t, ⟨r.reverse, ?_, ?_, rfl⟩, ?_, ?_⟩
    · intro u hu
      exact hw u (by rw [hw2]; exact List.mem_append_left _ hu)
    · have hle := congrArg List.length hw2
      rw [List.length_append, List.length_cons, List.length_nil] at hle
      rw [List.length_reverse] at hle ⊢
      omega
    · exact hw t (by rw [hw2]; exact List.mem_append_right _ (List.mem_cons_self ..))
    · rw [hw2, doMove_append]
      rfl

lemma distE_succ_decomp {j : ℕ} {U : CubeState} (h : distE U (j + 1)) :
    ∃ V t, distE V j ∧ t ∈ posTurns2 ∧ U = V.turn t := by
  obtain ⟨V, t, hrV, ht, rfl⟩ := reach_succ_decomp h.1
  obtain ⟨d, hdj, hdV⟩ := exists_dist j hrV
  have hde : d = j := by
    by_contra hne
    have hdlt : d < j := by omega
    exact h.2 (d + 1) (by omega) (reach_succ_comp hdV.1 ht)
  rw [hde] at hdV
  exact ⟨V, t, hdV, ht, rfl⟩

/-- Membership test of the model hash table (`contains_key` with the source's
state equality). -/
def containsT (tbl : List (CubeState × ℕ)) (S : CubeState) : Bool :=
  tbl.any fun e => decide (e.1.eqv S)

/-- Lookup in the model hash table (`get` with the source's state equality). -/
def lookupT (tbl : List (CubeState × ℕ)) (S : CubeState) : Option ℕ :=
  (tbl.find? fun e => decide (e.1.eqv S)).map Prod.snd

lemma containsT_iff (tbl : List (CubeState × ℕ)) (S : CubeState) :
    containsT tbl S = true ↔ ∃ e ∈ tbl, e.1.eqv S := by
  unfold containsT
  rw [List.any_eq_true]
  constructor
  · rintro ⟨e, he, hd⟩
    exact ⟨e, he, of_decide_eq_true hd⟩
  · rintro ⟨e, he, hd⟩
    exact ⟨e, he, decide_eq_true hd⟩

lemma lookupT_some {tbl : List (CubeState × ℕ)} {S : CubeState} {d : ℕ}
    (h : lookupT tbl S = some d) : ∃ T, (T, d) ∈ tbl ∧ T.eqv S := by
  unfold lookupT at h
  rcases hf : tbl.find? fun e => decide (e.1.eqv S) with _ | e
  · rw [hf] at h
    cases h
  · rw [hf] at h
    have hmem := List.mem_of_find?_eq_some hf
    have hp := List.find?_some hf
    have he2 : e.2 = d := by
      injection h
    obtain ⟨T, v⟩ := e
    simp only at he2
    subst he2
    exact ⟨T, hmem, of_decide_eq_true hp⟩

lemma containsT_mono {tbl : List (CubeState × ℕ)} {S : CubeState}
    (e : CubeState × ℕ) (h : containsT tbl S = true) :
    containsT (e :: tbl) S = true := by
  rw [containsT_iff] at h ⊢
  obtain ⟨f, hf, hd⟩ := h
  exact ⟨f, List.mem_cons_of_mem e hf, hd⟩

/-- The successor states pushed for a popped `(state, i)` (source loop body). -/
def bfsChildren (tbl : List (CubeState × ℕ)) (S : CubeState) (i : ℕ) :
    List (CubeState × ℕ) :=
  if i < 14 then
    (((S.allTurns.filter posFilterB).map fun t => S.turn t).filter
      fun ns => ! containsT tbl ns).map fun ns => (ns, i + 1)
  else []

/-- The `while let Some((state, i)) = vq.pop_front()` loop of
`calc_corner_heuristics_table`, with fuel. -/
def bfsLoop : ℕ → List (CubeState × ℕ) → List (CubeState × ℕ) →
    List (CubeState × ℕ)
  | 0, tbl, _ => tbl
  | _ + 1, tbl, [] => tbl
  | fuel + 1, tbl, (S, i) :: q =>
    if containsT tbl S then bfsLoop fuel tbl q
    else bfsLoop fuel ((S, i) :: tbl) (q ++ bfsChildren tbl S i)

/-- The corner table built by `calc_corner_heuristics_table` (any fuel). -/
def bfsTable (fuel : ℕ) : List (CubeState × ℕ) :=
  bfsLoop fuel [] [(stdSolved 2, 0)]

/-- The corner table as a lookup function, in the `CornerTable` model. -/
def cornerTableModel (fuel : ℕ) : CornerTable := fun S => lookupT (bfsTable fuel) S

lemma reach_zero {U : CubeState} (h : reachN 0 U) : U = stdSolved 2 := by
  obtain ⟨w, -, hl, hU⟩ := h
  rw [List.length_eq_zero] at hl
  subst hl
  exact hU.symm

lemma bfsChildren_mem (tbl : List (CubeState × ℕ)) (S : CubeState) (h2 : S.n = 2)
    (i : ℕ) (f : CubeState × ℕ) :
    f ∈ bfsChildren tbl S i ↔
      i < 14 ∧ ∃ t ∈ posTurns2, f.1 = S.turn t ∧ f.2 = i + 1 ∧
        containsT tbl (S.turn t) = false := by
  unfold bfsChildren
  by_cases hi : i < 14
  · rw [if_pos hi, allTurns2 S h2, filter_allTurns2]
    constructor
    · intro hf
      obtain ⟨ns, hns, hfns⟩ := List.mem_map.mp hf
      obtain ⟨hns2, hnc⟩ := List.mem_filter.mp hns
      obtain ⟨t, ht, hst⟩ := List.mem_map.mp hns2
      subst hst
      refine ⟨hi, t, ht, ?_, ?_, ?_⟩
      · rw [← hfns]
      · rw [← hfns]
      · rw [Bool.not_eq_true'] at hnc
        exact hnc
    · rintro ⟨-, t, ht, h1, h2f, hcf⟩
      have hmem : (S.turn t, i + 1) ∈
          (((posTurns2.map fun t => S.turn t).filter
            fun ns => ! containsT tbl ns).map fun ns => (ns, i + 1)) :=
        List.mem_map.mpr ⟨S.turn t,
          List.mem_filter.mpr ⟨List.mem_map.mpr ⟨t, ht, rfl⟩, by rw [hcf]; rfl⟩, rfl⟩
      have hfe : f = (S.turn t, i + 1) := Prod.ext h1 h2f
      rw [hfe]
      exact hmem
  · rw [if_neg hi]
    constructor
    · intro hf
      exact absurd hf (List.not_mem_nil f)
    · rintro ⟨h14, -⟩
      exact absurd h14 hi

/-- The loop invariant of the corner-table BFS: table entries carry exact
distances, queue entries are reachable at their recorded level, levels are
nondecreasing and span at most two consecutive values, and every unexplored
frontier successor is accounted for. -/
structure BfsInv (tbl q : List (CubeState × ℕ)) : Prop where
  t1 : ∀ e ∈ tbl, distE e.1 e.2
  t3 : ∀ e ∈ tbl, ∀ f ∈ q, e.2 ≤ f.2
  t2 : ∀ e ∈ q, reachN e.2 e.1
  q1 : q.Pairwise fun a b => a.2 ≤ b.2
  q2 : ∀ a ∈ q, ∀ b ∈ q, a.2 ≤ b.2 + 1
  q3 : ∀ e ∈ q, e.2 ≤ 14
  c0 : containsT tbl (stdSolved 2) = true ∨
    ∃ e ∈ q, e.1 = stdSolved 2 ∧ e.2 = 0
  c2 : ∀ e ∈ tbl, e.2 < 14 → ∀ t ∈ posTurns2,
    containsT tbl (e.1.turn t) = true ∨
      ∃ f ∈ q, f.1 = e.1.turn t ∧ f.2 = e.2 + 1

lemma pairwise_head_min {S0 : CubeState} {i : ℕ} {q' : List (CubeState × ℕ)}
    (h : ((S0, i) :: q').Pairwise fun a b => a.2 ≤ b.2) :
    ∀ b ∈ q', i ≤ b.2 := by
  intro b hb
  exact (List.pairwise_cons.mp h).1 b hb

lemma mem_of_containsT {tbl : List (CubeState × ℕ)}
    (ht : ∀ e ∈ tbl, distE e.1 e.2) {V : CubeState} (hV : canon2 V)
    (hc : containsT tbl V = true) : ∃ d, (V, d) ∈ tbl := by
  obtain ⟨e, he, heqv⟩ := (containsT_iff tbl V).mp hc
  have hcanon : canon2 e.1 := reach_canon2 (ht e he).1
  have heq : e.1 = V := canon2_eqv_eq hcanon hV heqv
  exact ⟨e.2, by rw [← heq]; exact he⟩

lemma bfs_closed {tbl q' : List (CubeState × ℕ)} {S0 : CubeState} {i : ℕ}
    (inv : BfsInv tbl ((S0, i) :: q')) :
    ∀ j, j < i → ∀ U, distE U j → containsT tbl U = true := by
  intro j
  induction j using Nat.strong_induction_on with
  | _ j ih =>
    intro hji U hU
    cases j with
    | zero =>
      have hUstd : U = stdSolved 2 := reach_zero hU.1
      rcases inv.c0 with hcs | ⟨e, he, he1, he2⟩
      · rw [hUstd]
        exact hcs
      · exfalso
        rcases List.mem_cons.mp he with rfl | hmem
        · have he2' : i = 0 := he2
          omega
        · have hmin := pairwise_head_min inv.q1 e hmem
          omega
    | succ j' =>
      obtain ⟨V, t, hdV, ht, rfl⟩ := distE_succ_decomp hU
      have hcV : containsT tbl V = true := ih j' (by omega) (by omega) V hdV
      obtain ⟨d, hdmem⟩ := mem_of_containsT inv.t1 (reach_canon2 hdV.1) hcV
      have hdd : distE V d := inv.t1 (V, d) hdmem
      have hde : d = j' := distE_unique hdd hdV
      subst hde
      have hq3 : i ≤ 14 := inv.q3 (S0, i) (List.mem_cons_self ..)
      rcases inv.c2 (V, d) hdmem (by omega) t ht with hcs | ⟨f, hf, hf1, hf2⟩
      · exact hcs
      · exfalso
        rcases List.mem_cons.mp hf with rfl | hmem
        · have hf2' : i = d + 1 := hf2
          omega
        · have hmin := pairwise_head_min inv.q1 f hmem
          have hf2' : f.2 = d + 1 := hf2
          omega

lemma bfsInv_skip {tbl q' : List (CubeState × ℕ)} {S0 : CubeState} {i : ℕ}
    (inv : BfsInv tbl ((S0, i) :: q')) (hc : containsT tbl S0 = true) :
    BfsInv tbl q' := by
  refine ⟨inv.t1, ?_, ?_, (List.pairwise_cons.mp inv.q1).2, ?_, ?_, ?_, ?_⟩
  · intro e he f hf
    exact inv.t3 e he f (List.mem_cons_of_mem _ hf)
  · intro e he
    exact inv.t2 e (List.mem_cons_of_mem _ he)
  · intro a ha b hb
    exact inv.q2 a (List.mem_cons_of_mem _ ha) b (List.mem_cons_of_mem _ hb)
  · intro e he
    exact inv.q3 e (List.mem_cons_of_mem _ he)
  · rcases inv.c0 with hcs | ⟨e, he, he1, he2⟩
    · exact Or.inl hcs
    · rcases List.mem_cons.mp he with rfl | hmem
      · have he1' : S0 = stdSolved 2 := he1
        rw [← he1']
        exact Or.inl hc
      · exact Or.inr ⟨e, hmem, he1, he2⟩
  · intro e he h14 t ht
    rcases inv.c2 e he h14 t ht with hcs | ⟨f, hf, hf1, hf2⟩
    · exact Or.inl hcs
    · rcases List.mem_cons.mp hf with rfl | hmem
      · have hf1' : S0 = e.1.turn t := hf1
        rw [← hf1']
        exact Or.inl hc
      · exact Or.inr ⟨f, hmem, hf1, hf2⟩

lemma bfsInv_insert {tbl q' : List (CubeState × ℕ)} {S0 : CubeState} {i : ℕ}
    (inv : BfsInv tbl ((S0, i) :: q')) (hc : containsT tbl S0 = false) :
    BfsInv ((S0, i) :: tbl) (q' ++ bfsChildren tbl S0 i) := by
  have hr0 : reachN i S0 := inv.t2 (S0, i) (List.mem_cons_self ..)
  have hn2 : S0.n = 2 := reach_n2 hr0
  have hd0 : distE S0 i := by
    obtain ⟨d, hdle, hdE⟩ := exists_dist i hr0
    rcases Nat.lt_or_ge d i with hlt | hge
    · have htrue := bfs_closed inv d hlt S0 hdE
      rw [hc] at htrue
      exact absurd htrue Bool.false_ne_true
    · have hdi : d = i := by omega
      rwa [hdi] at hdE
  have hch : ∀ f ∈ bfsChildren tbl S0 i, i < 14 ∧ f.2 = i + 1 ∧ reachN (i + 1) f.1 := by
    intro f hf
    obtain ⟨h14, t, ht, h1, h2f, -⟩ := (bfsChildren_mem tbl S0 hn2 i f).mp hf
    refine ⟨h14, h2f, ?_⟩
    rw [h1]
    exact reach_succ_comp hr0 ht
  refine ⟨?_, ?_, ?_, ?_, ?_, ?_, ?_, ?_⟩
  · intro e he
    rcases List.mem_cons.mp he with rfl | hmem
    · exact hd0
    · exact inv.t1 e hmem
  · intro e he f hf
    rcases List.mem_cons.mp he with rfl | hmem
    · rcases List.mem_append.mp hf with hfq | hfc
      · exact pairwise_head_min inv.q1 f hfq
      · have hf2 := (hch f hfc).2.1
        show i ≤ f.2
        omega
    · rcases List.mem_append.mp hf with hfq | hfc
      · exact inv.t3 e hmem f (List.mem_cons_of_mem _ hfq)
      · have h1 : e.2 ≤ i := inv.t3 e hmem (S0, i) (List.mem_cons_self ..)
        have hf2 := (hch f hfc).2.1
        omega
  · intro f hf
    rcases List.mem_append.mp hf with hfq | hfc
    · exact inv.t2 f (List.mem_cons_of_mem _ hfq)
    · rw [(hch f hfc).2.1]
      exact (hch f hfc).2.2
  · refine List.pairwise_append.mpr ⟨(List.pairwise_cons.mp inv.q1).2, ?_, ?_⟩
    · refine List.pairwise_of_forall_mem_list ?_
      intro a ha b hb
      have ha2 := (hch a ha).2.1
      have hb2 := (hch b hb).2.1
      omega
    · intro a ha b hb
      have ha2 : a.2 ≤ i + 1 := inv.q2 a (List.mem_cons_of_mem _ ha)
        (S0, i) (List.mem_cons_self ..)
      have hb2 := (hch b hb).2.1
      omega
  · intro a ha b hb
    rcases List.mem_append.mp ha with haq | hac
    · rcases List.mem_append.mp hb with hbq | hbc
      · exact inv.q2 a (List.mem_cons_of_mem _ haq) b (List.mem_cons_of_mem _ hbq)
      · have ha2 : a.2 ≤ i + 1 := inv.q2 a (List.mem_cons_of_mem _ haq)
          (S0, i) (List.mem_cons_self ..)
        have hb2 := (hch b hbc).2.1
        omega
    · rcases List.mem_append.mp hb with hbq | hbc
      · have ha2 := (hch a hac).2.1
        have hb2 := pairwise_head_min inv.q1 b hbq
        omega
      · have ha2 := (hch a hac).2.1
        have hb2 := (hch b hbc).2.1
        omega
  · intro e he
    rcases List.mem_append.mp he with heq | hec
    · exact inv.q3 e (List.mem_cons_of_mem _ heq)
    · have h14 := (hch e hec).1
      have he2 := (hch e hec).2.1
      omega
  · rcases inv.c0 with hcs | ⟨e, he, he1, he2⟩
    · exact Or.inl (containsT_mono (S0, i) hcs)
    · rcases List.mem_cons.mp he with rfl | hmem
      · have he1' : S0 = stdSolved 2 := he1
        refine Or.inl ?_
        rw [← he1']
        exact (containsT_iff _ _).mpr ⟨(S0, i), List.mem_cons_self .., eqv_refl S0⟩
      · exact Or.inr ⟨e, List.mem_append_left _ hmem, he1, he2⟩
  · intro e he h14 t ht
    rcases List.mem_cons.mp he with rfl | hmem
    · have h14' : i < 14 := h14
      cases hcx : containsT tbl (S0.turn t) with
      | true =>
        exact Or.inl (containsT_mono (S0, i) hcx)
      | false =>
        refine Or.inr ⟨(S0.turn t, i + 1), List.mem_append_right _ ?_, rfl, rfl⟩
        exact (bfsChildren_mem tbl S0 hn2 i _).mpr ⟨h14', t, ht, rfl, rfl, hcx⟩
    · rcases inv.c2 e hmem h14 t ht with hcs | ⟨f, hf, hf1, hf2⟩
      · exact Or.inl (containsT_mono (S0, i) hcs)
      · rcases List.mem_cons.mp hf with rfl | hmem2
        · have hf1' : S0 = e.1.turn t := hf1
          refine Or.inl ?_
          rw [← hf1']
          exact (containsT_iff _ _).mpr ⟨(S0, i), List.mem_cons_self .., eqv_refl S0⟩
        · exact Or.inr ⟨f, List.mem_append_left _ hmem2, hf1, hf2⟩

lemma bfs_sound : ∀ (fuel : ℕ) (tbl q : List (CubeState × ℕ)), BfsInv tbl q →
    ∀ e ∈ bfsLoop fuel tbl q, distE e.1 e.2 := by
  intro fuel
  induction fuel with
  | zero =>
    intro tbl q inv e he
    exact inv.t1 e he
  | succ fuel ih =>
    intro tbl q inv e he
    cases q with
    | nil => exact inv.t1 e he
    | cons hd q' =>
      obtain ⟨S0, i⟩ := hd
      have he' : e ∈ (if containsT tbl S0 then bfsLoop fuel tbl q'
          else bfsLoop fuel ((S0, i) :: tbl) (q' ++ bfsChildren tbl S0 i)) := he
      cases hcb : containsT tbl S0 with
      | true =>
        rw [hcb, if_pos rfl] at he'
        exact ih tbl q' (bfsInv_skip inv hcb) e he'
      | false =>
        rw [hcb, if_neg Bool.false_ne_true] at he'
        exact ih _ _ (bfsInv_insert inv hcb) e he'

lemma bfsInv_init : BfsInv [] [(stdSolved 2, 0)] := by
  refine ⟨?_, ?_, ?_, List.pairwise_singleton _ _, ?_, ?_, ?_, ?_⟩
  · intro e he
    exact absurd he (List.not_mem_nil e)
  · intro e he
    exact absurd he (List.not_mem_nil e)
  · intro e he
    rw [List.mem_singleton] at he
    subst he
    exact ⟨[], fun t ht => absurd ht (List.not_mem_nil t), rfl, rfl⟩
  · intro a ha b hb
    rw [List.mem_singleton] at ha
    subst ha
    exact Nat.zero_le _
  · intro e he
    rw [List.mem_singleton] at he
    subst he
    exact Nat.zero_le 14
  · exact Or.inr ⟨(stdSolved 2, 0), List.mem_singleton_self _, rfl, rfl⟩
  · intro e he
    exact absurd he (List.not_mem_nil e)

lemma bfsTable_sound (fuel : ℕ) : ∀ e ∈ bfsTable fuel, distE e.1 e.2 :=
  bfs_sound fuel [] [(stdSolved 2, 0)] bfsInv_init

lemma lookup_distE {fuel : ℕ} {S : CubeState} {d : ℕ}
    (h : lookupT (bfsTable fuel) S = some d) :
    ∃ T, T.eqv S ∧ canon2 T ∧ distE T d := by
  obtain ⟨T, hmem, heqv⟩ := lookupT_some h
  have hd : distE T d := bfsTable_sound fuel (T, d) hmem
  exact ⟨T, heqv, reach_canon2 hd.1, hd⟩

lemma distE_solving_word {T : CubeState} {d : ℕ} (h : distE T d) :
    ∃ w : List Turn, (∀ t ∈ w, t.validFor 2) ∧ w.length = d ∧
      (T.doMove ⟨w⟩).isSolved := by
  obtain ⟨w, hw, hl, hT⟩ := h.1
  have hv : ∀ t ∈ (Move.mk w).turns, t.validFor (stdSolved 2).n :=
    fun t ht => posTurns2_validFor t (hw t ht)
  refine ⟨(Move.mk w).invert.turns, ?_, ?_, ?_⟩
  · intro t ht
    obtain ⟨u, hu, rfl⟩ := mem_invert_turns ht
    exact invert_validFor (posTurns2_validFor u (hw u hu))
  · show ((Move.mk w).invert.turns).length = d
    unfold Move.invert
    rw [List.length_map, List.length_reverse]
    exact hl
  · rw [← hT]
    have hcanc := doMove_invert_cancel (stdSolved 2) ⟨w⟩ hv
    show (((stdSolved 2).doMove ⟨w⟩).doMove (Move.mk w).invert).isSolved
    rw [hcanc]
    exact isSolved2_stdSolved

/-! ### Conjugation of face turns by whole-cube rotations -/

/-- The face a face-based turn becomes when the whole cube is first rotated
about an axis. -/
def conjF : Axis → Face → Face
  | .X, .Up => .Front
  | .X, .Front => .Down
  | .X, .Down => .Back
  | .X, .Back => .Up
  | .Y, .Up => .Right
  | .Y, .Right => .Down
  | .Y, .Down => .Left
  | .Y, .Left => .Up
  | .Z, .Left => .Back
  | .Z, .Back => .Right
  | .Z, .Right => .Front
  | .Z, .Front => .Left
  | _, f => f

set_option maxRecDepth 4000 in
lemma Fconj : ∀ (ax : Axis) (f : Face) (v : Bool), ∀ p < 24,
    rotReadMap 2 ax (turnReadMap 2 f v 0 p) =
      turnReadMap 2 (conjF ax f) v 0 (rotReadMap 2 ax p) := by decide

lemma conj_all (ax : Axis) (f : Face) (v : Bool) (p : ℕ) :
    rotReadMap 2 ax (turnReadMap 2 f v 0 p) =
      turnReadMap 2 (conjF ax f) v 0 (rotReadMap 2 ax p) := by
  by_cases hp : p < 24
  · exact Fconj ax f v p hp
  · have h24 : 24 ≤ p := by omega
    rw [turnReadMap_untouched 2 f v 0 (by omega) p (by omega),
      rotReadMap2_untouched ax p h24,
      turnReadMap_untouched 2 (conjF ax f) v 0 (by omega) p (by omega)]

lemma rot_turn_comm (S : CubeState) (hS : S.n = 2) (ax : Axis) (f : Face) (v : Bool) :
    (S.rotateCube ax).turn (Turn.faceBased f v 0 2) =
      (S.turn (Turn.faceBased (conjF ax f) v 0 2)).rotateCube ax := by
  have hrn : (S.rotateCube ax).n = 2 := by rw [rotateCube_n, hS]
  have htn : (S.turn (Turn.faceBased (conjF ax f) v 0 2)).n = 2 := by
    rw [turn_n, hS]
  calc (S.rotateCube ax).turn (Turn.faceBased f v 0 2)
      = { n := 2, data := fun q => (S.rotateCube ax).data (turnReadMap 2 f v 0 q) } :=
        turn2_data _ f v hrn
    _ = { n := 2, data := fun q => S.data (rotReadMap 2 ax (turnReadMap 2 f v 0 q)) } := by
        rw [rot2_data S ax hS]
    _ = { n := 2, data :=
          fun q => S.data (turnReadMap 2 (conjF ax f) v 0 (rotReadMap 2 ax q)) } := by
        simp only [CubeState.mk.injEq, true_and]
        funext q
        exact congrArg S.data (conj_all ax f v q)
    _ = { n := 2, data :=
          fun q => (S.turn (Turn.faceBased (conjF ax f) v 0 2)).data (rotReadMap 2 ax q) } := by
        rw [turn2_data S (conjF ax f) v hS]
    _ = (S.turn (Turn.faceBased (conjF ax f) v 0 2)).rotateCube ax :=
        (rot2_data _ ax htn).symm

/-- One face-based outer turn of the 2×2×2 cube, given as a face/inversion
pair. -/
def fvTurn (S : CubeState) (p : Face × Bool) : CubeState :=
  S.turn (Turn.faceBased p.1 p.2 0 2)

/-- A word of face/inversion pairs applied in sequence. -/
def fvDo (S : CubeState) (u : List (Face × Bool)) : CubeState :=
  u.foldl fvTurn S

lemma fvTurn_n (S : CubeState) (p : Face × Bool) : (fvTurn S p).n = S.n :=
  turn_n S _

lemma fvDo_n (S : CubeState) (u : List (Face × Bool)) : (fvDo S u).n = S.n := by
  induction u generalizing S with
  | nil => rfl
  | cons p rest ih =>
    show (fvDo (fvTurn S p) rest).n = S.n
    rw [ih, fvTurn_n]

def conjP1 (ax : Axis) (p : Face × Bool) : Face × Bool := (conjF ax p.1, p.2)

lemma push_rot1 (ax : Axis) : ∀ (u : List (Face × Bool)) (S : CubeState), S.n = 2 →
    fvDo (S.rotateCube ax) u = (fvDo S (u.map (conjP1 ax))).rotateCube ax := by
  intro u
  induction u with
  | nil =>
    intro S _
    rfl
  | cons p rest ih =>
    intro S hS
    obtain ⟨f, v⟩ := p
    show fvDo (fvTurn (S.rotateCube ax) (f, v)) rest = _
    rw [show fvTurn (S.rotateCube ax) (f, v) =
        (fvTurn S (conjF ax f, v)).rotateCube ax from rot_turn_comm S hS ax f v]
    rw [ih (fvTurn S (conjF ax f, v)) (by rw [fvTurn_n, hS])]
    rfl

/-- Conjugating a turn word through a rotation word, innermost rotation
first. -/
def conjWord : List Axis → List (Face × Bool) → List (Face × Bool)
  | [], u => u
  | a :: r, u => (conjWord r u).map (conjP1 a)

lemma conjWord_length (r : List Axis) (u : List (Face × Bool)) :
    (conjWord r u).length = u.length := by
  induction r with
  | nil => rfl
  | cons a r ih =>
    show ((conjWord r u).map (conjP1 a)).length = u.length
    rw [List.length_map, ih]

lemma push_rots : ∀ (r : List Axis) (u : List (Face × Bool)) (S : CubeState), S.n = 2 →
    fvDo (doRots S r) u = doRots (fvDo S (conjWord r u)) r := by
  intro r
  induction r with
  | nil =>
    intro u S _
    rfl
  | cons a r ih =>
    intro u S hS
    show fvDo (doRots (S.rotateCube a) r) u = _
    rw [ih u (S.rotateCube a) (by rw [rotateCube_n, hS]),
      push_rot1 a (conjWord r u) S hS]
    rfl

/-- The positive-index counterpart of a face/inversion pair. -/
def posP : Face × Bool → Face × Bool
  | (.Right, v) => (.Left, v)
  | (.Back, v) => (.Front, v)
  | (.Down, v) => (.Up, v)
  | p => p

/-- The whole-cube rotations realizing a negative-index turn from its
positive counterpart. -/
def rotOf : Face × Bool → List Axis
  | (.Right, false) => [.X]
  | (.Right, true) => [.X, .X, .X]
  | (.Back, false) => [.Y]
  | (.Back, true) => [.Y, .Y, .Y]
  | (.Down, false) => [.Z]
  | (.Down, true) => [.Z, .Z, .Z]
  | _ => []

set_option maxRecDepth 4000 in
lemma FnegPos : ∀ (f : Face) (v : Bool), ∀ q < 24,
    turnReadMap 2 f v 0 q =
      turnReadMap 2 (posP (f, v)).1 (posP (f, v)).2 0 (rotW (rotOf (f, v)) q) := by
  decide

lemma posP_mem : ∀ (f : Face) (v : Bool),
    Turn.faceBased (posP (f, v)).1 (posP (f, v)).2 0 2 ∈ posTurns2 := by decide

lemma negPos_all (f : Face) (v : Bool) (q : ℕ) :
    turnReadMap 2 f v 0 q =
      turnReadMap 2 (posP (f, v)).1 (posP (f, v)).2 0 (rotW (rotOf (f, v)) q) := by
  by_cases hq : q < 24
  · exact FnegPos f v q hq
  · have h24 : 24 ≤ q := by omega
    rw [turnReadMap_untouched 2 f v 0 (by omega) q (by omega), rotW_untouched _ q h24,
      turnReadMap_untouched 2 _ _ 0 (by omega) q (by omega)]

lemma negPos_state (S : CubeState) (hS : S.n = 2) (f : Face) (v : Bool) :
    S.turn (Turn.faceBased f v 0 2) =
      doRots (S.turn (Turn.faceBased (posP (f, v)).1 (posP (f, v)).2 0 2))
        (rotOf (f, v)) := by
  have htn : (S.turn (Turn.faceBased (posP (f, v)).1 (posP (f, v)).2 0 2)).n = 2 := by
    rw [turn_n, hS]
  calc S.turn (Turn.faceBased f v 0 2)
      = { n := 2, data := fun q => S.data (turnReadMap 2 f v 0 q) } :=
        turn2_data S f v hS
    _ = { n := 2, data := fun q =>
          S.data (turnReadMap 2 (posP (f, v)).1 (posP (f, v)).2 0
            (rotW (rotOf (f, v)) q)) } := by
        simp only [CubeState.mk.injEq, true_and]
        funext q
        exact congrArg S.data (negPos_all f v q)
    _ = { n := 2, data := fun q =>
          (S.turn (Turn.faceBased (posP (f, v)).1 (posP (f, v)).2 0 2)).data
            (rotW (rotOf (f, v)) q) } := by
        rw [turn2_data S (posP (f, v)).1 (posP (f, v)).2 hS]
    _ = doRots (S.turn (Turn.faceBased (posP (f, v)).1 (posP (f, v)).2 0 2))
          (rotOf (f, v)) :=
        (doRots_data _ htn _).symm

lemma fv_to_pos : ∀ (k : ℕ) (u : List (Face × Bool)), u.length = k →
    ∀ S : CubeState, S.n = 2 →
    ∃ (pw : List (Face × Bool)) (r : List Axis), pw.length = k ∧
      (∀ p ∈ pw, Turn.faceBased p.1 p.2 0 2 ∈ posTurns2) ∧
      fvDo S u = doRots (fvDo S pw) r := by
  intro k
  induction k using Nat.strong_induction_on with
  | _ k ih =>
    intro u hlen S hS
    cases u with
    | nil =>
      refine ⟨[], [], hlen, ?_, rfl⟩
      · intro p hp
        exact absurd hp (List.not_mem_nil p)
    | cons p rest =>
      obtain ⟨f, v⟩ := p
      have hk : k = rest.length + 1 := by
        rw [← hlen, List.length_cons]
      have hS' : (S.turn (Turn.faceBased (posP (f, v)).1 (posP (f, v)).2 0 2)).n = 2 := by
        rw [turn_n, hS]
      obtain ⟨pw2, r2, hl2, hpos2, heq2⟩ := ih rest.length (by omega)
        (conjWord (rotOf (f, v)) rest) (conjWord_length _ _)
        (S.turn (Turn.faceBased (posP (f, v)).1 (posP (f, v)).2 0 2)) hS'
      refine ⟨posP (f, v) :: pw2, r2 ++ rotOf (f, v), ?_, ?_, ?_⟩
      · show pw2.length + 1 = k
        omega
      · intro q hq
        rcases List.mem_cons.mp hq with rfl | hmem
        · exact posP_mem f v
        · exact hpos2 q hmem
      · calc fvDo S ((f, v) :: rest)
            = fvDo (S.turn (Turn.faceBased f v 0 2)) rest := rfl
          _ = fvDo (doRots (S.turn (Turn.faceBased (posP (f, v)).1 (posP (f, v)).2 0 2))
                (rotOf (f, v))) rest := by
              rw [negPos_state S hS f v]
          _ = doRots (fvDo (S.turn (Turn.faceBased (posP (f, v)).1 (posP (f, v)).2 0 2))
                (conjWord (rotOf (f, v)) rest)) (rotOf (f, v)) :=
              push_rots (rotOf (f, v)) rest _ hS'
          _ = doRots (doRots (fvDo (S.turn
                (Turn.faceBased (posP (f, v)).1 (posP (f, v)).2 0 2)) pw2) r2)
                (rotOf (f, v)) := by
              rw [heq2]
          _ = doRots (fvDo (S.turn
                (Turn.faceBased (posP (f, v)).1 (posP (f, v)).2 0 2)) pw2)
                (r2 ++ rotOf (f, v)) := (doRots_append _ r2 _).symm
          _ = doRots (fvDo S (posP (f, v) :: pw2)) (r2 ++ rotOf (f, v)) := rfl

lemma fvDo_doMove (S : CubeState) (u : List (Face × Bool)) :
    fvDo S u = S.doMove ⟨u.map (fun p => Turn.faceBased p.1 p.2 0 2)⟩ := by
  induction u generalizing S with
  | nil => rfl
  | cons p rest ih =>
    show fvDo (fvTurn S p) rest = _
    rw [ih (fvTurn S p)]
    rfl

lemma doMove_fv (w : List Turn) (hw : ∀ t ∈ w, t.validFor 2) (S : CubeState) :
    ∃ u : List (Face × Bool), u.length = w.length ∧ S.doMove ⟨w⟩ = fvDo S u := by
  induction w generalizing S with
  | nil => exact ⟨[], rfl, rfl⟩
  | cons t ts ih =>
    obtain ⟨f, v, hfb⟩ := validFor2_fb (hw t (List.mem_cons_self ..))
    obtain ⟨u, hul, hue⟩ := ih (fun x hx => hw x (List.mem_cons_of_mem t hx)) (S.turn t)
    refine ⟨(f, v) :: u, ?_, ?_⟩
    · show u.length + 1 = ts.length + 1
      omega
    · show (S.turn t).doMove ⟨ts⟩ = fvDo (fvTurn S (f, v)) u
      rw [hue]
      have hst : S.turn t = fvTurn S (f, v) := by
        rw [← turn_intoFaceBased S t, hfb]
        rfl
      rw [hst]
